import Mathlib

/-!
# The memory-pool allocator of `mem_pool.c`

A shallow embedding of the allocator and the properties of its segment list,
gap index and counters.

Modelling conventions.

* `malloc` and `realloc` are assumed to succeed.  `node_heap` is the memory of
  the node heap, one cell per node: the block the C field `node_heap` points at
  is its last `total_nodes` cells, and the cells before it are the blocks that
  `realloc` has released.  A pointer to a node is the index of its cell in this
  memory; `NULL` is `none`.
* When `realloc` grows the node heap, the block moves: its cells are copied to
  a new block behind the old one, which is released, and no pointer is changed.
  The `next` and `prev` links, the `node` pointers of the gap index and the
  handles returned before still hold addresses of the released block.
* `gap_ix` and `pool_store` are reached only through the pointer that `realloc`
  returns, so for them a move is not visible and the array is its own block.
* `alloc_record.mem` is the byte offset from `pool.mem` (`none` for `NULL`).
* A cell is `some v` once it has been written and `none` while its content is
  indeterminate (the cells `realloc` adds) or after its block is released.
  Reading such a cell, reading or writing outside the memory, a failing
  `assert` and a loop that does not terminate are where the behaviour of the
  code is not defined or the run is aborted: the call returns `none`.
* `size_t` subtraction and `unsigned` decrement wrap around as in C (64 and 32
  bits); additions are exact, the sums staying within the pool size and the
  counters within the number of slots.
* `(float) n / cap > 0.75` is `3 * cap < 4 * n`, exact for the slot counts that
  occur here.
-/

namespace MemPool

/-! ## Constants -/

def MEM_POOL_STORE_INIT_CAPACITY : Nat := 20
def MEM_POOL_STORE_EXPAND_FACTOR : Nat := 2
def MEM_NODE_HEAP_INIT_CAPACITY : Nat := 40
def MEM_NODE_HEAP_EXPAND_FACTOR : Nat := 2
def MEM_GAP_IX_INIT_CAPACITY : Nat := 40
def MEM_GAP_IX_EXPAND_FACTOR : Nat := 2

/-- The test `(float) n / cap > 0.75` shared by the three `_FILL_FACTOR`
constants. -/
def fill_exceeded (n cap : Nat) : Bool := decide (3 * cap < 4 * n)

/-- Subtraction of two `size_t` values. -/
def sub_size_t (a b : Nat) : Nat := if b ≤ a then a - b else a + 2 ^ 64 - b

/-- The `--` of an `unsigned` counter. -/
def dec_unsigned (a : Nat) : Nat := if 0 < a then a - 1 else 2 ^ 32 - 1

/-! ## Arrays with indeterminate cells -/

/-- Read of cell `i`. -/
def rd {α : Type} (a : List (Option α)) (i : Nat) : Option α :=
  match a.get? i with
  | some (some v) => some v
  | _ => none

/-- Write of cell `i`, refused outside the array. -/
def wr {α : Type} (a : List (Option α)) (i : Nat) (v : α) : Option (List (Option α)) :=
  if i < a.length then some (a.set i (some v)) else none

/-- The array after `realloc` to `n` cells. -/
def realloc_cells {α : Type} (a : List (Option α)) (n : Nat) : List (Option α) :=
  a.take n ++ List.replicate (n - a.length) none

/-! ## Types -/

/-- Modelled from the spec: the `alloc_status` enumeration of `mem_pool.h`,
with the names the source uses. -/
inductive alloc_status where
  | ALLOC_OK
  | ALLOC_FAIL
  | ALLOC_CALLED_AGAIN
  | ALLOC_NOT_FREED
  deriving DecidableEq

/-- Modelled from the spec: the `alloc_policy` enumeration of `mem_pool.h`. -/
inductive alloc_policy where
  | FIRST_FIT
  | BEST_FIT
  deriving DecidableEq

/-- Modelled from the spec: the `pool_t` record of `mem_pool.h`, with the
fields the source reads and writes. -/
structure pool_t where
  mem : Option Nat
  policy : alloc_policy
  total_size : Nat
  alloc_size : Nat
  num_allocs : Nat
  num_gaps : Nat
  deriving DecidableEq

/-- Modelled from the spec: the `pool_segment_t` record of `mem_pool.h`. -/
structure pool_segment_t where
  size : Nat
  allocated : Nat
  deriving DecidableEq

structure alloc_t where
  mem : Option Nat
  size : Nat
  deriving DecidableEq

structure node_t where
  alloc_record : alloc_t
  used : Nat
  allocated : Nat
  next : Option Nat
  prev : Option Nat
  deriving DecidableEq

structure gap_t where
  size : Nat
  node : Option Nat
  deriving DecidableEq

structure pool_mgr_t where
  pool : pool_t
  node_heap : List (Option node_t)
  total_nodes : Nat
  used_nodes : Nat
  gap_ix : List (Option gap_t)
  gap_ix_capacity : Nat
  deriving DecidableEq

/-- The static globals `pool_store`, `pool_store_size`, `pool_store_capacity`;
a slot of the store holds the address of a pool manager or `NULL`. -/
structure globals where
  pool_store : Option (List (Option (Option Nat)))
  pool_store_size : Nat
  pool_store_capacity : Nat
  deriving DecidableEq

/-! ## Static functions -/

def _mem_resize_pool_store (g : globals) : globals :=
  if fill_exceeded g.pool_store_size g.pool_store_capacity then
    { g with
      pool_store_capacity := g.pool_store_capacity * MEM_POOL_STORE_EXPAND_FACTOR
      pool_store := g.pool_store.map fun a =>
        realloc_cells a (g.pool_store_capacity * MEM_POOL_STORE_EXPAND_FACTOR) }
  else g

/-- The value of the C field `node_heap`: the address of the first cell of the
current block of the node heap. -/
def node_heap_ptr (pool_mgr : pool_mgr_t) : Nat :=
  pool_mgr.node_heap.length - pool_mgr.total_nodes

/-- When the heap is grown, `realloc` copies the cells of the current block to
a new block of twice the size and releases the old one; the copied cells keep
their `next` and `prev` as they are. -/
def _mem_resize_node_heap (pool_mgr : pool_mgr_t) : pool_mgr_t :=
  if fill_exceeded pool_mgr.used_nodes pool_mgr.total_nodes then
    { pool_mgr with
      total_nodes := pool_mgr.total_nodes * MEM_NODE_HEAP_EXPAND_FACTOR
      node_heap := List.replicate pool_mgr.node_heap.length none ++
        realloc_cells (pool_mgr.node_heap.drop (node_heap_ptr pool_mgr))
          (pool_mgr.total_nodes * MEM_NODE_HEAP_EXPAND_FACTOR) }
  else pool_mgr

def _mem_resize_gap_ix (pool_mgr : pool_mgr_t) : pool_mgr_t :=
  if fill_exceeded pool_mgr.pool.num_gaps pool_mgr.gap_ix_capacity then
    { pool_mgr with
      gap_ix_capacity := pool_mgr.gap_ix_capacity * MEM_GAP_IX_EXPAND_FACTOR
      gap_ix := realloc_cells pool_mgr.gap_ix
        (pool_mgr.gap_ix_capacity * MEM_GAP_IX_EXPAND_FACTOR) }
  else pool_mgr

/-- The comparison `p < q` of two node pointers, `NULL` being the lowest
address. -/
def ptr_lt : Option Nat → Option Nat → Bool
  | none, some _ => true
  | some a, some b => decide (a < b)
  | _, none => false

/-- One iteration of the loop of `_mem_sort_gap_ix`, at index `i`. -/
def sort_step (gap_ix : List (Option gap_t)) (i : Nat) : Option (List (Option gap_t)) := do
  let cur ← rd gap_ix i
  let prv ← rd gap_ix (i - 1)
  let next_size_smaller := decide (cur.size < prv.size)
  let next_address_smaller := ptr_lt cur.node prv.node
  let next_size_equal := decide (cur.size = prv.size)
  let next_non_empty := decide (cur.size ≠ 0)
  let current_empty := decide (cur.size = 0)
  if (current_empty && next_non_empty) || (next_size_smaller && next_non_empty) ||
      (next_size_equal && next_address_smaller && next_non_empty) then
    some ((gap_ix.set (i - 1) (some cur)).set i (some prv))
  else some gap_ix

/-- The loop `for (i = num_gaps - 1; i > 0; --i)` of `_mem_sort_gap_ix`,
entered at index `i`. -/
def sort_loop (gap_ix : List (Option gap_t)) : Nat → Option (List (Option gap_t))
  | 0 => some gap_ix
  | i + 1 => do
    let g ← sort_step gap_ix (i + 1)
    sort_loop g i

/-- Always returns `ALLOC_OK`; the local `size` is read from the cell behind
the entries and not used. -/
def _mem_sort_gap_ix (pool_mgr : pool_mgr_t) : Option pool_mgr_t := do
  let num_gaps := pool_mgr.pool.num_gaps
  let _size ← (rd pool_mgr.gap_ix num_gaps).map gap_t.size
  let g ← sort_loop pool_mgr.gap_ix (num_gaps - 1)
  some { pool_mgr with gap_ix := g }

/-- Returns `ALLOC_OK` whenever it returns. -/
def _mem_add_to_gap_ix (pool_mgr : pool_mgr_t) (size : Nat) (node : Nat) :
    Option pool_mgr_t := do
  let m := _mem_resize_gap_ix pool_mgr
  let n ← rd m.node_heap node
  if n.allocated ≠ 0 then none
  else if size = 0 then none
  else do
    let g ← wr m.gap_ix m.pool.num_gaps ⟨size, some node⟩
    _mem_sort_gap_ix { m with gap_ix := g, pool := { m.pool with num_gaps := m.pool.num_gaps + 1 } }

/-- The search loop of `_mem_remove_from_gap_ix`: `k` iterations are left and
the index is `i`; the result is `chosen_node`. -/
def find_gap (gap_ix : List (Option gap_t)) (node : Nat) : Nat → Nat → Option Nat
  | 0, i => some i
  | k + 1, i => do
    let g ← rd gap_ix i
    if g.node = some node then some i else find_gap gap_ix node k (i + 1)

/-- The copy loop of `_mem_remove_from_gap_ix`: `k` iterations are left and
the index is `i`. -/
def shift_down (gap_ix : List (Option gap_t)) : Nat → Nat → Option (List (Option gap_t))
  | 0, _ => some gap_ix
  | k + 1, i => do
    let g ← rd gap_ix (i + 1)
    shift_down (gap_ix.set i (some g)) k (i + 1)

/-- Returns `ALLOC_OK` whenever it returns. -/
def _mem_remove_from_gap_ix (pool_mgr : pool_mgr_t) (size : Nat) (node : Nat) :
    Option pool_mgr_t :=
  if size = 0 then none
  else do
    let num_gaps := pool_mgr.pool.num_gaps
    let chosen_node ← find_gap pool_mgr.gap_ix node num_gaps 0
    let g ← shift_down pool_mgr.gap_ix (num_gaps - chosen_node) chosen_node
    let g ← wr g num_gaps ⟨0, none⟩
    some { pool_mgr with
      gap_ix := g, pool := { pool_mgr.pool with num_gaps := dec_unsigned pool_mgr.pool.num_gaps } }

/-! ## User-facing functions -/

def mem_init (g : globals) : globals × alloc_status :=
  match g.pool_store with
  | none =>
    ({ pool_store := some (List.replicate MEM_POOL_STORE_INIT_CAPACITY (some none))
       pool_store_capacity := MEM_POOL_STORE_INIT_CAPACITY
       pool_store_size := 0 }, alloc_status.ALLOC_OK)
  | some _ => (g, alloc_status.ALLOC_CALLED_AGAIN)

/-- The slot `node_heap[i]`, `i ≥ 1`, as `mem_pool_open` leaves it. -/
def unused_node : node_t :=
  { alloc_record := { mem := none, size := 0 }, used := 0, allocated := 0, next := none, prev := none }

/-- The pool manager `mem_pool_open` builds. -/
def new_pool_mgr (size : Nat) (policy : alloc_policy) : pool_mgr_t :=
  { pool := { mem := some 0, policy := policy, total_size := size, alloc_size := 0,
              num_allocs := 0, num_gaps := 1 }
    node_heap :=
      some { alloc_record := { mem := some 0, size := size }, used := 1, allocated := 0,
             next := none, prev := none } ::
        List.replicate (MEM_NODE_HEAP_INIT_CAPACITY - 1) (some unused_node)
    total_nodes := MEM_NODE_HEAP_INIT_CAPACITY
    used_nodes := 1
    gap_ix := some ⟨size, some 0⟩ :: List.replicate (MEM_GAP_IX_INIT_CAPACITY - 1) (some ⟨0, none⟩)
    gap_ix_capacity := MEM_GAP_IX_INIT_CAPACITY }

/-- `mem_pool_open`; `addr` is the address `malloc` gives the new manager.  The
result is the globals and the manager, `none` inside for a `NULL` return. -/
def mem_pool_open (g : globals) (addr : Nat) (size : Nat) (policy : alloc_policy) :
    Option (globals × Option pool_mgr_t) :=
  match g.pool_store with
  | none => some (g, none)
  | some _ =>
    let g1 := _mem_resize_pool_store g
    let store_size := g1.pool_store_size
    match g1.pool_store with
    | none => none
    | some store => do
      let store ← wr store store_size (some addr)
      some ({ g1 with pool_store := some store }, some (new_pool_mgr size policy))

/-- The `FIRST_FIT` loop of `mem_new_alloc`, at node `cur`; the fuel is the
number of slots, which a walk without a cycle cannot exceed. -/
def first_fit (heap : List (Option node_t)) (size : Nat) : Nat → Nat → Option Nat
  | 0, _ => none
  | fuel + 1, cur => do
    let n ← rd heap cur
    match n.next with
    | none => some cur
    | some nx =>
      if n.allocated = 0 ∧ size ≤ n.alloc_record.size ∧ n.used = 1 then some cur
      else first_fit heap size fuel nx

/-- The loop over `gap_ix` of `mem_new_alloc` (both the `BEST_FIT` search and
the size check): `k` iterations are left and the index is `i`.  The result is
the first entry of size at least `size`, if there is one. -/
def scan_gap_ix (mgr : pool_mgr_t) (size : Nat) : Nat → Nat → Option (Option gap_t)
  | 0, _ => some none
  | k + 1, i => do
    let g ← rd mgr.gap_ix i
    let _ ← (match g.node with
      | none => some ()
      | some p => do
        let n ← rd mgr.node_heap p
        if n.allocated = 1 then none else some ())
    if size ≤ g.size then some (some g) else scan_gap_ix mgr size k (i + 1)

/-- The search for an unused slot of `mem_new_alloc`, with the assertion that
one is found: `k` iterations are left and the index is `i`. -/
def find_unused (heap : List (Option node_t)) : Nat → Nat → Option Nat
  | 0, _ => none
  | k + 1, i => do
    let n ← rd heap i
    if n.used = 0 then some i else find_unused heap k (i + 1)

/-- The statements of `mem_new_alloc` that turn the free slot `new_gap_node`
into the gap left behind `node_to_alloc`. -/
def split_gap (mgr : pool_mgr_t) (node_to_alloc new_gap_node old_gap_size size : Nat) :
    Option pool_mgr_t := do
  let a ← rd mgr.node_heap node_to_alloc
  let heap ← (match a.next with
    | none => some mgr.node_heap
    | some nx => do
      let nn ← rd mgr.node_heap new_gap_node
      let heap := mgr.node_heap.set new_gap_node (some { nn with next := some nx })
      let a ← rd heap node_to_alloc
      let nx ← a.next
      let nxn ← rd heap nx
      some (heap.set nx (some { nxn with prev := some new_gap_node })))
  let a ← rd heap node_to_alloc
  let heap := heap.set node_to_alloc (some { a with next := some new_gap_node })
  let nn ← rd heap new_gap_node
  let heap := heap.set new_gap_node (some { nn with prev := some node_to_alloc })
  let a ← rd heap node_to_alloc
  let nn ← rd heap new_gap_node
  let heap := heap.set new_gap_node
    (some { nn with alloc_record := { nn.alloc_record with
                      size := sub_size_t old_gap_size a.alloc_record.size } })
  let nn ← rd heap new_gap_node
  let heap := heap.set new_gap_node (some { nn with used := 1, allocated := 0 })
  let a ← rd heap node_to_alloc
  let nn ← rd heap new_gap_node
  let heap := heap.set new_gap_node
    (some { nn with alloc_record := { nn.alloc_record with
                      mem := a.alloc_record.mem.map (· + size) } })
  let nn ← rd heap new_gap_node
  _mem_add_to_gap_ix { mgr with node_heap := heap, used_nodes := mgr.used_nodes + 1 }
    nn.alloc_record.size new_gap_node

/-- The statements of `mem_new_alloc` that follow the size check: the chosen
node becomes an allocation of `size` bytes. -/
def commit_alloc (mgr : pool_mgr_t) (node_to_alloc size : Nat) :
    Option (pool_mgr_t × Option Nat) := do
  let mgr := { mgr with pool := { mgr.pool with
                 num_allocs := mgr.pool.num_allocs + 1
                 alloc_size := mgr.pool.alloc_size + size } }
  let n ← rd mgr.node_heap node_to_alloc
  let remaining_gap_size := sub_size_t n.alloc_record.size size
  let old_gap_size := n.alloc_record.size
  let mgr ← _mem_remove_from_gap_ix mgr old_gap_size node_to_alloc
  let n ← rd mgr.node_heap node_to_alloc
  let n1 : node_t := { n with alloc_record := { n.alloc_record with size := size }, allocated := 1 }
  let mgr := { mgr with node_heap := mgr.node_heap.set node_to_alloc (some n1) }
  if 0 < remaining_gap_size then do
    let new_gap_node ← find_unused mgr.node_heap mgr.total_nodes (node_heap_ptr mgr)
    let mgr ← split_gap mgr node_to_alloc new_gap_node old_gap_size size
    some (mgr, some node_to_alloc)
  else some (mgr, some node_to_alloc)

/-- `mem_new_alloc`: the manager afterwards and the returned node, `none`
inside for a `NULL` return. -/
def mem_new_alloc (pool : pool_mgr_t) (size : Nat) : Option (pool_mgr_t × Option Nat) :=
  if pool.pool.num_gaps = 0 then some (pool, none)
  else if pool.pool.total_size ≤ size ∨
      sub_size_t pool.pool.total_size pool.pool.alloc_size ≤ size then some (pool, none)
  else
    let mgr := _mem_resize_node_heap pool
    if mgr.total_nodes < mgr.used_nodes then none
    else do
      let node_to_alloc ← (match mgr.pool.policy with
        | alloc_policy.FIRST_FIT =>
          first_fit mgr.node_heap size mgr.node_heap.length (node_heap_ptr mgr)
        | alloc_policy.BEST_FIT => do
          let r ← scan_gap_ix mgr size mgr.gap_ix_capacity 0
          match r with
          | none => some (node_heap_ptr mgr)
          | some g => g.node)
      let size_check ← scan_gap_ix mgr size mgr.gap_ix_capacity 0
      match size_check with
      | none => some (mgr, none)
      | some _ => commit_alloc mgr node_to_alloc size

/-- The search loop of `mem_del_alloc`, at node `cur`. -/
def find_node (heap : List (Option node_t)) (node_to_find : Nat) : Nat → Nat → Option Nat
  | 0, _ => none
  | fuel + 1, cur => do
    let n ← rd heap cur
    match n.next with
    | none => some cur
    | some nx => if cur ≠ node_to_find then find_node heap node_to_find fuel nx else some cur

/-- The block of `mem_del_alloc` that merges the free successor `next` into
`node_to_remove`. -/
def merge_next (mgr : pool_mgr_t) (node_to_remove next : Nat) : Option pool_mgr_t := do
  let nx ← rd mgr.node_heap next
  let used_nodes := if nx.used ≠ 0 then dec_unsigned mgr.used_nodes else mgr.used_nodes
  let heap := mgr.node_heap.set next (some { nx with used := 0 })
  let nx ← rd heap next
  let heap ← (match nx.next with
    | some nn => do
      let nnn ← rd heap nn
      let heap := heap.set nn (some { nnn with prev := some node_to_remove })
      let nx ← rd heap next
      let r ← rd heap node_to_remove
      some (heap.set node_to_remove (some { r with next := nx.next }))
    | none => do
      let r ← rd heap node_to_remove
      some (heap.set node_to_remove (some { r with next := none })))
  let nx ← rd heap next
  let heap := heap.set next (some { nx with next := none, prev := none })
  let nx ← rd heap next
  let mgr ← _mem_remove_from_gap_ix { mgr with node_heap := heap, used_nodes := used_nodes }
    nx.alloc_record.size next
  let nx ← rd mgr.node_heap next
  let r ← rd mgr.node_heap node_to_remove
  let r1 : node_t := { r with alloc_record := { r.alloc_record with
                         size := r.alloc_record.size + nx.alloc_record.size } }
  some { mgr with node_heap := mgr.node_heap.set node_to_remove (some r1) }

/-- The block of `mem_del_alloc` that merges `node_to_remove` into its free
predecessor `prev`. -/
def merge_prev (mgr : pool_mgr_t) (node_to_remove prev : Nat) : Option pool_mgr_t := do
  let p ← rd mgr.node_heap prev
  let mgr ← _mem_remove_from_gap_ix mgr p.alloc_record.size prev
  let p ← rd mgr.node_heap prev
  let r ← rd mgr.node_heap node_to_remove
  let p1 : node_t := { p with alloc_record := { p.alloc_record with
                         size := p.alloc_record.size + r.alloc_record.size } }
  let mgr := { mgr with node_heap := mgr.node_heap.set prev (some p1) }
  let p ← rd mgr.node_heap prev
  let mgr ← _mem_add_to_gap_ix mgr p.alloc_record.size prev
  let r ← rd mgr.node_heap node_to_remove
  let heap ← (match r.next with
    | some nn => do
      let p ← rd mgr.node_heap prev
      let heap := mgr.node_heap.set prev (some { p with next := some nn })
      let r ← rd heap node_to_remove
      let nn ← r.next
      let nnn ← rd heap nn
      some (heap.set nn (some { nnn with prev := some prev }))
    | none => do
      let p ← rd mgr.node_heap prev
      some (mgr.node_heap.set prev (some { p with next := none })))
  let r ← rd heap node_to_remove
  let heap := heap.set node_to_remove (some { r with next := none, prev := none, used := 0 })
  some { mgr with node_heap := heap, used_nodes := dec_unsigned mgr.used_nodes }

/-- The block of `mem_del_alloc` for the successor of `node_to_remove`: it is
merged when it is a gap. -/
def merge_next_if_gap (mgr : pool_mgr_t) (node_to_remove : Nat) : Option pool_mgr_t := do
  let r ← rd mgr.node_heap node_to_remove
  match r.next with
  | none => some mgr
  | some next => do
    let nx ← rd mgr.node_heap next
    if nx.allocated = 0 then merge_next mgr node_to_remove next else some mgr

/-- The block of `mem_del_alloc` for the predecessor of `node_to_remove`: the
node is merged into it when it is a gap. -/
def merge_prev_if_gap (mgr : pool_mgr_t) (node_to_remove : Nat) : Option pool_mgr_t := do
  let r ← rd mgr.node_heap node_to_remove
  match r.prev with
  | none => some mgr
  | some prev => do
    let p ← rd mgr.node_heap prev
    if p.allocated = 0 then merge_prev mgr node_to_remove prev else some mgr

/-- The end of `mem_del_alloc`: a node that is still used goes into the gap
index. -/
def index_freed (mgr : pool_mgr_t) (node_to_remove : Nat) :
    Option (pool_mgr_t × alloc_status) := do
  let r ← rd mgr.node_heap node_to_remove
  if r.used ≠ 0 then do
    let mgr ← _mem_add_to_gap_ix mgr r.alloc_record.size node_to_remove
    some (mgr, alloc_status.ALLOC_OK)
  else some (mgr, alloc_status.ALLOC_OK)

/-- The start of `mem_del_alloc` once the node is found: it becomes a gap and
the counters of the pool are updated. -/
def mark_free (pool : pool_mgr_t) (node_to_remove : Nat) : Option pool_mgr_t := do
  let r ← rd pool.node_heap node_to_remove
  some { pool with
    node_heap := pool.node_heap.set node_to_remove (some { r with allocated := 0 })
    pool := { pool.pool with
      num_allocs := dec_unsigned pool.pool.num_allocs
      alloc_size := sub_size_t pool.pool.alloc_size r.alloc_record.size } }

/-- `mem_del_alloc`; `alloc` is the node the handle points at. -/
def mem_del_alloc (pool : pool_mgr_t) (alloc : Nat) : Option (pool_mgr_t × alloc_status) := do
  let f ← rd pool.node_heap alloc
  if f.allocated ≠ 1 then none
  else do
    let node_to_remove ←
      find_node pool.node_heap alloc pool.node_heap.length (node_heap_ptr pool)
    let mgr ← mark_free pool node_to_remove
    let mgr ← merge_next_if_gap mgr node_to_remove
    let mgr ← merge_prev_if_gap mgr node_to_remove
    index_freed mgr node_to_remove

/-- The loop of `mem_inspect_pool`, at node `cur` and entry `index`. -/
def inspect_loop (heap : List (Option node_t)) :
    Nat → Nat → Nat → List (Option pool_segment_t) → Option (List (Option pool_segment_t))
  | 0, _, _, _ => none
  | fuel + 1, cur, index, segs => do
    let n ← rd heap cur
    if n.used = 0 then some segs
    else do
      let segs ← wr segs index ⟨n.alloc_record.size, n.allocated⟩
      match n.next with
      | none => some segs
      | some nx => inspect_loop heap fuel nx (index + 1) segs

/-- `mem_inspect_pool`: the array `*segments` and `*num_segments`. -/
def mem_inspect_pool (pool : pool_mgr_t) : Option (List (Option pool_segment_t) × Nat) := do
  let segs ← inspect_loop pool.node_heap pool.node_heap.length (node_heap_ptr pool) 0
    (List.replicate pool.used_nodes none)
  some (segs, pool.used_nodes)

/-! ## Observations of a pool -/

/-- The walk from node `cur` through the `next` links: the slots visited, each
with its node. -/
def walk (heap : List (Option node_t)) : Nat → Nat → Option (List (Nat × node_t))
  | 0, _ => none
  | fuel + 1, cur => do
    let n ← rd heap cur
    match n.next with
    | none => some [(cur, n)]
    | some nx => do
      let r ← walk heap fuel nx
      some ((cur, n) :: r)

/-- The segment list, walked from `node_heap[0]`. -/
def segment_list (m : pool_mgr_t) : Option (List (Nat × node_t)) :=
  walk m.node_heap m.node_heap.length (node_heap_ptr m)

/-- The cells `i`, `i + 1`, ..., `i + k - 1` of an array. -/
def read_cells {α : Type} (a : List (Option α)) : Nat → Nat → Option (List α)
  | 0, _ => some []
  | k + 1, i => do
    let x ← rd a i
    let r ← read_cells a k (i + 1)
    some (x :: r)

/-- The first `num_gaps` entries of the gap index. -/
def gap_entries (m : pool_mgr_t) : Option (List gap_t) :=
  read_cells m.gap_ix m.pool.num_gaps 0

/-- The offsets of consecutive segments of the given sizes, the first one
at `off`. -/
def offsets : Nat → List Nat → List (Option Nat)
  | _, [] => []
  | off, s :: r => some off :: offsets (off + s) r

/-- What a segment is apart from its links. -/
def layout (x : Nat × node_t) : Nat × alloc_t × Nat × Nat :=
  (x.1, x.2.alloc_record, x.2.used, x.2.allocated)

/-- A free used segment of size at least `size`: the test of the `FIRST_FIT`
loop. -/
def fits (size : Nat) (n : node_t) : Prop :=
  n.allocated = 0 ∧ size ≤ n.alloc_record.size ∧ n.used = 1

instance (size : Nat) (n : node_t) : Decidable (fits size n) := by
  unfold fits; infer_instance

/-! ## Reachable pool states -/

/-- The pool states reached from `mem_pool_open (size, policy)` by calls of
`mem_new_alloc` and `mem_del_alloc` that return, with the handles that were
returned by an allocation and not freed since.  An allocation that grows the
node heap goes on with pointers into the released block and has no result here
(`growth_faults`), so these are the states reached before the node heap grows:
in them `node_heap` still points at the first block. -/
inductive Reachable (size : Nat) (policy : alloc_policy) : pool_mgr_t → List Nat → Prop
  | opened (g g1 : globals) (addr : Nat) (mgr : pool_mgr_t) :
      mem_pool_open g addr size policy = some (g1, some mgr) → Reachable size policy mgr []
  | alloc (mgr mgr1 : pool_mgr_t) (live : List Nat) (sz h : Nat) :
      Reachable size policy mgr live → mem_new_alloc mgr sz = some (mgr1, some h) →
      Reachable size policy mgr1 (h :: live)
  | alloc_null (mgr mgr1 : pool_mgr_t) (live : List Nat) (sz : Nat) :
      Reachable size policy mgr live → mem_new_alloc mgr sz = some (mgr1, none) →
      Reachable size policy mgr1 live
  | del (mgr mgr1 : pool_mgr_t) (live : List Nat) (h : Nat) :
      Reachable size policy mgr live → h ∈ live →
      mem_del_alloc mgr h = some (mgr1, alloc_status.ALLOC_OK) →
      Reachable size policy mgr1 (live.erase h)

/-! ## Example runs -/

/-- The registry after `mem_init`. -/
def init_globals : globals :=
  (mem_init { pool_store := none, pool_store_size := 0, pool_store_capacity := 0 }).1

/-- The manager after a call `mem_new_alloc (m, size)`. -/
def after_alloc (m : pool_mgr_t) (size : Nat) : pool_mgr_t :=
  match mem_new_alloc m size with
  | some (m1, _) => m1
  | none => m

/-- The manager after a call `mem_del_alloc (m, h)`. -/
def after_del (m : pool_mgr_t) (h : Nat) : pool_mgr_t :=
  match mem_del_alloc m h with
  | some (m1, _) => m1
  | none => m

/-- A 1024-byte `FIRST_FIT` pool after allocations of 100, 200 and 300 bytes. -/
def first_fit_three : pool_mgr_t :=
  after_alloc (after_alloc (after_alloc (new_pool_mgr 1024 alloc_policy.FIRST_FIT) 100) 200) 300

/-- The pool `first_fit_three` after the 200 bytes are freed. -/
def first_fit_run : pool_mgr_t := after_del first_fit_three 1

/-- A 500-byte `BEST_FIT` pool after two allocations of 100 bytes and the
release of the first. -/
def best_fit_run : pool_mgr_t :=
  after_del (after_alloc (after_alloc (new_pool_mgr 500 alloc_policy.BEST_FIT) 100) 100) 0

/-- A 1024-byte `FIRST_FIT` pool after allocations of 0 and 10 bytes. -/
def zero_size_run : pool_mgr_t :=
  after_alloc (after_alloc (new_pool_mgr 1024 alloc_policy.FIRST_FIT) 0) 10

/-! ## The abstract view of a pool

The segment list is described by the list of its slots with their sizes and
flags; the links and offsets of the nodes are determined by it. -/

structure Seg where
  idx : Nat
  size : Nat
  al : Bool
  deriving DecidableEq

/-- The node of segment `s` with the given neighbours and offset. -/
def Seg.node (s : Seg) (prev : Option Nat) (off : Nat) (next : Option Nat) : node_t :=
  { alloc_record := { mem := some off, size := s.size }, used := 1,
    allocated := if s.al then 1 else 0, next := next, prev := prev }

/-- The slot of the first segment of `r`, or `q`. -/
def hd (r : List Seg) (q : Option Nat) : Option Nat :=
  match r with
  | [] => q
  | t :: _ => some t.idx

/-- The slot of the last segment of `l`, or `p`. -/
def lastIdx : List Seg → Option Nat → Option Nat
  | [], p => p
  | s :: r, _ => lastIdx r (some s.idx)

/-- The nodes of the segments `v`, the first one at offset `off` with
predecessor `p`, the last one with successor `q`. -/
def nodes : Option Nat → Nat → List Seg → Option Nat → List (Nat × node_t)
  | _, _, [], _ => []
  | p, off, s :: r, q => (s.idx, s.node p off (hd r q)) :: nodes (some s.idx) (off + s.size) r q

/-- The heap holds the nodes of the segments `v`. -/
def Linked (heap : List (Option node_t)) : Option Nat → Nat → List Seg → Option Nat → Prop
  | _, _, [], _ => True
  | p, off, s :: r, q =>
    rd heap s.idx = some (s.node p off (hd r q)) ∧ Linked heap (some s.idx) (off + s.size) r q

/-- The gap-index entry of a free segment. -/
def Seg.gap (s : Seg) : gap_t := { size := s.size, node := some s.idx }

/-- The gap-index entries of the free segments of `v`. -/
def frees (v : List Seg) : List gap_t := (v.filter fun s => !s.al).map Seg.gap

/-- The allocated segments of `v`. -/
def allocs (v : List Seg) : List Seg := v.filter fun s => s.al

/-- The order `_mem_sort_gap_ix` keeps: by size, then by slot. -/
def gap_le (a b : gap_t) : Prop :=
  a.size < b.size ∨ (a.size = b.size ∧ ptr_lt b.node a.node = false)

/-- The gap index with entries `gl`: the entries, cleared cells up to the
initial capacity, and the cells added by `realloc`. -/
def gap_cells (gl : List gap_t) (k : Nat) : List (Option gap_t) :=
  gl.map some ++ List.replicate (MEM_GAP_IX_INIT_CAPACITY - gl.length) (some ⟨0, none⟩) ++
    List.replicate k none

/-- The manager `m1` differs from `m` in the gap index only. -/
structure GapOnly (m m1 : pool_mgr_t) : Prop where
  node_heap : m1.node_heap = m.node_heap
  total_nodes : m1.total_nodes = m.total_nodes
  used_nodes : m1.used_nodes = m.used_nodes
  mem : m1.pool.mem = m.pool.mem
  policy : m1.pool.policy = m.pool.policy
  total_size : m1.pool.total_size = m.pool.total_size
  alloc_size : m1.pool.alloc_size = m.pool.alloc_size
  num_allocs : m1.pool.num_allocs = m.pool.num_allocs
  gap_cap : m1.gap_ix.length = m1.gap_ix_capacity

/-- The structure of a pool with segments `v` and gap entries `gl`. -/
structure Core (m : pool_mgr_t) (v : List Seg) (gl : List gap_t) : Prop where
  linked : Linked m.node_heap none 0 v none
  head : hd v none = some 0
  nodup : (v.map Seg.idx).Nodup
  beyond : ∀ i, MEM_NODE_HEAP_INIT_CAPACITY ≤ i → rd m.node_heap i = none
  unused : ∀ i, i < MEM_NODE_HEAP_INIT_CAPACITY → i ∉ v.map Seg.idx →
    ∃ u, rd m.node_heap i = some u ∧ u.used = 0 ∧ u.allocated = 0 ∧ u.next = none ∧ u.prev = none
  total : (v.map Seg.size).sum = m.pool.total_size
  used_nodes : m.used_nodes = v.length
  heap_len : m.node_heap.length = m.total_nodes
  gaps : ∃ k, m.gap_ix = gap_cells gl k
  gap_cap : m.gap_ix.length = m.gap_ix_capacity
  num_gaps : m.pool.num_gaps = gl.length
  sorted : gl.Pairwise gap_le

/-- The invariant of the reachable states. -/
structure Inv (m : pool_mgr_t) (live : List Nat) (v : List Seg) (gl : List gap_t) : Prop where
  core : Core m v gl
  perm : gl.Perm (frees v)
  no_adj : v.Chain' fun a b => a.al = true ∨ b.al = true
  num_allocs : m.pool.num_allocs = (allocs v).length
  alloc_size : m.pool.alloc_size = ((allocs v).map Seg.size).sum
  live_iff : ∀ h, h ∈ live ↔ ∃ s ∈ v, s.idx = h ∧ s.al = true
  live_nodup : live.Nodup
  pos : (∀ s ∈ v, s.al = false → 0 < s.size) ∨ (m.pool.total_size = 0 ∧ live = [])

/-- The size of a freed segment of size `sz` once a free successor is merged
into it, and the segments that follow it then. -/
def absorb_next (sz : Nat) : List Seg → Nat × List Seg
  | [] => (sz, [])
  | t :: r => if t.al then (sz, t :: r) else (sz + t.size, r)

/-- The segments `pre` followed by the freed segment `x`, once `x` is merged
into a free predecessor. -/
def absorb_prev : List Seg → Seg → List Seg
  | [], x => [x]
  | [p], x => if p.al then [p, x] else [⟨p.idx, p.size + x.size, false⟩]
  | q :: p :: r, x => q :: absorb_prev (p :: r) x

/-- The segments after the allocated segment in slot `h`, of size `sz`,
between `pre` and `post`, is freed and merged with its free neighbours. -/
def freed_view (pre : List Seg) (h sz : Nat) (post : List Seg) : List Seg :=
  absorb_prev pre ⟨h, (absorb_next sz post).1, false⟩ ++ (absorb_next sz post).2

/-- The state inside `mem_del_alloc`: the segment `x` is a gap that is not in
the gap index yet and may have free neighbours. -/
structure Mid (m : pool_mgr_t) (live : List Nat) (pre : List Seg) (x : Seg)
    (post : List Seg) (gl : List gap_t) : Prop where
  core : Core m (pre ++ x :: post) gl
  free : x.al = false
  perm : gl.Perm (frees pre ++ frees post)
  adj_pre : pre.Chain' fun a b => a.al = true ∨ b.al = true
  adj_post : post.Chain' fun a b => a.al = true ∨ b.al = true
  num_allocs : m.pool.num_allocs = (allocs (pre ++ post)).length
  alloc_size : m.pool.alloc_size = ((allocs (pre ++ post)).map Seg.size).sum
  live_iff : ∀ h, h ∈ live ↔ ∃ s ∈ pre ++ post, s.idx = h ∧ s.al = true
  live_nodup : live.Nodup
  pos : ∀ s ∈ pre ++ post, s.al = false → 0 < s.size

/-! ## The registry functions -/

/-- The loop of `mem_free` over the first `MEM_POOL_STORE_INIT_CAPACITY` slots:
it reads each slot and does nothing else; `k` iterations are left and the
index is `i`. -/
def free_loop (store : List (Option (Option Nat))) : Nat → Nat → Option Unit
  | 0, _ => some ()
  | k + 1, i => do
    let _ ← rd store i
    free_loop store k (i + 1)

/-- `mem_free`: `pool_store_capacity` is left as it is. -/
def mem_free (g : globals) : Option (globals × alloc_status) :=
  match g.pool_store with
  | none => some (g, alloc_status.ALLOC_CALLED_AGAIN)
  | some store => do
    let _ ← free_loop store MEM_POOL_STORE_INIT_CAPACITY 0
    some ({ g with pool_store := none, pool_store_size := 0 }, alloc_status.ALLOC_OK)

/-- The loop of `mem_pool_close` over the first `pool_store_size` slots: every
slot that holds the manager `mgr` is cleared; `k` iterations are left and the
index is `i`. -/
def close_loop (mgr : Nat) :
    Option (List (Option (Option Nat))) → Nat → Nat → Option (Option (List (Option (Option Nat))))
  | store, 0, _ => some store
  | store, k + 1, i => do
    let s ← store
    let c ← rd s i
    if c = some mgr then close_loop mgr (some (s.set i (some none))) k (i + 1)
    else close_loop mgr (some s) k (i + 1)

/-- `mem_pool_close`; the pool is `NULL` or the manager at address `addr`.  The
result is the globals, the manager (`none` once it is freed) and the status. -/
def mem_pool_close (g : globals) (pool : Option (Nat × pool_mgr_t)) :
    Option (globals × Option pool_mgr_t × alloc_status) :=
  match pool with
  | none => some (g, none, alloc_status.ALLOC_FAIL)
  | some (addr, mgr) =>
    if mgr.pool.num_gaps ≠ 1 then some (g, some mgr, alloc_status.ALLOC_NOT_FREED)
    else if mgr.pool.num_allocs ≠ 0 then some (g, some mgr, alloc_status.ALLOC_NOT_FREED)
    else do
      let store ← close_loop addr g.pool_store g.pool_store_size 0
      some ({ g with pool_store := store }, none, alloc_status.ALLOC_OK)

/-! ## `mem_del_alloc` on any node pointer -/

/-- The `alloc` argument of `mem_del_alloc`: a pointer to a slot of the node
heap of the pool, or a pointer to a node that lies outside that heap (a node of
another pool), given with the node it points at. -/
inductive node_ptr where
  | slot (i : Nat)
  | outside (n : node_t)
  deriving DecidableEq

/-- The search loop of `mem_del_alloc`, at node `cur`, for a node pointer
`node_to_find`. -/
def find_node_ptr (heap : List (Option node_t)) (node_to_find : node_ptr) :
    Nat → Nat → Option Nat
  | 0, _ => none
  | fuel + 1, cur => do
    let n ← rd heap cur
    match n.next with
    | none => some cur
    | some nx =>
      if node_ptr.slot cur ≠ node_to_find then find_node_ptr heap node_to_find fuel nx
      else some cur

/-- `mem_del_alloc` with `alloc` any node pointer; on a slot of the pool it is
`mem_del_alloc`.  The test `node_to_remove == NULL` that follows the search
never holds, the search ending at a node. -/
def mem_del_alloc_ptr (pool : pool_mgr_t) (alloc : node_ptr) :
    Option (pool_mgr_t × alloc_status) := do
  let f ← (match alloc with
    | node_ptr.slot i => rd pool.node_heap i
    | node_ptr.outside n => some n)
  if f.allocated ≠ 1 then none
  else do
    let node_to_remove ←
      find_node_ptr pool.node_heap alloc pool.node_heap.length (node_heap_ptr pool)
    let mgr ← mark_free pool node_to_remove
    let mgr ← merge_next_if_gap mgr node_to_remove
    let mgr ← merge_prev_if_gap mgr node_to_remove
    index_freed mgr node_to_remove

/-! ## Sequences of calls -/

/-- A call on a pool: `mem_new_alloc` with a size, or `mem_del_alloc` with a
handle. -/
inductive call where
  | new_alloc (size : Nat)
  | del_alloc (h : Nat)
  deriving DecidableEq

/-- The pool and its live handles after the calls `cs`, each of which returns,
every `mem_del_alloc` being on a live handle and returning `ALLOC_OK`. -/
def run_calls : List call → pool_mgr_t → List Nat → Option (pool_mgr_t × List Nat)
  | [], m, live => some (m, live)
  | call.new_alloc sz :: r, m, live =>
    match mem_new_alloc m sz with
    | some (m1, some h) => run_calls r m1 (h :: live)
    | some (m1, none) => run_calls r m1 live
    | none => none
  | call.del_alloc h :: r, m, live =>
    if h ∈ live then
      match mem_del_alloc m h with
      | some (m1, alloc_status.ALLOC_OK) => run_calls r m1 (live.erase h)
      | _ => none
    else none

/-- The pool and its live handles after the calls `cs` on a freshly opened
pool; the fresh pool itself when a call does not return. -/
def after_calls (size : Nat) (policy : alloc_policy) (cs : List call) : pool_mgr_t × List Nat :=
  match run_calls cs (new_pool_mgr size policy) [] with
  | some r => r
  | none => (new_pool_mgr size policy, [])

/-- Thirty allocations of one byte, then the release of the first and the
third: 31 nodes are in use, and the gaps are of 1, 1 and 994 bytes. -/
def fragmented_calls : List call :=
  List.replicate 30 (call.new_alloc 1) ++ [call.del_alloc 0, call.del_alloc 2]

/-- The 1024-byte `FIRST_FIT` pool after `fragmented_calls`. -/
def fragmented : pool_mgr_t :=
  (after_calls 1024 alloc_policy.FIRST_FIT fragmented_calls).1

/-- The registry states reached from the initial values of the static globals
by calls of `mem_init`, `mem_free`, `mem_pool_open` and `mem_pool_close` that
return. -/
inductive Registry : globals → Prop
  | start : Registry { pool_store := none, pool_store_size := 0, pool_store_capacity := 0 }
  | init (g : globals) : Registry g → Registry (mem_init g).1
  | free (g g1 : globals) (st : alloc_status) :
      Registry g → mem_free g = some (g1, st) → Registry g1
  | opened (g g1 : globals) (addr size : Nat) (policy : alloc_policy) (r : Option pool_mgr_t) :
      Registry g → mem_pool_open g addr size policy = some (g1, r) → Registry g1
  | closed (g g1 : globals) (pool : Option (Nat × pool_mgr_t)) (r : Option pool_mgr_t)
      (st : alloc_status) :
      Registry g → mem_pool_close g pool = some (g1, r, st) → Registry g1

/-- The static globals before any call. -/
def start_globals : globals :=
  { pool_store := none, pool_store_size := 0, pool_store_capacity := 0 }

/-- The registry after `mem_init` and one `mem_pool_open (1024, FIRST_FIT)`,
the manager being at address 1. -/
def opened_globals : globals :=
  match mem_pool_open init_globals 1 1024 alloc_policy.FIRST_FIT with
  | some (g, _) => g
  | none => init_globals

/-- The registry after `mem_init` and two calls of `mem_pool_open`, the
managers being at the addresses 1 and 2. -/
def opened_twice_globals : globals :=
  match mem_pool_open opened_globals 2 512 alloc_policy.BEST_FIT with
  | some (g, _) => g
  | none => opened_globals

/-- Four allocations of 100 bytes, the release of the first two, which merge
and leave slot 1 unused, and an allocation of 524 bytes from the tail gap, whose
rest of 100 bytes, at offset 924, goes into slot 1. -/
def tie_calls : List call :=
  [call.new_alloc 100, call.new_alloc 100, call.new_alloc 100, call.new_alloc 100,
   call.del_alloc 0, call.del_alloc 1, call.new_alloc 524]

/-- The 1024-byte `FIRST_FIT` pool after `tie_calls`. -/
def tie_pool : pool_mgr_t := (after_calls 1024 alloc_policy.FIRST_FIT tie_calls).1

/-- A 1024-byte `FIRST_FIT` pool with one allocation of 100 bytes. -/
def pool_p : pool_mgr_t := after_alloc (new_pool_mgr 1024 alloc_policy.FIRST_FIT) 100

/-- Another 1024-byte `FIRST_FIT` pool, with one allocation of 50 bytes. -/
def pool_q : pool_mgr_t := after_alloc (new_pool_mgr 1024 alloc_policy.FIRST_FIT) 50

/-- The node of the allocation of `pool_q`. -/
def node_q : node_t :=
  { alloc_record := { mem := some 0, size := 50 }, used := 1, allocated := 1,
    next := some 1, prev := none }

/-- Thirty allocations of one byte: 31 nodes are in use, which is more than
three quarters of the 40 nodes of the heap. -/
def thirty_calls : List call := List.replicate 30 (call.new_alloc 1)

/-- The 1024-byte `FIRST_FIT` pool after `thirty_calls`. -/
def thirty : pool_mgr_t := (after_calls 1024 alloc_policy.FIRST_FIT thirty_calls).1

/-- The pool `thirty` inside the next call of `mem_new_alloc` that gets past
the admission check, after `_mem_resize_node_heap`: the block of the node heap
is now the cells 40 to 119. -/
def thirty_grown : pool_mgr_t := _mem_resize_node_heap thirty

/-- The pool `fragmented` after `_mem_resize_node_heap`, in the same way. -/
def fragmented_grown : pool_mgr_t := _mem_resize_node_heap fragmented

/-- Allocations of 10, 0 and 10 bytes. -/
def zero_mid_calls : List call :=
  [call.new_alloc 10, call.new_alloc 0, call.new_alloc 10]

/-- The 500-byte `BEST_FIT` pool after `zero_mid_calls`: node 1 is an
allocation of 0 bytes between two allocations of 10 bytes. -/
def zero_mid : pool_mgr_t := (after_calls 500 alloc_policy.BEST_FIT zero_mid_calls).1

/-! ## Cells -/

theorem rd_eq_some {α : Type} {a : List (Option α)} {i : Nat} {x : α} :
    rd a i = some x ↔ a.get? i = some (some x) := by
  unfold rd
  cases h : a.get? i with
  | none => simp
  | some c => cases c <;> simp

theorem rd_lt {α : Type} {a : List (Option α)} {i : Nat} {x : α} (h : rd a i = some x) :
    i < a.length := by
  rw [rd_eq_some] at h
  exact (List.get?_eq_some.1 h).1

theorem rd_set_self {α : Type} {a : List (Option α)} {i : Nat} (x : α) (h : i < a.length) :
    rd (a.set i (some x)) i = some x := by
  rw [rd_eq_some]; simp [h]

theorem rd_set_ne {α : Type} {a : List (Option α)} {i j : Nat} (v : Option α) (h : j ≠ i) :
    rd (a.set i v) j = rd a j := by
  unfold rd
  simp [List.getElem?_set_ne (Ne.symm h)]

theorem rd_set {α : Type} {a : List (Option α)} {i : Nat} {y : α} (x : α) (j : Nat)
    (h : rd a i = some y) :
    rd (a.set i (some x)) j = if j = i then some x else rd a j := by
  by_cases hj : j = i
  · subst hj; simp [rd_set_self x (rd_lt h)]
  · simp [hj, rd_set_ne _ hj]

theorem rd_realloc {α : Type} (a : List (Option α)) (n i : Nat) (h : a.length ≤ n) :
    rd (realloc_cells a n) i = rd a i := by
  unfold rd realloc_cells
  rw [List.take_of_length_le h]
  by_cases hi : i < a.length
  · simp [List.getElem?_append_left hi]
  · have hi' : a.length ≤ i := Nat.le_of_not_lt hi
    simp only [List.get?_eq_getElem?]
    rw [List.getElem?_append_right hi', List.getElem?_eq_none hi']
    by_cases h2 : i - a.length < n - a.length
    · simp [List.getElem?_replicate, h2]
    · simp [List.getElem?_replicate, h2]

theorem rd_append_left {α : Type} (a b : List (Option α)) (i : Nat) (h : i < a.length) :
    rd (a ++ b) i = rd a i := by
  unfold rd; simp [List.getElem?_append_left h]

theorem rd_append_right {α : Type} (a b : List (Option α)) (i : Nat) :
    rd (a ++ b) (a.length + i) = rd b i := by
  unfold rd; simp [List.getElem?_append_right]

theorem rd_cons_zero {α : Type} (c : Option α) (b : List (Option α)) :
    rd (c :: b) 0 = c := by
  unfold rd; cases c <;> simp

theorem rd_cons_succ {α : Type} (c : Option α) (b : List (Option α)) (i : Nat) :
    rd (c :: b) (i + 1) = rd b i := by
  unfold rd; simp

theorem rd_at {α : Type} (a : List (Option α)) (c : Option α) (b : List (Option α)) :
    rd (a ++ c :: b) a.length = c := by
  have := rd_append_right a (c :: b) 0
  simpa [rd_cons_zero] using this

theorem set_at {α : Type} (a : List (Option α)) (c d : Option α) (b : List (Option α)) :
    (a ++ c :: b).set a.length d = a ++ d :: b := by
  simp

theorem sub_size_t_of_le {a b : Nat} (h : b ≤ a) : sub_size_t a b = a - b := by
  simp [sub_size_t, h]

theorem dec_unsigned_succ (a : Nat) : dec_unsigned (a + 1) = a := by
  simp [dec_unsigned]

/-! ## Linked segments -/

theorem hd_append (l1 l2 : List Seg) (q : Option Nat) :
    hd (l1 ++ l2) q = hd l1 (hd l2 q) := by
  cases l1 <;> simp [hd]

theorem lastIdx_nil (p : Option Nat) : lastIdx [] p = p := rfl

theorem lastIdx_cons (s : Seg) (l : List Seg) (p : Option Nat) :
    lastIdx (s :: l) p = lastIdx l (some s.idx) := rfl

theorem lastIdx_append_singleton (l : List Seg) (s : Seg) (p : Option Nat) :
    lastIdx (l ++ [s]) p = some s.idx := by
  induction l generalizing p with
  | nil => rfl
  | cons t r ih => exact ih _

theorem Linked_append (heap : List (Option node_t)) (l1 l2 : List Seg) (p : Option Nat)
    (off : Nat) (q : Option Nat) :
    Linked heap p off (l1 ++ l2) q ↔
      Linked heap p off l1 (hd l2 q) ∧
      Linked heap (lastIdx l1 p) (off + (l1.map Seg.size).sum) l2 q := by
  induction l1 generalizing p off with
  | nil => simp [Linked, lastIdx_nil]
  | cons s r ih =>
    simp only [List.cons_append, Linked, List.append_eq, ih, hd_append, lastIdx_cons,
      List.map_cons, List.sum_cons, Nat.add_assoc, and_assoc]

theorem Linked_congr {heap heap1 : List (Option node_t)} {l : List Seg}
    (h : ∀ s ∈ l, rd heap1 s.idx = rd heap s.idx) (p : Option Nat) (off : Nat) (q : Option Nat) :
    Linked heap1 p off l q ↔ Linked heap p off l q := by
  induction l generalizing p off with
  | nil => simp [Linked]
  | cons s r ih =>
    simp only [Linked]
    rw [h s (List.mem_cons_self _ _), ih (fun t ht => h t (List.mem_cons_of_mem _ ht))]

theorem Linked_mem {heap : List (Option node_t)} {l : List Seg} {p : Option Nat} {off : Nat}
    {q : Option Nat} (h : Linked heap p off l q) {s : Seg} (hs : s ∈ l) :
    ∃ n, rd heap s.idx = some n ∧ n.used = 1 ∧ n.alloc_record.size = s.size ∧
      n.allocated = (if s.al then 1 else 0) := by
  induction l generalizing p off with
  | nil => cases hs
  | cons t r ih =>
    rcases List.mem_cons.1 hs with rfl | hs
    · exact ⟨_, h.1, rfl, rfl, rfl⟩
    · exact ih h.2 hs

/-! ## The gap index -/

theorem find_gap_spec (node : Nat) (e : gap_t) (he : e.node = some node)
    (l1 : List gap_t) (h1 : ∀ x ∈ l1, x.node ≠ some node)
    (pre rest : List (Option gap_t)) (k : Nat) :
    find_gap (pre ++ (l1.map some ++ some e :: rest)) node (l1.length + 1 + k) pre.length =
      some (pre.length + l1.length) := by
  induction l1 generalizing pre with
  | nil =>
    have : 0 + 1 + k = k + 1 := by omega
    simp only [List.map_nil, List.nil_append, List.length_nil, this, find_gap, rd_at]
    simp [he]
  | cons x l ih =>
    have hk : (x :: l).length + 1 + k = (l.length + 1 + k) + 1 := by simp; omega
    rw [hk, find_gap]
    simp only [List.map_cons, List.cons_append, rd_at]
    have hx : x.node ≠ some node := h1 x (List.mem_cons_self _ _)
    have := ih (fun y hy => h1 y (List.mem_cons_of_mem _ hy)) (pre ++ [some x])
    simp only [List.append_assoc, List.singleton_append, List.length_append,
      List.length_singleton] at this
    simp [hx, this]
    omega

theorem find_gap_none (node : Nat) (l1 : List gap_t) (h1 : ∀ x ∈ l1, x.node ≠ some node)
    (pre rest : List (Option gap_t)) :
    find_gap (pre ++ (l1.map some ++ rest)) node l1.length pre.length =
      some (pre.length + l1.length) := by
  induction l1 generalizing pre with
  | nil => simp [find_gap]
  | cons x l ih =>
    simp only [List.length_cons, find_gap, List.map_cons, List.cons_append, rd_at]
    have hx : x.node ≠ some node := h1 x (List.mem_cons_self _ _)
    have := ih (fun y hy => h1 y (List.mem_cons_of_mem _ hy)) (pre ++ [some x])
    simp only [List.append_assoc, List.singleton_append, List.length_append,
      List.length_singleton] at this
    simp [hx, this]
    omega

theorem shift_down_spec (l2 : List gap_t) (z : gap_t) (pre rest : List (Option gap_t))
    (c : Option gap_t) :
    shift_down (pre ++ c :: (l2.map some ++ some z :: rest)) (l2.length + 1) pre.length =
      some (pre ++ (l2.map some ++ some z :: some z :: rest)) := by
  induction l2 generalizing pre c with
  | nil =>
    have h1 : rd (pre ++ c :: some z :: rest) (pre.length + 1) = some z := by
      have := rd_append_right pre (c :: some z :: rest) 1
      rw [this, rd_cons_succ, rd_cons_zero]
    simp [shift_down, h1]
  | cons y l ih =>
    have h1 : rd (pre ++ c :: (some y :: (l.map some ++ some z :: rest))) (pre.length + 1) =
        some y := by
      have := rd_append_right pre (c :: some y :: (l.map some ++ some z :: rest)) 1
      rw [this, rd_cons_succ, rd_cons_zero]
    have := ih (pre ++ [some y]) (some y)
    simp only [List.append_assoc, List.singleton_append, List.length_append,
      List.length_singleton] at this
    rw [List.length_cons, shift_down]
    simp only [List.map_cons, List.cons_append, h1, set_at, Option.bind_eq_bind,
      Option.some_bind]
    exact this


theorem gap_cells_split (l1 l2 : List gap_t) (e : gap_t) (k : Nat)
    (hlen : (l1 ++ e :: l2).length < MEM_GAP_IX_INIT_CAPACITY) :
    gap_cells (l1 ++ e :: l2) k =
      l1.map some ++ some e :: (l2.map some ++ some ⟨0, none⟩ ::
        (List.replicate (MEM_GAP_IX_INIT_CAPACITY - (l1 ++ e :: l2).length - 1) (some ⟨0, none⟩) ++
          List.replicate k none)) := by
  unfold gap_cells
  obtain ⟨j, hj⟩ : ∃ j, MEM_GAP_IX_INIT_CAPACITY - (l1 ++ e :: l2).length = j + 1 :=
    ⟨MEM_GAP_IX_INIT_CAPACITY - (l1 ++ e :: l2).length - 1, by omega⟩
  rw [hj]
  simp [List.replicate_succ]

theorem gap_cells_removed (l1 l2 : List gap_t) (e : gap_t) (k : Nat)
    (hlen : (l1 ++ e :: l2).length < MEM_GAP_IX_INIT_CAPACITY) :
    gap_cells (l1 ++ l2) k =
      l1.map some ++ (l2.map some ++ some ⟨0, none⟩ :: some ⟨0, none⟩ ::
        (List.replicate (MEM_GAP_IX_INIT_CAPACITY - (l1 ++ e :: l2).length - 1) (some ⟨0, none⟩) ++
          List.replicate k none)) := by
  unfold gap_cells
  obtain ⟨j, hj⟩ : ∃ j, MEM_GAP_IX_INIT_CAPACITY - (l1 ++ e :: l2).length = j + 1 :=
    ⟨MEM_GAP_IX_INIT_CAPACITY - (l1 ++ e :: l2).length - 1, by omega⟩
  have hj2 : MEM_GAP_IX_INIT_CAPACITY - (l1 ++ l2).length = j + 2 := by
    simp only [List.length_append, List.length_cons] at hj hlen ⊢; omega
  rw [hj2, hj]
  simp [List.replicate_succ]

theorem remove_spec (m : pool_mgr_t) (l1 l2 : List gap_t) (e : gap_t) (node size k : Nat)
    (hgi : m.gap_ix = gap_cells (l1 ++ e :: l2) k)
    (hlen : (l1 ++ e :: l2).length < MEM_GAP_IX_INIT_CAPACITY)
    (hn : m.pool.num_gaps = (l1 ++ e :: l2).length)
    (hcap : m.gap_ix.length = m.gap_ix_capacity)
    (he : e.node = some node) (h1 : ∀ x ∈ l1, x.node ≠ some node) (hsz : size ≠ 0) :
    ∃ m1, _mem_remove_from_gap_ix m size node = some m1 ∧ GapOnly m m1 ∧
      m1.gap_ix = gap_cells (l1 ++ l2) k ∧ m1.pool.num_gaps = (l1 ++ l2).length := by
  have hsplit := gap_cells_split l1 l2 e k hlen
  have hrem := gap_cells_removed l1 l2 e k hlen
  set rest := List.replicate (MEM_GAP_IX_INIT_CAPACITY - (l1 ++ e :: l2).length - 1)
    (some (⟨0, none⟩ : gap_t)) ++ List.replicate k none with hrest
  have hfind : find_gap m.gap_ix node m.pool.num_gaps 0 = some l1.length := by
    have := find_gap_spec node e he l1 h1 []
      (l2.map some ++ some ⟨0, none⟩ :: rest) l2.length
    rw [hgi, hsplit, hn]
    simp only [List.nil_append, List.length_nil, Nat.zero_add] at this
    simp only [List.length_append, List.length_cons]
    rw [show l1.length + (l2.length + 1) = l1.length + 1 + l2.length by omega]
    exact this
  have hshift : shift_down m.gap_ix (m.pool.num_gaps - l1.length) l1.length =
      some (l1.map some ++ (l2.map some ++ some ⟨0, none⟩ :: some ⟨0, none⟩ :: rest)) := by
    have := shift_down_spec l2 ⟨0, none⟩ (l1.map some) rest (some e)
    rw [hgi, hsplit, hn]
    simp only [List.length_map] at this
    simp only [List.length_append, List.length_cons]
    rw [show l1.length + (l2.length + 1) - l1.length = l2.length + 1 by omega]
    exact this
  have hwr : wr (l1.map some ++ (l2.map some ++ some (⟨0, none⟩ : gap_t) :: some ⟨0, none⟩ :: rest))
      m.pool.num_gaps ⟨0, none⟩ =
      some (l1.map some ++ (l2.map some ++ some ⟨0, none⟩ :: some ⟨0, none⟩ :: rest)) := by
    have h := set_at (l1.map some ++ (l2.map some ++ [some (⟨0, none⟩ : gap_t)]))
      (some ⟨0, none⟩) (some ⟨0, none⟩) rest
    simp only [List.append_assoc, List.singleton_append, List.length_append, List.length_map,
      List.length_singleton] at h
    unfold wr
    rw [hn]
    simp only [List.length_append, List.length_cons, List.length_map]
    rw [show l1.length + (l2.length + 1) = l1.length + (l2.length + 1) by rfl, h]
    simp
  refine ⟨{ m with
      gap_ix := l1.map some ++ (l2.map some ++ some ⟨0, none⟩ :: some ⟨0, none⟩ :: rest)
      pool := { m.pool with num_gaps := dec_unsigned m.pool.num_gaps } }, ?_, ?_, ?_, ?_⟩
  · unfold _mem_remove_from_gap_ix
    simp only [hsz, if_false, hfind, hshift, hwr, Option.bind_eq_bind, Option.some_bind]
  · constructor <;> try rfl
    show (l1.map some ++ (l2.map some ++ some (⟨0, none⟩ : gap_t) :: some ⟨0, none⟩ :: rest)).length
      = m.gap_ix_capacity
    rw [← hcap, hgi, hsplit]
    simp only [List.length_append, List.length_cons, List.length_map]
    omega
  · simp [hrem]
  · simp [hn, dec_unsigned]


theorem gap_le_total (a b : gap_t) : gap_le a b ∨ gap_le b a := by
  unfold gap_le
  rcases Nat.lt_trichotomy a.size b.size with h | h | h
  · exact Or.inl (Or.inl h)
  · rcases ha : a.node with _ | x <;> rcases hb : b.node with _ | y <;>
      simp [h, ptr_lt]
    omega
  · exact Or.inr (Or.inl h)

theorem gap_le_trans {a b c : gap_t} (h1 : gap_le a b) (h2 : gap_le b c) : gap_le a c := by
  unfold gap_le at *
  rcases h1 with h1 | ⟨h1, h1'⟩ <;> rcases h2 with h2 | ⟨h2, h2'⟩
  · exact Or.inl (by omega)
  · exact Or.inl (by omega)
  · exact Or.inl (by omega)
  · refine Or.inr ⟨by omega, ?_⟩
    rcases ha : a.node with _ | x <;> rcases hb : b.node with _ | y <;>
      rcases hc : c.node with _ | z <;> simp_all [ptr_lt]
    omega

theorem sort_step_keep (pre rest : List (Option gap_t)) (a b : gap_t) (h : gap_le a b) :
    sort_step (pre ++ some a :: some b :: rest) (pre.length + 1) =
      some (pre ++ some a :: some b :: rest) := by
  have hb : rd (pre ++ some a :: some b :: rest) (pre.length + 1) = some b := by
    rw [rd_append_right, rd_cons_succ, rd_cons_zero]
  have ha : rd (pre ++ some a :: some b :: rest) pre.length = some a := rd_at _ _ _
  unfold sort_step
  simp only [hb, Nat.add_sub_cancel, ha, Option.bind_eq_bind, Option.some_bind]
  have hc : ((decide (b.size = 0) && decide (b.size ≠ 0)) ||
      (decide (b.size < a.size) && decide (b.size ≠ 0)) ||
      (decide (b.size = a.size) && ptr_lt b.node a.node && decide (b.size ≠ 0))) = false := by
    unfold gap_le at h
    rcases h with h | ⟨h, h'⟩
    · have h1 : ¬ b.size < a.size := by omega
      have h2 : ¬ b.size = a.size := by omega
      simp [h1, h2]
    · have h1 : ¬ b.size < a.size := by omega
      simp [h1, h']
  rw [if_neg (by rw [hc]; simp)]

theorem sort_step_swap (pre rest : List (Option gap_t)) (a b : gap_t) (h : ¬ gap_le a b)
    (hb0 : b.size ≠ 0) :
    sort_step (pre ++ some a :: some b :: rest) (pre.length + 1) =
      some (pre ++ some b :: some a :: rest) := by
  have hb : rd (pre ++ some a :: some b :: rest) (pre.length + 1) = some b := by
    rw [rd_append_right, rd_cons_succ, rd_cons_zero]
  have ha : rd (pre ++ some a :: some b :: rest) pre.length = some a := rd_at _ _ _
  unfold sort_step
  simp only [hb, Nat.add_sub_cancel, ha, Option.bind_eq_bind, Option.some_bind]
  have hc : ((decide (b.size = 0) && decide (b.size ≠ 0)) ||
      (decide (b.size < a.size) && decide (b.size ≠ 0)) ||
      (decide (b.size = a.size) && ptr_lt b.node a.node && decide (b.size ≠ 0))) = true := by
    unfold gap_le at h
    push_neg at h
    by_cases h1 : b.size < a.size
    · simp [h1, hb0]
    · have h2 : a.size = b.size := by omega
      have h3 := h.2 h2
      simp [h2, hb0, h3]
  rw [if_pos hc]
  have h1 := set_at pre (some a) (some b) (some b :: rest)
  have h2 := set_at (pre ++ [some b]) (some b) (some a) rest
  simp only [List.append_assoc, List.singleton_append, List.length_append,
    List.length_singleton] at h2
  rw [h1, h2]

theorem sort_loop_sorted (A : List gap_t) (c : List (Option gap_t)) (hs : A.Pairwise gap_le) :
    sort_loop (A.map some ++ c) (A.length - 1) = some (A.map some ++ c) := by
  induction A using List.reverseRecOn generalizing c with
  | nil => simp [sort_loop]
  | append_singleton l b ih =>
    rcases List.eq_nil_or_concat l with rfl | ⟨l0, a, rfl⟩
    · simp [sort_loop]
    · rw [List.concat_eq_append] at hs ih ⊢
      have hab : gap_le a b := by
        rw [List.pairwise_append] at hs
        exact hs.2.2 a (by simp) b (by simp)
      have hl : (l0 ++ [a]).Pairwise gap_le := (List.pairwise_append.1 hs).1
      have hlen : (l0 ++ [a] ++ [b]).length - 1 = l0.length + 1 := by simp
      rw [hlen, sort_loop]
      have hform : (l0 ++ [a] ++ [b]).map some ++ c =
          l0.map some ++ some a :: some b :: c := by simp
      have hstep := sort_step_keep (l0.map some) c a b hab
      rw [List.length_map] at hstep
      rw [hform, hstep]
      simp only [Option.bind_eq_bind, Option.some_bind]
      have := ih (some b :: c) hl
      simp only [List.length_append, List.length_singleton, Nat.add_sub_cancel,
        List.map_append, List.map_cons, List.map_nil, List.append_assoc,
        List.singleton_append] at this
      exact this

theorem sort_loop_insert (A B : List gap_t) (e : gap_t) (c : List (Option gap_t))
    (hs : A.Pairwise gap_le) (he : e.size ≠ 0) :
    ∃ A1 A2, A = A1 ++ A2 ∧ (∀ x ∈ A1, gap_le x e) ∧ (∀ x ∈ A2, gap_le e x) ∧
      sort_loop ((A ++ e :: B).map some ++ c) A.length =
        some ((A1 ++ e :: (A2 ++ B)).map some ++ c) := by
  induction A using List.reverseRecOn generalizing B with
  | nil => exact ⟨[], [], rfl, by simp, by simp, by simp [sort_loop]⟩
  | append_singleton l a ih =>
    have hl : l.Pairwise gap_le := (List.pairwise_append.1 hs).1
    have hform : (l ++ [a] ++ e :: B).map some ++ c =
        l.map some ++ some a :: some e :: (B.map some ++ c) := by simp
    by_cases hae : gap_le a e
    · refine ⟨l ++ [a], [], by simp, ?_, by simp, ?_⟩
      · intro x hx
        rcases List.mem_append.1 hx with hx | hx
        · exact gap_le_trans ((List.pairwise_append.1 hs).2.2 x hx a (by simp)) hae
        · simp at hx; subst hx; exact hae
      · have hlen : (l ++ [a]).length = l.length + 1 := by simp
        rw [hlen, sort_loop, hform]
        have hstep := sort_step_keep (l.map some) (B.map some ++ c) a e hae
        rw [List.length_map] at hstep
        rw [hstep]
        simp only [Option.bind_eq_bind, Option.some_bind]
        have := sort_loop_sorted (l ++ [a]) (some e :: (B.map some ++ c)) hs
        simp only [List.length_append, List.length_singleton, Nat.add_sub_cancel,
          List.map_append, List.map_cons, List.map_nil, List.append_assoc,
          List.singleton_append] at this
        rw [this]
        simp
    · obtain ⟨A1, A2, hA, h1, h2, hloop⟩ := ih (a :: B) hl
      have hea : gap_le e a := (gap_le_total e a).resolve_right hae
      refine ⟨A1, A2 ++ [a], by simp [hA], h1, ?_, ?_⟩
      · intro x hx
        rcases List.mem_append.1 hx with hx | hx
        · exact h2 x hx
        · simp at hx; subst hx; exact hea
      · have hlen : (l ++ [a]).length = l.length + 1 := by simp
        rw [hlen, sort_loop, hform]
        have hstep := sort_step_swap (l.map some) (B.map some ++ c) a e hae he
        rw [List.length_map] at hstep
        rw [hstep]
        simp only [Option.bind_eq_bind, Option.some_bind]
        have hform2 : l.map some ++ some e :: some a :: (B.map some ++ c) =
            (l ++ e :: a :: B).map some ++ c := by simp
        rw [hform2, hloop]
        simp


theorem resize_gap_spec (m : pool_mgr_t) (gl : List gap_t) (k : Nat)
    (hgi : m.gap_ix = gap_cells gl k) (hcap : m.gap_ix.length = m.gap_ix_capacity) :
    ∃ k1, (_mem_resize_gap_ix m).gap_ix = gap_cells gl k1 ∧
      (_mem_resize_gap_ix m).gap_ix.length = (_mem_resize_gap_ix m).gap_ix_capacity ∧
      (_mem_resize_gap_ix m).node_heap = m.node_heap ∧
      (_mem_resize_gap_ix m).pool = m.pool ∧
      (_mem_resize_gap_ix m).total_nodes = m.total_nodes ∧
      (_mem_resize_gap_ix m).used_nodes = m.used_nodes := by
  unfold _mem_resize_gap_ix
  split
  · refine ⟨k + m.gap_ix_capacity, ?_, ?_, rfl, rfl, rfl, rfl⟩
    · simp only [realloc_cells, MEM_GAP_IX_EXPAND_FACTOR]
      rw [List.take_of_length_le (by omega), hcap, hgi]
      unfold gap_cells
      rw [show m.gap_ix_capacity * 2 - m.gap_ix_capacity = m.gap_ix_capacity by omega]
      simp [List.append_assoc, List.append_replicate_replicate]
    · simp only [realloc_cells, MEM_GAP_IX_EXPAND_FACTOR]
      rw [List.take_of_length_le (by omega)]
      simp only [List.length_append, List.length_replicate]
      omega
  · exact ⟨k, hgi, hcap, rfl, rfl, rfl, rfl⟩

theorem add_spec (m : pool_mgr_t) (gl : List gap_t) (size node k : Nat) (n : node_t)
    (hgi : m.gap_ix = gap_cells gl k) (hlen : gl.length + 1 < MEM_GAP_IX_INIT_CAPACITY)
    (hn : m.pool.num_gaps = gl.length) (hcap : m.gap_ix.length = m.gap_ix_capacity)
    (hs : gl.Pairwise gap_le) (hnode : rd m.node_heap node = some n)
    (hfree : n.allocated = 0) (hsz : size ≠ 0) :
    ∃ m1 l1 l2 k1, _mem_add_to_gap_ix m size node = some m1 ∧ GapOnly m m1 ∧ gl = l1 ++ l2 ∧
      m1.gap_ix = gap_cells (l1 ++ ⟨size, some node⟩ :: l2) k1 ∧
      m1.pool.num_gaps = gl.length + 1 ∧
      (l1 ++ ⟨size, some node⟩ :: l2).Pairwise gap_le := by
  obtain ⟨k1, hgi1, hcap1, hheap, hpool, htot, hused⟩ := resize_gap_spec m gl k hgi hcap
  obtain ⟨j, hj⟩ : ∃ j, MEM_GAP_IX_INIT_CAPACITY - gl.length = j + 1 :=
    ⟨MEM_GAP_IX_INIT_CAPACITY - gl.length - 1, by omega⟩
  have hcells : gap_cells gl k1 = gl.map some ++ some ⟨0, none⟩ ::
      (List.replicate j (some ⟨0, none⟩) ++ List.replicate k1 none) := by
    unfold gap_cells; rw [hj]; simp [List.replicate_succ]
  obtain ⟨A1, A2, hA, h1, h2, hloop⟩ := sort_loop_insert gl [] (⟨size, some node⟩ : gap_t)
    (List.replicate j (some ⟨0, none⟩) ++ List.replicate k1 none) hs hsz
  have hwr : wr (_mem_resize_gap_ix m).gap_ix (_mem_resize_gap_ix m).pool.num_gaps
      (⟨size, some node⟩ : gap_t) =
      some ((gl ++ [(⟨size, some node⟩ : gap_t)]).map some ++
        (List.replicate j (some ⟨0, none⟩) ++ List.replicate k1 none)) := by
    unfold wr
    rw [hgi1, hcells, hpool, hn]
    have := set_at (gl.map some) (some (⟨0, none⟩ : gap_t)) (some (⟨size, some node⟩ : gap_t))
      (List.replicate j (some ⟨0, none⟩) ++ List.replicate k1 none)
    rw [List.length_map] at this
    rw [this]
    simp
  have hcells2 : gap_cells (A1 ++ (⟨size, some node⟩ : gap_t) :: A2) k1 =
      (A1 ++ (⟨size, some node⟩ : gap_t) :: (A2 ++ [])).map some ++
        (List.replicate j (some ⟨0, none⟩) ++ List.replicate k1 none) := by
    unfold gap_cells
    have : MEM_GAP_IX_INIT_CAPACITY - (A1 ++ (⟨size, some node⟩ : gap_t) :: A2).length = j := by
      have : gl.length = A1.length + A2.length := by rw [hA]; simp
      simp only [List.length_append, List.length_cons]
      omega
    rw [this]
    simp
  have hrd : rd (List.map some gl ++ some (⟨size, some node⟩ : gap_t) ::
      (List.replicate j (some ⟨0, none⟩) ++ List.replicate k1 none)) (gl.length + 1) =
      some (⟨0, none⟩ : gap_t) := by
    obtain ⟨j1, rfl⟩ : ∃ j1, j = j1 + 1 := ⟨j - 1, by omega⟩
    have := rd_at (List.map some gl ++ [some (⟨size, some node⟩ : gap_t)])
      (some (⟨0, none⟩ : gap_t))
      (List.replicate j1 (some ⟨0, none⟩) ++ List.replicate k1 none)
    simpa [List.replicate_succ] using this
  refine ⟨{ (_mem_resize_gap_ix m) with
      gap_ix := gap_cells (A1 ++ (⟨size, some node⟩ : gap_t) :: A2) k1
      pool := { (_mem_resize_gap_ix m).pool with
        num_gaps := (_mem_resize_gap_ix m).pool.num_gaps + 1 } },
    A1, A2, k1, ?_, ?_, hA, rfl, ?_, ?_⟩
  · unfold _mem_add_to_gap_ix
    simp only [hheap, hnode, hfree, hsz, hwr, Option.bind_eq_bind, Option.some_bind,
      ne_eq, not_true_eq_false, if_false, _mem_sort_gap_ix, Nat.add_sub_cancel]
    rw [hpool, hn]
    simp only [List.map_append, List.map_cons, List.map_nil] at hloop ⊢
    simp only [List.append_assoc, List.singleton_append] at hloop ⊢
    rw [hloop, hcells2]
    simp [hrd]
  · constructor
    · exact hheap
    · exact htot
    · exact hused
    · show (_mem_resize_gap_ix m).pool.mem = _; rw [hpool]
    · show (_mem_resize_gap_ix m).pool.policy = _; rw [hpool]
    · show (_mem_resize_gap_ix m).pool.total_size = _; rw [hpool]
    · show (_mem_resize_gap_ix m).pool.alloc_size = _; rw [hpool]
    · show (_mem_resize_gap_ix m).pool.num_allocs = _; rw [hpool]
    · show (gap_cells (A1 ++ (⟨size, some node⟩ : gap_t) :: A2) k1).length =
        (_mem_resize_gap_ix m).gap_ix_capacity
      rw [← hcap1, hgi1]
      have : gl.length = A1.length + A2.length := by rw [hA]; simp
      unfold gap_cells
      simp only [List.length_append, List.length_map, List.length_replicate, List.length_cons]
      omega
  · show (_mem_resize_gap_ix m).pool.num_gaps + 1 = _
    rw [hpool, hn]
  · rw [List.pairwise_append]
    rw [hA, List.pairwise_append] at hs
    refine ⟨hs.1, ?_, ?_⟩
    · rw [List.pairwise_cons]
      exact ⟨h2, hs.2.1⟩
    · intro x hx y hy
      rcases List.mem_cons.1 hy with rfl | hy
      · exact h1 x hx
      · exact hs.2.2 x hx y hy

/-! ## The walks along the segment list -/

theorem walk_spec (heap : List (Option node_t)) (s : Seg) (r : List Seg) (p : Option Nat)
    (off fuel : Nat) (h : Linked heap p off (s :: r) none) (hf : (s :: r).length ≤ fuel) :
    walk heap fuel s.idx = some (nodes p off (s :: r) none) := by
  induction r generalizing s p off fuel with
  | nil =>
    obtain ⟨f, rfl⟩ : ∃ f, fuel = f + 1 := ⟨fuel - 1, by simp at hf; omega⟩
    simp [walk, h.1, nodes, hd, Seg.node]
  | cons t r ih =>
    obtain ⟨f, rfl⟩ : ∃ f, fuel = f + 1 := ⟨fuel - 1, by simp at hf; omega⟩
    have h2 := ih t (some s.idx) (off + s.size) f h.2 (by simp at hf ⊢; omega)
    rw [walk]
    simp only [h.1, Option.bind_eq_bind, Option.some_bind]
    simp only [Seg.node, hd, h2, Option.some_bind]
    rfl

theorem find_node_spec (heap : List (Option node_t)) (pre : List Seg) (x : Seg)
    (post : List Seg) (p : Option Nat) (off fuel : Nat)
    (h : Linked heap p off (pre ++ x :: post) none)
    (hnd : ∀ t ∈ pre, t.idx ≠ x.idx) (hf : pre.length + 1 ≤ fuel) :
    ∃ c, hd (pre ++ x :: post) none = some c ∧ find_node heap x.idx fuel c = some x.idx := by
  induction pre generalizing p off fuel with
  | nil =>
    obtain ⟨f, rfl⟩ : ∃ f, fuel = f + 1 := ⟨fuel - 1, by omega⟩
    refine ⟨x.idx, rfl, ?_⟩
    rw [find_node]
    simp only [List.nil_append] at h
    simp only [h.1, Option.bind_eq_bind, Option.some_bind]
    cases hd post none <;> simp [Seg.node]
  | cons t r ih =>
    obtain ⟨f, rfl⟩ : ∃ f, fuel = f + 1 := ⟨fuel - 1, by omega⟩
    obtain ⟨c, hc, hfind⟩ := ih (some t.idx) (off + t.size) f h.2
      (fun u hu => hnd u (List.mem_cons_of_mem _ hu)) (by simp at hf; omega)
    refine ⟨t.idx, rfl, ?_⟩
    rw [find_node]
    have h1 := h.1
    simp only [List.cons_append] at h1
    simp only [h1, Option.bind_eq_bind, Option.some_bind, Seg.node, List.append_eq, hc]
    simp [hnd t (List.mem_cons_self _ _), hfind]

theorem first_fit_spec (heap : List (Option node_t)) (size : Nat) (s : Seg) (r : List Seg)
    (p : Option Nat) (off fuel h : Nat) (hl : Linked heap p off (s :: r) none)
    (hff : first_fit heap size fuel s.idx = some h) :
    ∃ pre x post, s :: r = pre ++ x :: post ∧ x.idx = h ∧
      (∀ t ∈ pre, ¬ (t.al = false ∧ size ≤ t.size)) ∧
      ((x.al = false ∧ size ≤ x.size) ∨ post = []) := by
  induction r generalizing s p off fuel with
  | nil =>
    cases fuel with
    | zero => simp [first_fit] at hff
    | succ f =>
      rw [first_fit] at hff
      simp only [hl.1, Option.bind_eq_bind, Option.some_bind, Seg.node, hd] at hff
      refine ⟨[], s, [], rfl, ?_, by simp, Or.inr rfl⟩
      simpa using hff
  | cons t r ih =>
    cases fuel with
    | zero => simp [first_fit] at hff
    | succ f =>
      rw [first_fit] at hff
      simp only [hl.1, Option.bind_eq_bind, Option.some_bind, Seg.node, hd] at hff
      by_cases hfit : s.al = false ∧ size ≤ s.size
      · have : (if s.al = true then 1 else 0) = 0 := by simp [hfit.1]
        simp only [this, hfit.2, and_self, if_true] at hff
        refine ⟨[], s, t :: r, rfl, ?_, by simp, Or.inl hfit⟩
        simpa using hff
      · have hc : ¬ ((if s.al = true then 1 else 0) = 0 ∧ size ≤ s.size ∧ True) := by
          intro hc
          apply hfit
          refine ⟨?_, hc.2.1⟩
          cases hs : s.al <;> simp_all
        rw [if_neg hc] at hff
        obtain ⟨pre, x, post, heq, hx, hpre, hlast⟩ := ih t (some s.idx) (off + s.size) f hl.2 hff
        refine ⟨s :: pre, x, post, by simp [heq], hx, ?_, hlast⟩
        intro u hu
        rcases List.mem_cons.1 hu with rfl | hu
        · exact hfit
        · exact hpre u hu

theorem find_unused_spec (heap : List (Option node_t)) (k i j : Nat)
    (h : find_unused heap k i = some j) : ∃ u, rd heap j = some u ∧ u.used = 0 := by
  induction k generalizing i with
  | zero => simp [find_unused] at h
  | succ k ih =>
    rw [find_unused] at h
    cases hr : rd heap i with
    | none => simp [hr] at h
    | some n =>
      simp only [hr, Option.bind_eq_bind, Option.some_bind] at h
      by_cases hu : n.used = 0
      · simp only [hu, if_true, Option.some.injEq] at h
        subst h
        exact ⟨n, hr, hu⟩
      · rw [if_neg hu] at h
        exact ih _ h

/-- The entries `mem_inspect_pool` writes for the segments `v`. -/
theorem inspect_loop_spec (heap : List (Option node_t)) (s : Seg) (r : List Seg)
    (p : Option Nat) (off fuel : Nat) (done : List (Option pool_segment_t))
    (h : Linked heap p off (s :: r) none) (hf : (s :: r).length ≤ fuel) :
    inspect_loop heap fuel s.idx done.length (done ++ List.replicate (s :: r).length none) =
      some (done ++ (s :: r).map fun t => some ⟨t.size, if t.al then 1 else 0⟩) := by
  induction r generalizing s p off fuel done with
  | nil =>
    obtain ⟨f, rfl⟩ : ∃ f, fuel = f + 1 := ⟨fuel - 1, by simp at hf; omega⟩
    rw [inspect_loop]
    simp [h.1, Seg.node, hd, wr]
  | cons t r ih =>
    obtain ⟨f, rfl⟩ : ∃ f, fuel = f + 1 := ⟨fuel - 1, by simp at hf; omega⟩
    have h2 := ih t (some s.idx) (off + s.size) f
      (done ++ [some ⟨s.size, if s.al then 1 else 0⟩]) h.2 (by simp at hf ⊢; omega)
    rw [inspect_loop]
    simp only [h.1, Option.bind_eq_bind, Option.some_bind, Seg.node, hd]
    have hwr : wr (done ++ List.replicate (s :: t :: r).length none) done.length
        (⟨s.size, if s.al then 1 else 0⟩ : pool_segment_t) =
        some ((done ++ [some ⟨s.size, if s.al then 1 else 0⟩]) ++
          List.replicate (t :: r).length none) := by
      unfold wr
      simp [List.replicate_succ]
    simp only [List.length_append, List.length_singleton] at h2
    simp only [one_ne_zero, if_false, hwr, Option.some_bind, h2]
    simp


/-! ## Facts about the abstract view -/

@[simp] theorem frees_nil : frees [] = [] := rfl

@[simp] theorem frees_append (a b : List Seg) : frees (a ++ b) = frees a ++ frees b := by
  simp [frees]

theorem frees_cons_free (s : Seg) (r : List Seg) (h : s.al = false) :
    frees (s :: r) = s.gap :: frees r := by
  simp [frees, h]

theorem frees_cons_alloc (s : Seg) (r : List Seg) (h : s.al = true) :
    frees (s :: r) = frees r := by
  simp [frees, h]

@[simp] theorem allocs_nil : allocs [] = [] := rfl

@[simp] theorem allocs_append (a b : List Seg) : allocs (a ++ b) = allocs a ++ allocs b := by
  simp [allocs]

theorem allocs_cons_free (s : Seg) (r : List Seg) (h : s.al = false) :
    allocs (s :: r) = allocs r := by
  simp [allocs, h]

theorem allocs_cons_alloc (s : Seg) (r : List Seg) (h : s.al = true) :
    allocs (s :: r) = s :: allocs r := by
  simp [allocs, h]

theorem mem_frees {v : List Seg} {e : gap_t} :
    e ∈ frees v ↔ ∃ s ∈ v, s.al = false ∧ s.gap = e := by
  simp [frees, and_assoc]

theorem frees_node_ne {v : List Seg} {i : Nat} (h : ∀ s ∈ v, s.idx ≠ i) :
    ∀ y ∈ frees v, y.node ≠ some i := by
  intro y hy
  obtain ⟨s, hs, _, rfl⟩ := mem_frees.1 hy
  simpa [Seg.gap] using h s hs

theorem frees_length_add (v : List Seg) : (frees v).length + (allocs v).length = v.length := by
  induction v with
  | nil => rfl
  | cons s r ih =>
    cases h : s.al
    · rw [frees_cons_free _ _ h, allocs_cons_free _ _ h]; simp; omega
    · rw [frees_cons_alloc _ _ h, allocs_cons_alloc _ _ h]; simp; omega

theorem frees_length_le (v : List Seg) : (frees v).length ≤ v.length := by
  have := frees_length_add v; omega

theorem frees_length_lt_of_chain (v : List Seg)
    (h : v.Chain' fun a b => a.al = true ∨ b.al = true) (h2 : 2 ≤ v.length) :
    (frees v).length < v.length := by
  match v, h, h2 with
  | a :: b :: r, h, _ =>
    have hab : a.al = true ∨ b.al = true := (List.chain'_cons.1 h).1
    rcases hab with ha | hb
    · rw [frees_cons_alloc _ _ ha]
      have := frees_length_le (b :: r)
      simp at this ⊢; omega
    · have h1 : (frees (a :: b :: r)).length ≤ 1 + (frees (b :: r)).length := by
        cases ha : a.al
        · rw [frees_cons_free _ _ ha]; simp; omega
        · rw [frees_cons_alloc _ _ ha]; omega
      rw [frees_cons_alloc _ _ hb] at h1
      have := frees_length_le r
      simp at this ⊢; omega

theorem frees_length_chain (v : List Seg)
    (h : v.Chain' fun a b => a.al = true ∨ b.al = true) :
    2 * (frees v).length ≤ v.length + 1 := by
  match v, h with
  | [], _ => simp
  | [a], _ =>
    have := frees_length_le [a]
    simp at this ⊢; omega
  | a :: b :: r, h =>
    have hab : a.al = true ∨ b.al = true := (List.chain'_cons.1 h).1
    have hbr := (List.chain'_cons.1 h).2
    have ih1 := frees_length_chain (b :: r) hbr
    rcases hab with ha | hb
    · rw [frees_cons_alloc _ _ ha]
      simp only [List.length_cons] at ih1 ⊢
      omega
    · have ih2 := frees_length_chain r (List.Chain'.tail hbr)
      have h1 : (frees (a :: b :: r)).length ≤ 1 + (frees (b :: r)).length := by
        cases ha : a.al
        · rw [frees_cons_free _ _ ha]; simp; omega
        · rw [frees_cons_alloc _ _ ha]; omega
      rw [frees_cons_alloc _ _ hb] at h1
      simp only [List.length_cons] at h1 ⊢
      omega
termination_by v.length

theorem nodup_length_le (l : List Nat) (n : Nat) (hnd : l.Nodup) (hb : ∀ x ∈ l, x < n) :
    l.length ≤ n := by
  have h1 : l.toFinset ⊆ Finset.range n := by
    intro x hx
    simp only [List.mem_toFinset] at hx
    simpa using hb x hx
  have h2 := Finset.card_le_card h1
  rw [List.toFinset_card_of_nodup hnd] at h2
  simpa using h2

theorem nodup_mid {pre post : List Seg} {x : Seg}
    (hnd : ((pre ++ x :: post).map Seg.idx).Nodup) :
    (∀ s ∈ pre, s.idx ≠ x.idx) ∧ (∀ s ∈ post, s.idx ≠ x.idx) ∧
      (∀ s ∈ pre, ∀ t ∈ post, s.idx ≠ t.idx) ∧ (pre.map Seg.idx).Nodup ∧
      (post.map Seg.idx).Nodup := by
  rw [List.map_append, List.map_cons, List.nodup_append] at hnd
  obtain ⟨h1, h2, h3⟩ := hnd
  rw [List.nodup_cons] at h2
  refine ⟨?_, ?_, ?_, h1, h2.2⟩
  · intro s hs heq
    exact h3 (List.mem_map_of_mem _ hs) (by rw [heq]; exact List.mem_cons_self _ _)
  · intro s hs heq
    exact h2.1 (by rw [← heq]; exact List.mem_map_of_mem _ hs)
  · intro s hs t ht heq
    exact h3 (List.mem_map_of_mem _ hs)
      (by rw [heq]; exact List.mem_cons_of_mem _ (List.mem_map_of_mem _ ht))

theorem perm_split {gl : List gap_t} {pre post : List Seg} {x : Seg}
    (hp : gl.Perm (frees (pre ++ x :: post))) (hx : x.al = false)
    (hnd : ((pre ++ x :: post).map Seg.idx).Nodup) :
    ∃ l1 l2, gl = l1 ++ x.gap :: l2 ∧ (∀ y ∈ l1, y.node ≠ some x.idx) ∧
      (∀ y ∈ l2, y.node ≠ some x.idx) ∧ (l1 ++ l2).Perm (frees pre ++ frees post) := by
  rw [frees_append, frees_cons_free _ _ hx] at hp
  have hmem : x.gap ∈ gl := hp.mem_iff.2 (by simp)
  obtain ⟨l1, l2, rfl⟩ := List.append_of_mem hmem
  have hp2 : (l1 ++ l2).Perm (frees pre ++ frees post) :=
    ((List.perm_middle.symm.trans hp).trans List.perm_middle).cons_inv
  have hne : ∀ y ∈ l1 ++ l2, y.node ≠ some x.idx := by
    intro y hy
    have hy2 := hp2.mem_iff.1 hy
    obtain ⟨h1, h2, -⟩ := nodup_mid hnd
    rcases List.mem_append.1 hy2 with h | h
    · exact frees_node_ne h1 y h
    · exact frees_node_ne h2 y h
  exact ⟨l1, l2, rfl, fun y hy => hne y (List.mem_append_left _ hy),
    fun y hy => hne y (List.mem_append_right _ hy), hp2⟩

/-! ## Allocation -/

theorem split_gap_heap (m : pool_mgr_t) (a nw old size : Nat) (A0 N0 : node_t)
    (hA : rd m.node_heap a = some A0) (hN : rd m.node_heap nw = some N0) (hne : a ≠ nw)
    (hT : ∀ t, A0.next = some t → t ≠ a ∧ t ≠ nw ∧ ∃ T0, rd m.node_heap t = some T0) :
    ∃ H, split_gap m a nw old size =
        _mem_add_to_gap_ix { m with node_heap := H, used_nodes := m.used_nodes + 1 }
          (sub_size_t old A0.alloc_record.size) nw ∧
      H.length = m.node_heap.length ∧
      rd H a = some { A0 with next := some nw } ∧
      rd H nw = some
        { alloc_record := { mem := A0.alloc_record.mem.map (· + size),
                            size := sub_size_t old A0.alloc_record.size },
          used := 1, allocated := 0,
          next := (match A0.next with | some t => some t | none => N0.next),
          prev := some a } ∧
      (∀ t T0, A0.next = some t → rd m.node_heap t = some T0 →
        rd H t = some { T0 with prev := some nw }) ∧
      (∀ j, j ≠ a → j ≠ nw → A0.next ≠ some j → rd H j = rd m.node_heap j) := by
  have ha := rd_lt hA
  have hn := rd_lt hN
  have hne' : nw ≠ a := fun h => hne h.symm
  cases hnx : A0.next with
  | none =>
    refine ⟨?H, ?h1, ?_, ?_, ?_, ?_, ?_⟩
    case h1 =>
      unfold split_gap
      simp only [hA, hnx, hN, Option.bind_eq_bind, Option.some_bind, rd_set_self, rd_set_ne,
        List.length_set, ha, hn, hne, hne', ne_eq, not_false_eq_true]
      exact rfl
    · simp
    · simp [rd_set_self, rd_set_ne, ha, hn, hne, hne', hnx]
    · simp [rd_set_self, rd_set_ne, ha, hn, hne, hne']
    · intro t T0 h; cases h
    · intro j h1 h2 _
      simp [rd_set_ne, h1, h2]
  | some t =>
    obtain ⟨hta, htn, T0, hT0⟩ := hT t hnx
    have ht := rd_lt hT0
    have hat : a ≠ t := fun h => hta h.symm
    have hnt : nw ≠ t := fun h => htn h.symm
    refine ⟨?H2, ?h2, ?_, ?_, ?_, ?_, ?_⟩
    case h2 =>
      unfold split_gap
      simp only [hA, hnx, hN, hT0, Option.bind_eq_bind, Option.some_bind, rd_set_self, rd_set_ne,
        List.length_set, ha, hn, ht, hne, hne', hta, htn, hat, hnt, ne_eq, not_false_eq_true]
      exact rfl
    · simp
    · simp [rd_set_self, rd_set_ne, ha, hn, ht, hne, hne', hta, htn, hat, hnt, hnx]
    · simp [rd_set_self, rd_set_ne, ha, hn, ht, hne, hne', hta, htn, hat, hnt]
    · intro t' T0' h h'
      cases h
      rw [hT0] at h'; cases h'
      simp [rd_set_self, rd_set_ne, ha, hn, ht, hne, hne', hta, htn, hat, hnt]
    · intro j h1 h2 h3
      have h3' : j ≠ t := fun h => h3 (by rw [h])
      simp [rd_set_ne, h1, h2, h3']


theorem heap_ptr_of_len {m : pool_mgr_t} (h : m.node_heap.length = m.total_nodes) :
    node_heap_ptr m = 0 := by
  unfold node_heap_ptr; omega

theorem Core.heap_ptr {m : pool_mgr_t} {v : List Seg} {gl : List gap_t} (h : Core m v gl) :
    node_heap_ptr m = 0 := heap_ptr_of_len h.heap_len

theorem Core.idx_lt {m : pool_mgr_t} {v : List Seg} {gl : List gap_t} (h : Core m v gl)
    {s : Seg} (hs : s ∈ v) : s.idx < MEM_NODE_HEAP_INIT_CAPACITY := by
  obtain ⟨n, hn, -⟩ := Linked_mem h.linked hs
  by_contra hlt
  rw [h.beyond _ (Nat.le_of_not_lt hlt)] at hn
  cases hn

theorem Core.length_le {m : pool_mgr_t} {v : List Seg} {gl : List gap_t} (h : Core m v gl) :
    v.length ≤ MEM_NODE_HEAP_INIT_CAPACITY := by
  have := nodup_length_le (v.map Seg.idx) MEM_NODE_HEAP_INIT_CAPACITY h.nodup (by
    intro x hx
    obtain ⟨s, hs, rfl⟩ := List.mem_map.1 hx
    exact h.idx_lt hs)
  simpa using this

theorem Inv.gl_length {m : pool_mgr_t} {live : List Nat} {v : List Seg} {gl : List gap_t}
    (h : Inv m live v gl) : gl.length = (frees v).length := h.perm.length_eq

theorem Inv.gl_lt {m : pool_mgr_t} {live : List Nat} {v : List Seg} {gl : List gap_t}
    (h : Inv m live v gl) : gl.length < MEM_GAP_IX_INIT_CAPACITY := by
  rw [h.gl_length]
  have h1 := h.core.length_le
  have h2 := frees_length_le v
  simp only [MEM_NODE_HEAP_INIT_CAPACITY, MEM_GAP_IX_INIT_CAPACITY] at *
  by_cases h3 : 2 ≤ v.length
  · have := frees_length_lt_of_chain v h.no_adj h3
    omega
  · omega

theorem no_adj_split {pre post : List Seg} {x : Seg}
    (h : (pre ++ x :: post).Chain' fun a b => a.al = true ∨ b.al = true) (hx : x.al = false) :
    pre.Chain' (fun a b => a.al = true ∨ b.al = true) ∧
    post.Chain' (fun a b => a.al = true ∨ b.al = true) ∧
    (∀ z ∈ pre.getLast?, z.al = true) ∧ (∀ w ∈ post.head?, w.al = true) := by
  rw [List.chain'_append, List.chain'_cons'] at h
  obtain ⟨h1, ⟨h2, h3⟩, h4⟩ := h
  refine ⟨h1, h3, ?_, ?_⟩
  · intro z hz
    have := h4 z hz x (by simp)
    simpa [hx] using this
  · intro w hw
    have := h2 w hw
    simpa [hx] using this

theorem no_adj_join {pre post : List Seg} {y : Seg}
    (h1 : pre.Chain' fun a b => a.al = true ∨ b.al = true)
    (h2 : post.Chain' fun a b => a.al = true ∨ b.al = true)
    (h3 : y.al = true ∨ ∀ z ∈ pre.getLast?, z.al = true)
    (h4 : y.al = true ∨ ∀ w ∈ post.head?, w.al = true) :
    (pre ++ y :: post).Chain' fun a b => a.al = true ∨ b.al = true := by
  rw [List.chain'_append, List.chain'_cons']
  refine ⟨h1, ⟨?_, h2⟩, ?_⟩
  · intro w hw
    rcases h4 with h | h
    · exact Or.inl h
    · exact Or.inr (h w hw)
  · intro z hz w hw
    simp at hw; subst hw
    rcases h3 with h | h
    · exact Or.inr h
    · exact Or.inl (h z hz)

theorem hd_mid (pre post post1 : List Seg) (x y : Seg) (q : Option Nat) (h : x.idx = y.idx) :
    hd (pre ++ x :: post) q = hd (pre ++ y :: post1) q := by
  cases pre <;> simp [hd, h]

theorem hd_pre (pre post : List Seg) (x : Seg) :
    hd (pre ++ x :: post) none = hd pre (some x.idx) := by
  cases pre <;> simp [hd]

theorem pairwise_remove {l1 l2 : List gap_t} {e : gap_t}
    (h : (l1 ++ e :: l2).Pairwise gap_le) : (l1 ++ l2).Pairwise gap_le := by
  rw [List.pairwise_append] at h ⊢
  refine ⟨h.1, (List.pairwise_cons.1 h.2.1).2, ?_⟩
  intro a ha b hb
  exact h.2.2 a ha b (List.mem_cons_of_mem _ hb)

theorem commit_spec (m m1 : pool_mgr_t) (live : List Nat) (pre post : List Seg)
    (gl : List gap_t) (a g size : Nat) (r : Option Nat)
    (hinv : Inv m live (pre ++ ⟨a, g, false⟩ :: post) gl)
    (hsz : size ≤ g) (htot : size < m.pool.total_size)
    (hc : commit_alloc m a size = some (m1, r)) :
    r = some a ∧ ∃ tl gl1,
      ((tl = [] ∧ g = size) ∨ ∃ nw, tl = [⟨nw, g - size, false⟩] ∧ size < g) ∧
      Inv m1 (a :: live) (pre ++ ⟨a, size, true⟩ :: (tl ++ post)) gl1 ∧
      m1.pool.policy = m.pool.policy ∧ m1.pool.total_size = m.pool.total_size ∧
      m1.total_nodes = m.total_nodes := by
  have hlen := hinv.gl_lt
  obtain ⟨hcore, hperm, hadj, hna, has, hlive, hlnd, hpos⟩ := hinv
  have hnd := hcore.nodup
  obtain ⟨hpre_ne, hpost_ne, hpp, hndpre, hndpost⟩ := nodup_mid hnd
  have hlk := (Linked_append _ _ _ _ _ _).1 hcore.linked
  have hA := hlk.2.1
  have hg : 0 < g := by
    rcases hpos with hpos | hpos
    · exact hpos ⟨a, g, false⟩ (by simp) rfl
    · omega
  have hpos1 : ∀ s ∈ pre ++ ⟨a, g, false⟩ :: post, s.al = false → 0 < s.size := by
    rcases hpos with hpos | hpos
    · exact hpos
    · omega
  obtain ⟨l1, l2, hgl, hl1, hl2, hperm2⟩ := perm_split hperm rfl hnd
  obtain ⟨k, hk⟩ := hcore.gaps
  subst hgl
  obtain ⟨m2, hrem, hgo, hgi2, hng2⟩ := remove_spec
    { m with pool := { m.pool with num_allocs := m.pool.num_allocs + 1
                                   alloc_size := m.pool.alloc_size + size } }
    l1 l2 (Seg.gap ⟨a, g, false⟩) a g k hk hlen hcore.num_gaps hcore.gap_cap rfl hl1 (by omega)
  obtain ⟨hadj1, hadj2, hadj3, hadj4⟩ := no_adj_split hadj rfl
  have halive : a ∉ live := by
    intro hin
    obtain ⟨s, hs, hsi, hsa⟩ := (hlive a).1 hin
    rcases List.mem_append.1 hs with h | h
    · exact hpre_ne s h hsi
    · rcases List.mem_cons.1 h with h | h
      · subst h; cases hsa
      · exact hpost_ne s h hsi
  have ha_lt := rd_lt hA
  have hsorted := pairwise_remove hcore.sorted
  unfold commit_alloc at hc
  simp only [hA, Option.bind_eq_bind, Option.some_bind, Seg.node, hrem, hgo.node_heap] at hc
  by_cases hgs : g = size
  · subst hgs
    have h0 : ¬ 0 < sub_size_t g g := by simp [sub_size_t]
    rw [if_neg h0] at hc
    simp only [Option.some.injEq, Prod.mk.injEq] at hc
    obtain ⟨hm1, hr⟩ := hc
    subst hm1
    refine ⟨hr.symm, [], l1 ++ l2, Or.inl ⟨rfl, rfl⟩, ?_, hgo.policy, hgo.total_size,
      hgo.total_nodes⟩
    have hrd : ∀ j, j ≠ a → rd (m.node_heap.set a (some
        { alloc_record := { mem := some (0 + (List.map Seg.size pre).sum), size := g },
          used := 1, allocated := 1, next := hd post none, prev := lastIdx pre none })) j =
        rd m.node_heap j := fun j hj => rd_set_ne _ hj
    refine ⟨⟨?_, ?_, ?_, ?_, ?_, ?_, ?_, ?_, ?_, ?_, ?_, ?_⟩, ?_, ?_, ?_, ?_, ?_, ?_, ?_⟩
    · -- linked
      rw [Linked_append]
      refine ⟨?_, ?_, ?_⟩
      · exact (Linked_congr (fun s hs => hrd _ (hpre_ne s hs)) _ _ _).2 hlk.1
      · exact rd_set_self _ ha_lt
      · exact (Linked_congr (fun s hs => hrd _ (hpost_ne s hs)) _ _ _).2 hlk.2.2
    · rw [← hcore.head]; exact hd_mid _ _ _ _ _ _ rfl
    · simpa using hnd
    · intro i hi
      have hia : i ≠ a := by
        have := hcore.idx_lt (s := ⟨a, g, false⟩) (by simp)
        intro h; subst h; simp only at this; omega
      show rd (m.node_heap.set a _) i = none
      rw [rd_set_ne _ hia]; exact hcore.beyond i hi
    · intro i hi hni
      have hia : i ≠ a := by
        intro h; apply hni; subst h; simp
      show ∃ u, rd (m.node_heap.set a _) i = some u ∧ _
      rw [rd_set_ne _ hia]
      exact hcore.unused i hi (by simpa using hni)
    · rw [hgo.total_size]; simpa using hcore.total
    · show m2.used_nodes = _
      rw [hgo.used_nodes]; simpa using hcore.used_nodes
    · show (m.node_heap.set a _).length = m2.total_nodes
      rw [hgo.total_nodes]; simpa using hcore.heap_len
    · exact ⟨k, hgi2⟩
    · exact hgo.gap_cap
    · exact hng2
    · exact hsorted
    · -- perm
      rw [frees_append, frees_cons_alloc _ _ rfl]
      simpa using hperm2
    · exact no_adj_join hadj1 hadj2 (Or.inl rfl) (Or.inl rfl)
    · show m2.pool.num_allocs = _
      rw [hgo.num_allocs]
      simp only [allocs_append, allocs_cons_free ⟨a, g, false⟩ post rfl,
        allocs_cons_alloc ⟨a, g, true⟩ post rfl, List.nil_append] at hna ⊢
      simp only [hna, List.length_append, List.length_cons]; omega
    · show m2.pool.alloc_size = _
      rw [hgo.alloc_size]
      simp only [allocs_append, allocs_cons_free ⟨a, g, false⟩ post rfl,
        allocs_cons_alloc ⟨a, g, true⟩ post rfl, List.nil_append] at has ⊢
      simp only [has, List.map_append, List.map_cons, List.sum_append, List.sum_cons]; omega
    · intro h
      simp only [List.mem_cons, hlive, List.mem_append, List.nil_append]
      constructor
      · rintro (rfl | ⟨s, hs, hsi, hsa⟩)
        · exact ⟨⟨h, g, true⟩, Or.inr (Or.inl rfl), rfl, rfl⟩
        · rcases hs with hs | hs | hs
          · exact ⟨s, Or.inl hs, hsi, hsa⟩
          · subst hs; cases hsa
          · exact ⟨s, Or.inr (Or.inr hs), hsi, hsa⟩
      · rintro ⟨s, hs | hs | hs, hsi, hsa⟩
        · exact Or.inr ⟨s, Or.inl hs, hsi, hsa⟩
        · subst hs; exact Or.inl hsi.symm
        · exact Or.inr ⟨s, Or.inr (Or.inr hs), hsi, hsa⟩
    · exact List.nodup_cons.2 ⟨halive, hlnd⟩
    · left
      intro s hs hsa
      simp only [List.nil_append, List.mem_append, List.mem_cons] at hs
      rcases hs with hs | hs | hs
      · exact hpos1 s (by simp [hs]) hsa
      · subst hs; cases hsa
      · exact hpos1 s (by simp [hs]) hsa
  · have hlt : size < g := by omega
    have h0 : 0 < sub_size_t g size := by rw [sub_size_t_of_le hsz]; omega
    rw [if_pos h0] at hc
    have hptr0 : m.node_heap.length - m2.total_nodes = 0 := by
      rw [hgo.total_nodes]
      have := hcore.heap_len
      simp only at this ⊢
      omega
    simp only [node_heap_ptr, List.length_set, hptr0] at hc
    cases hfu : find_unused (m.node_heap.set a (some
        { alloc_record := { mem := some (0 + (List.map Seg.size pre).sum), size := size },
          used := 1, allocated := 1, next := hd post none, prev := lastIdx pre none }))
        m2.total_nodes 0 with
    | none => rw [hfu] at hc; cases hc
    | some nw =>
      rw [hfu] at hc
      simp only [Option.some_bind] at hc
      obtain ⟨u, hu, hu0⟩ := find_unused_spec _ _ _ _ hfu
      have hH1a := rd_set_self (a := m.node_heap) (i := a)
        ({ alloc_record := { mem := some (0 + (List.map Seg.size pre).sum), size := size },
           used := 1, allocated := 1, next := hd post none, prev := lastIdx pre none } : node_t)
        ha_lt
      have hnwa : nw ≠ a := by
        intro h; subst h
        rw [hH1a] at hu
        cases hu
        cases hu0
      have hanw : a ≠ nw := fun h => hnwa h.symm
      rw [rd_set_ne _ hnwa] at hu
      have hnwv : ∀ s ∈ pre ++ ⟨a, g, false⟩ :: post, s.idx ≠ nw := by
        intro s hs h
        obtain ⟨n, hn, hn1, -⟩ := Linked_mem hcore.linked hs
        rw [h, hu] at hn
        cases hn
        omega
      have hnw40 : nw < MEM_NODE_HEAP_INIT_CAPACITY := by
        by_contra hge
        rw [hcore.beyond _ (Nat.le_of_not_lt hge)] at hu
        cases hu
      obtain ⟨u1, hu1, -, hual, hunext, huprev⟩ := hcore.unused nw hnw40 (by
        intro hin
        obtain ⟨s, hs, hsi⟩ := List.mem_map.1 hin
        exact hnwv s hs hsi)
      rw [hu] at hu1
      cases hu1
      have hT : ∀ t, hd post none = some t → t ≠ a ∧ t ≠ nw ∧
          ∃ T0, rd (m.node_heap.set a (some
            ({ alloc_record := { mem := some (0 + (List.map Seg.size pre).sum), size := size },
               used := 1, allocated := 1, next := hd post none,
               prev := lastIdx pre none } : node_t))) t = some T0 := by
        intro t ht
        cases post with
        | nil => cases ht
        | cons t0 post1 =>
          simp only [hd, Option.some.injEq] at ht
          subst ht
          have h1 : t0.idx ≠ a := hpost_ne t0 (List.mem_cons_self _ _)
          refine ⟨h1, hnwv t0 (by simp), ?_⟩
          rw [rd_set_ne _ h1]
          exact ⟨_, hlk.2.2.1⟩
      obtain ⟨H, hsplit, hHlen, hHa, hHnw, hHt, hHo⟩ := split_gap_heap
        { pool := m2.pool
          node_heap := m.node_heap.set a (some
            { alloc_record := { mem := some (0 + (List.map Seg.size pre).sum), size := size },
              used := 1, allocated := 1, next := hd post none, prev := lastIdx pre none })
          total_nodes := m2.total_nodes, used_nodes := m2.used_nodes, gap_ix := m2.gap_ix
          gap_ix_capacity := m2.gap_ix_capacity }
        a nw g size _ u hH1a (by show rd (m.node_heap.set a _) nw = some u
                                 rw [rd_set_ne _ hnwa]; exact hu) hanw hT
      rw [hsplit] at hc
      simp only [sub_size_t_of_le hsz] at hc hHnw
      obtain ⟨m3, B1, B2, k1, hadd, hgo3, hB, hgi3, hng3, hsorted3⟩ := add_spec
        { pool := m2.pool, node_heap := H, total_nodes := m2.total_nodes
          used_nodes := m2.used_nodes + 1, gap_ix := m2.gap_ix
          gap_ix_capacity := m2.gap_ix_capacity }
        (l1 ++ l2) (g - size) nw k _ hgi2
        (by simp only [List.length_append, List.length_cons] at hlen ⊢; omega)
        hng2 hgo.gap_cap hsorted hHnw rfl (by omega)
      rw [hadd] at hc
      simp only [Option.some_bind, Option.some.injEq, Prod.mk.injEq] at hc
      obtain ⟨hm1, hr⟩ := hc
      subst hm1
      refine ⟨hr.symm, [⟨nw, g - size, false⟩], B1 ++ ⟨g - size, some nw⟩ :: B2,
        Or.inr ⟨nw, rfl, hlt⟩, ?_, ?_, ?_, ?_⟩
      · have hHo1 : ∀ j, j ≠ a → j ≠ nw → hd post none ≠ some j →
            rd H j = rd m.node_heap j := by
          intro j h1 h2 h3
          rw [hHo j h1 h2 h3]
          exact rd_set_ne _ h1
        have hhd_pre : ∀ s ∈ pre, hd post none ≠ some s.idx := by
          intro s hs h
          cases post with
          | nil => cases h
          | cons t0 post1 =>
            simp only [hd, Option.some.injEq] at h
            exact hpp s hs t0 (List.mem_cons_self _ _) h.symm
        have hheap3 : m3.node_heap = H := hgo3.node_heap
        refine ⟨⟨?_, ?_, ?_, ?_, ?_, ?_, ?_, ?_, ?_, ?_, ?_, ?_⟩, ?_, ?_, ?_, ?_, ?_, ?_, ?_⟩
        · -- linked
          rw [hheap3, Linked_append]
          refine ⟨?_, ?_, ?_, ?_⟩
          · exact (Linked_congr (fun s hs => hHo1 _ (hpre_ne s hs) (hnwv s (by simp [hs]))
              (hhd_pre s hs)) _ _ _).2 hlk.1
          · exact hHa
          · rw [hHnw]
            cases post <;> simp [Seg.node, hd, hunext]
          · cases post with
            | nil => trivial
            | cons t0 post1 =>
              have hoff : 0 + (List.map Seg.size pre).sum + size + (g - size) =
                  0 + (List.map Seg.size pre).sum + g := by omega
              refine ⟨?_, ?_⟩
              · have := hHt t0.idx _ rfl (by
                  rw [rd_set_ne _ (hpost_ne t0 (List.mem_cons_self _ _))]; exact hlk.2.2.1)
                rw [this]
                simp only [Seg.node, hoff]
              · have hnd1 := List.nodup_cons.1 hndpost
                refine (Linked_congr (fun s hs => hHo1 _
                  (hpost_ne s (List.mem_cons_of_mem _ hs)) (hnwv s (by simp [hs])) ?_) _ _ _).2 ?_
                · intro h
                  simp only [hd, Option.some.injEq] at h
                  exact hnd1.1 (by rw [h]; exact List.mem_map_of_mem _ hs)
                · have := hlk.2.2.2
                  simp only [hoff]
                  exact this
        · rw [← hcore.head]; exact hd_mid _ _ _ _ _ _ rfl
        · have h1 : nw ∉ (pre ++ ⟨a, g, false⟩ :: post).map Seg.idx := by
            intro hin
            obtain ⟨s, hs, hsi⟩ := List.mem_map.1 hin
            exact hnwv s hs hsi
          simp only [List.map_append, List.map_cons, List.singleton_append,
            List.nodup_append, List.nodup_cons, List.mem_append, List.mem_cons,
            List.mem_map, not_or] at hnd h1 ⊢
          refine ⟨hnd.1, ⟨⟨?_, hnd.2.1.1⟩, ⟨h1.2.2, hnd.2.1.2⟩⟩, ?_⟩
          · intro h; exact hnwa h.symm
          · intro x hx1 hx2
            simp only [List.mem_cons] at hx2
            rcases hx2 with h | h | h
            · exact hnd.2.2 hx1 (by simp [h])
            · apply h1.1; subst h; exact List.mem_map.1 hx1
            · exact hnd.2.2 hx1 (by simp [h])
        · intro i hi
          rw [hheap3]
          have hia : i ≠ a := by
            have := hcore.idx_lt (s := ⟨a, g, false⟩) (by simp)
            intro h; subst h; simp only at this; omega
          have hin : i ≠ nw := by intro h; subst h; omega
          rw [hHo1 i hia hin]
          · exact hcore.beyond i hi
          · intro h
            cases post with
            | nil => cases h
            | cons t0 post1 =>
              simp only [hd, Option.some.injEq] at h
              have := hcore.idx_lt (s := t0) (by simp)
              omega
        · intro i hi hni
          rw [hheap3]
          simp only [List.map_append, List.map_cons, List.singleton_append, List.mem_append,
            List.mem_cons, List.mem_map, not_or] at hni
          rw [hHo1 i hni.2.1 hni.2.2.1]
          · apply hcore.unused i hi
            simp only [List.map_append, List.map_cons, List.mem_append, List.mem_cons,
              List.mem_map, not_or]
            exact ⟨hni.1, hni.2.1, hni.2.2.2⟩
          · intro h
            cases post with
            | nil => cases h
            | cons t0 post1 =>
              simp only [hd, Option.some.injEq] at h
              exact hni.2.2.2 ⟨t0, List.mem_cons_self _ _, h⟩
        · rw [hgo3.total_size, hgo.total_size]
          have := hcore.total
          simp only [List.map_append, List.map_cons, List.sum_append, List.sum_cons,
            List.singleton_append] at this ⊢
          rw [← this]; omega
        · rw [hgo3.used_nodes]
          show m2.used_nodes + 1 = _
          rw [hgo.used_nodes]
          have := hcore.used_nodes
          simp only [List.length_append, List.length_cons, List.singleton_append] at this ⊢
          omega
        · rw [hheap3, hHlen, hgo3.total_nodes]
          show (m.node_heap.set a _).length = m2.total_nodes
          rw [hgo.total_nodes]; simpa using hcore.heap_len
        · exact ⟨k1, hgi3⟩
        · exact hgo3.gap_cap
        · rw [hng3, hB]; simp only [List.length_append, List.length_cons]; omega
        · exact hsorted3
        · -- perm
          rw [frees_append, frees_cons_alloc ⟨a, size, true⟩ _ rfl, frees_append,
            frees_cons_free ⟨nw, g - size, false⟩ [] rfl]
          simp only [frees_nil, List.singleton_append]
          refine List.perm_middle.trans ?_
          refine List.Perm.trans ?_ List.perm_middle.symm
          rw [← hB]
          exact List.Perm.cons _ hperm2
        · refine no_adj_join hadj1 ?_ (Or.inl rfl) (Or.inl rfl)
          rw [List.singleton_append, List.chain'_cons']
          exact ⟨fun w hw => Or.inr (hadj4 w hw), hadj2⟩
        · rw [hgo3.num_allocs]
          show m2.pool.num_allocs = _
          rw [hgo.num_allocs]
          simp only [allocs_append, allocs_cons_free ⟨a, g, false⟩ post rfl,
            allocs_cons_alloc ⟨a, size, true⟩ _ rfl,
            allocs_cons_free ⟨nw, g - size, false⟩ [] rfl, allocs_nil,
            List.nil_append] at hna ⊢
          simp only [hna, List.length_append, List.length_cons]; omega
        · rw [hgo3.alloc_size]
          show m2.pool.alloc_size = _
          rw [hgo.alloc_size]
          simp only [allocs_append, allocs_cons_free ⟨a, g, false⟩ post rfl,
            allocs_cons_alloc ⟨a, size, true⟩ _ rfl,
            allocs_cons_free ⟨nw, g - size, false⟩ [] rfl, allocs_nil,
            List.nil_append] at has ⊢
          simp only [has, List.map_append, List.map_cons, List.sum_append, List.sum_cons]; omega
        · intro h
          simp only [List.mem_cons, hlive, List.mem_append, List.singleton_append]
          constructor
          · rintro (rfl | ⟨s, hs, hsi, hsa⟩)
            · exact ⟨⟨h, size, true⟩, Or.inr (Or.inl rfl), rfl, rfl⟩
            · rcases hs with hs | hs | hs
              · exact ⟨s, Or.inl hs, hsi, hsa⟩
              · subst hs; cases hsa
              · exact ⟨s, Or.inr (Or.inr (Or.inr hs)), hsi, hsa⟩
          · rintro ⟨s, hs | hs | hs | hs, hsi, hsa⟩
            · exact Or.inr ⟨s, Or.inl hs, hsi, hsa⟩
            · subst hs; exact Or.inl hsi.symm
            · subst hs; cases hsa
            · exact Or.inr ⟨s, Or.inr (Or.inr hs), hsi, hsa⟩
        · exact List.nodup_cons.2 ⟨halive, hlnd⟩
        · left
          intro s hs hsa
          simp only [List.singleton_append, List.mem_append, List.mem_cons] at hs
          rcases hs with hs | hs | hs | hs
          · exact hpos1 s (by simp [hs]) hsa
          · subst hs; cases hsa
          · subst hs; show 0 < g - size; omega
          · exact hpos1 s (by simp [hs]) hsa
      · rw [hgo3.policy]; exact hgo.policy
      · rw [hgo3.total_size]; exact hgo.total_size
      · rw [hgo3.total_nodes]; exact hgo.total_nodes

/-! ## The choice of the node -/

theorem scan_nones (m : pool_mgr_t) (size : Nat) (g : gap_t) (P : List (Option gap_t))
    (k0 k : Nat) (hgi : m.gap_ix = P ++ List.replicate k0 none) :
    scan_gap_ix m size k P.length ≠ some (some g) := by
  cases k with
  | zero => simp [scan_gap_ix]
  | succ k =>
    rw [scan_gap_ix]
    have : rd m.gap_ix P.length = none := by
      rw [hgi]
      cases k0 with
      | zero => simp [rd]
      | succ k0 => rw [List.replicate_succ, rd_at]
    simp [this]

theorem scan_zeros (m : pool_mgr_t) (size : Nat) (g : gap_t) (hs : 0 < size) (j : Nat)
    (P : List (Option gap_t)) (k0 k : Nat)
    (hgi : m.gap_ix = P ++ (List.replicate j (some ⟨0, none⟩) ++ List.replicate k0 none)) :
    scan_gap_ix m size k P.length ≠ some (some g) := by
  induction j generalizing P k with
  | zero => exact scan_nones m size g P k0 k (by simpa using hgi)
  | succ j ih =>
    cases k with
    | zero => simp [scan_gap_ix]
    | succ k =>
      rw [scan_gap_ix]
      have h1 : rd m.gap_ix P.length = some ⟨0, none⟩ := by
        rw [hgi, List.replicate_succ, List.cons_append, rd_at]
      have h2 := ih (P ++ [some ⟨0, none⟩]) k (by rw [hgi, List.replicate_succ]; simp)
      simp only [List.length_append, List.length_singleton] at h2
      simp only [h1, Option.bind_eq_bind, Option.some_bind]
      have h3 : ¬ size ≤ 0 := by omega
      simp only [h3, if_false]
      exact h2

theorem scan_list (m : pool_mgr_t) (size : Nat) (g : gap_t) (L : List gap_t)
    (P : List (Option gap_t)) (j k0 k : Nat)
    (hgi : m.gap_ix = P ++ (L.map some ++
      (List.replicate j (some ⟨0, none⟩) ++ List.replicate k0 none)))
    (hz : 0 < size ∨ L ≠ [])
    (h : scan_gap_ix m size k P.length = some (some g)) :
    ∃ l1 l2, L = l1 ++ g :: l2 ∧ (∀ x ∈ l1, x.size < size) ∧ size ≤ g.size := by
  induction L generalizing P k with
  | nil =>
    have hs : 0 < size := by
      rcases hz with h | h
      · exact h
      · exact absurd rfl h
    exact absurd h (scan_zeros m size g hs j P k0 k (by simpa using hgi))
  | cons x L ih =>
    cases k with
    | zero => simp [scan_gap_ix] at h
    | succ k =>
      rw [scan_gap_ix] at h
      have h1 : rd m.gap_ix P.length = some x := by
        rw [hgi, List.map_cons, List.cons_append, rd_at]
      simp only [h1, Option.bind_eq_bind, Option.some_bind] at h
      rw [Option.bind_eq_some] at h
      obtain ⟨_, -, h⟩ := h
      by_cases hx : size ≤ x.size
      · simp only [hx, if_true, Option.some.injEq] at h
        subst h
        exact ⟨[], L, rfl, by simp, hx⟩
      · simp only [hx, if_false] at h
        have h2 := ih (P ++ [some x]) k (by rw [hgi]; simp) (Or.inl (by omega))
          (by simpa using h)
        obtain ⟨l1, l2, hL, hl1, hg⟩ := h2
        refine ⟨x :: l1, l2, by simp [hL], ?_, hg⟩
        intro y hy
        rcases List.mem_cons.1 hy with rfl | hy
        · omega
        · exact hl1 y hy

theorem scan_spec (m : pool_mgr_t) (size cap : Nat) (g : gap_t) (gl : List gap_t) (k0 : Nat)
    (hgi : m.gap_ix = gap_cells gl k0) (hne : gl ≠ [])
    (h : scan_gap_ix m size cap 0 = some (some g)) :
    ∃ l1 l2, gl = l1 ++ g :: l2 ∧ (∀ x ∈ l1, x.size < size) ∧ size ≤ g.size :=
  scan_list m size g gl [] (MEM_GAP_IX_INIT_CAPACITY - gl.length) k0 cap
    (by rw [hgi]; simp [gap_cells]) (Or.inr hne) h


theorem length_realloc {α : Type} (a : List (Option α)) (n : Nat) (h : a.length ≤ n) :
    (realloc_cells a n).length = n := by
  unfold realloc_cells
  rw [List.take_of_length_le h]
  simp only [List.length_append, List.length_replicate]
  omega

theorem resize_noop (m : pool_mgr_t)
    (hf : fill_exceeded m.used_nodes m.total_nodes = false) : _mem_resize_node_heap m = m := by
  unfold _mem_resize_node_heap
  simp [hf]

theorem resize_inv {m : pool_mgr_t} {live : List Nat} {v : List Seg} {gl : List gap_t}
    (h : Inv m live v gl) (hf : fill_exceeded m.used_nodes m.total_nodes = false) :
    Inv (_mem_resize_node_heap m) live v gl := by
  rw [resize_noop m hf]; exact h

theorem rd_released {α : Type} (n : Nat) (b : List (Option α)) (i : Nat) (h : i < n) :
    rd (List.replicate n none ++ b) i = none := by
  rw [rd_append_left _ _ _ (by simpa using h)]
  unfold rd
  simp [List.getElem?_replicate, h]

theorem resize_pool (m : pool_mgr_t) : (_mem_resize_node_heap m).pool = m.pool := by
  unfold _mem_resize_node_heap; split <;> rfl

theorem resize_gap_ix (m : pool_mgr_t) : (_mem_resize_node_heap m).gap_ix = m.gap_ix := by
  unfold _mem_resize_node_heap; split <;> rfl

theorem Inv.head_cons {m : pool_mgr_t} {live : List Nat} {v : List Seg} {gl : List gap_t}
    (h : Inv m live v gl) : ∃ s r, v = s :: r ∧ s.idx = 0 := by
  have := h.core.head
  cases v with
  | nil => cases this
  | cons s r =>
    simp only [hd, Option.some.injEq] at this
    exact ⟨s, r, rfl, this⟩

/-- An allocation that grows the node heap of a pool of the invariant gets
past the admission check and then reads the node of the first gap-index entry,
a node of the released block: the call does not return. -/
theorem growth_faults {m : pool_mgr_t} {live : List Nat} {v : List Seg} {gl : List gap_t}
    (hinv : Inv m live v gl) (size : Nat)
    (hf : fill_exceeded m.used_nodes m.total_nodes = true) (h1 : m.pool.num_gaps ≠ 0)
    (h2 : ¬ (m.pool.total_size ≤ size ∨
      sub_size_t m.pool.total_size m.pool.alloc_size ≤ size)) :
    mem_new_alloc m size = none := by
  have hcore := hinv.core
  obtain ⟨k, hk⟩ := hcore.gaps
  have hne : gl ≠ [] := by
    intro h0
    have := hcore.num_gaps
    rw [h0] at this
    exact h1 this
  obtain ⟨e, rest, hgl⟩ := List.exists_cons_of_ne_nil hne
  have hemem : e ∈ frees v := hinv.perm.mem_iff.1 (by rw [hgl]; simp)
  obtain ⟨s, hsv, -, hse⟩ := mem_frees.1 hemem
  obtain ⟨n, hn, -⟩ := Linked_mem hcore.linked hsv
  have hidx : s.idx < m.node_heap.length := rd_lt hn
  have hscan : ∀ c, scan_gap_ix (_mem_resize_node_heap m) size (c + 1) 0 = none := by
    intro c
    have hg0 : rd (_mem_resize_node_heap m).gap_ix 0 = some e := by
      rw [resize_gap_ix, hk, hgl]
      simp [gap_cells, rd_cons_zero]
    have hnode : rd (_mem_resize_node_heap m).node_heap s.idx = none := by
      simp only [_mem_resize_node_heap, hf, if_true]
      exact rd_released _ _ _ hidx
    simp only [scan_gap_ix, hg0, Option.bind_eq_bind, Option.some_bind, ← hse, Seg.gap, hnode,
      Option.none_bind]
  obtain ⟨c, hc⟩ : ∃ c, (_mem_resize_node_heap m).gap_ix_capacity = c + 1 := by
    have h3 : (_mem_resize_node_heap m).gap_ix_capacity = m.gap_ix_capacity := by
      unfold _mem_resize_node_heap; split <;> rfl
    have h4 := hcore.gap_cap
    rw [hk, hgl] at h4
    simp only [gap_cells, List.map_cons, List.cons_append, List.length_cons] at h4
    exact ⟨_, by rw [h3, ← h4]⟩
  unfold mem_new_alloc
  rw [if_neg h1, if_neg h2]
  simp only
  split
  · rfl
  · rw [hc, hscan c]
    cases (_mem_resize_node_heap m).pool.policy with
    | FIRST_FIT =>
      simp only [Option.bind_eq_bind]
      cases first_fit (_mem_resize_node_heap m).node_heap size
        (_mem_resize_node_heap m).node_heap.length (node_heap_ptr (_mem_resize_node_heap m)) <;>
        rfl
    | BEST_FIT => rfl

theorem alloc_spec (m m1 : pool_mgr_t) (live : List Nat) (v : List Seg) (gl : List gap_t)
    (size h : Nat) (hinv : Inv m live v gl)
    (ha : mem_new_alloc m size = some (m1, some h)) :
    ∃ pre g post tl gl1, v = pre ++ ⟨h, g, false⟩ :: post ∧ size ≤ g ∧
      size < m.pool.total_size ∧
      (m.pool.policy = alloc_policy.FIRST_FIT → ∀ t ∈ pre, ¬ (t.al = false ∧ size ≤ t.size)) ∧
      (m.pool.policy = alloc_policy.BEST_FIT →
        ∀ t ∈ v, t.al = false → size ≤ t.size → g ≤ t.size) ∧
      ((tl = [] ∧ g = size) ∨ ∃ nw, tl = [⟨nw, g - size, false⟩] ∧ size < g) ∧
      Inv m1 (h :: live) (pre ++ ⟨h, size, true⟩ :: (tl ++ post)) gl1 ∧
      m1.pool.policy = m.pool.policy ∧ m1.pool.total_size = m.pool.total_size := by
  have ha0 := ha
  unfold mem_new_alloc at ha
  by_cases h1 : m.pool.num_gaps = 0
  · simp [h1] at ha
  rw [if_neg h1] at ha
  by_cases h2 : m.pool.total_size ≤ size ∨
      sub_size_t m.pool.total_size m.pool.alloc_size ≤ size
  · simp [h2] at ha
  rw [if_neg h2] at ha
  have htot : size < m.pool.total_size := by
    by_contra hc; exact h2 (Or.inl (by omega))
  have hf : fill_exceeded m.used_nodes m.total_nodes = false := by
    cases hfe : fill_exceeded m.used_nodes m.total_nodes with
    | false => rfl
    | true =>
      rw [growth_faults hinv size hfe h1 h2] at ha0
      cases ha0
  have hinv1 := resize_inv hinv hf
  have hpool := resize_pool m
  simp only at ha
  by_cases h3 : (_mem_resize_node_heap m).total_nodes < (_mem_resize_node_heap m).used_nodes
  · simp [h3] at ha
  rw [if_neg h3] at ha
  simp only [Option.bind_eq_bind] at ha
  rw [Option.bind_eq_some] at ha
  obtain ⟨a, hsel, ha⟩ := ha
  rw [Option.bind_eq_some] at ha
  obtain ⟨chk, hchk, ha⟩ := ha
  cases chk with
  | none => simp at ha
  | some g0 =>
    simp only at ha
    obtain ⟨k0, hk0⟩ := hinv1.core.gaps
    have hne : gl ≠ [] := by
      intro h0
      have := hinv.core.num_gaps
      rw [h0] at this
      exact h1 this
    obtain ⟨l1, l2, hgl, hl1, hg0⟩ := scan_spec _ size _ g0 gl k0 hk0 hne hchk
    have hg0mem : g0 ∈ frees v := hinv.perm.mem_iff.1 (by rw [hgl]; simp)
    obtain ⟨s0, hs0v, hs0al, hs0g⟩ := mem_frees.1 hg0mem
    have key : ∃ pre g post, v = pre ++ ⟨a, g, false⟩ :: post ∧ size ≤ g ∧
        (m.pool.policy = alloc_policy.FIRST_FIT →
          ∀ t ∈ pre, ¬ (t.al = false ∧ size ≤ t.size)) ∧
        (m.pool.policy = alloc_policy.BEST_FIT →
          ∀ t ∈ v, t.al = false → size ≤ t.size → g ≤ t.size) := by
      rw [hpool, hinv1.core.heap_ptr] at hsel
      cases hpol : m.pool.policy with
      | FIRST_FIT =>
        rw [hpol] at hsel
        simp only at hsel
        obtain ⟨s, r, hv, hs0⟩ := hinv.head_cons
        have hl := hinv1.core.linked
        rw [hv] at hl
        rw [← hs0] at hsel
        obtain ⟨pre, x, post, hsplit, hx, hpre, hlast⟩ := first_fit_spec _ size s r none 0 _ a hl hsel
        have hxfit : x.al = false ∧ size ≤ x.size := by
          rcases hlast with hfit | hpost
          · exact hfit
          · subst hpost
            have hs0fit : s0.al = false ∧ size ≤ s0.size := by
              refine ⟨hs0al, ?_⟩
              rw [← hs0g] at hg0; exact hg0
            rw [hv, hsplit] at hs0v
            rcases List.mem_append.1 hs0v with hin | hin
            · exact absurd hs0fit (hpre s0 hin)
            · simp only [List.mem_singleton] at hin
              subst hin
              exact hs0fit
        refine ⟨pre, x.size, post, ?_, hxfit.2, fun _ => hpre, fun hc => absurd hc (by decide)⟩
        rw [hv, hsplit]
        obtain ⟨xi, xs, xa⟩ := x
        simp only at hx hxfit
        rw [hx, hxfit.1]
      | BEST_FIT =>
        rw [hpol] at hsel
        simp only [Option.bind_eq_bind] at hsel
        rw [hchk] at hsel
        simp only [Option.some_bind] at hsel
        rw [← hs0g] at hsel
        simp only [Seg.gap, Option.some.injEq] at hsel
        obtain ⟨pre, post, hv⟩ := List.append_of_mem hs0v
        refine ⟨pre, s0.size, post, ?_, ?_, fun hc => absurd hc (by decide), ?_⟩
        · rw [hv]
          obtain ⟨xi, xs, xa⟩ := s0
          simp only at hsel hs0al
          rw [hsel, hs0al]
        · rw [← hs0g] at hg0; exact hg0
        · intro _ t ht htal htsz
          have htg : t.gap ∈ gl := hinv.perm.mem_iff.2 (mem_frees.2 ⟨t, ht, htal, rfl⟩)
          rw [hgl] at htg
          have hsorted := hinv.core.sorted
          rw [hgl, List.pairwise_append, List.pairwise_cons] at hsorted
          rcases List.mem_append.1 htg with hin | hin
          · have := hl1 _ hin
            simp only [Seg.gap] at this
            omega
          · rcases List.mem_cons.1 hin with heq | hin
            · rw [← hs0g] at heq
              simp only [Seg.gap, gap_t.mk.injEq] at heq
              omega
            · have := hsorted.2.1.1 _ hin
              rw [← hs0g] at this
              unfold gap_le at this
              simp only [Seg.gap] at this
              omega
    obtain ⟨pre, g, post, hv, hsz, hff, hbf⟩ := key
    subst hv
    have htot1 : size < (_mem_resize_node_heap m).pool.total_size := by rw [hpool]; exact htot
    obtain ⟨hr, tl, gl1, htl, hinv2, hp1, hp2, -⟩ :=
      commit_spec _ m1 live pre post gl a g size (some h) hinv1 hsz htot1 ha
    simp only [Option.some.injEq] at hr
    subst hr
    rw [hpool] at hp1 hp2
    exact ⟨pre, g, post, tl, gl1, rfl, hsz, htot, hff, hbf, htl, hinv2, hp1, hp2⟩

theorem alloc_null_spec (m m1 : pool_mgr_t) (live : List Nat) (v : List Seg) (gl : List gap_t)
    (size : Nat) (hinv : Inv m live v gl)
    (ha : mem_new_alloc m size = some (m1, none)) :
    Inv m1 live v gl ∧ m1.pool = m.pool ∧ m1 = m := by
  have ha0 := ha
  unfold mem_new_alloc at ha
  by_cases h1 : m.pool.num_gaps = 0
  · simp only [h1, if_true, Option.some.injEq, Prod.mk.injEq, and_true] at ha
    subst ha; exact ⟨hinv, rfl, rfl⟩
  rw [if_neg h1] at ha
  by_cases h2 : m.pool.total_size ≤ size ∨
      sub_size_t m.pool.total_size m.pool.alloc_size ≤ size
  · simp only [h2, if_true, Option.some.injEq, Prod.mk.injEq, and_true] at ha
    subst ha; exact ⟨hinv, rfl, rfl⟩
  rw [if_neg h2] at ha
  have hf : fill_exceeded m.used_nodes m.total_nodes = false := by
    cases hfe : fill_exceeded m.used_nodes m.total_nodes with
    | false => rfl
    | true =>
      rw [growth_faults hinv size hfe h1 h2] at ha0
      cases ha0
  have htot : size < m.pool.total_size := by
    by_contra hc; exact h2 (Or.inl (by omega))
  simp only at ha
  by_cases h3 : (_mem_resize_node_heap m).total_nodes < (_mem_resize_node_heap m).used_nodes
  · simp [h3] at ha
  rw [if_neg h3] at ha
  simp only [Option.bind_eq_bind] at ha
  rw [Option.bind_eq_some] at ha
  obtain ⟨a, hsel, ha⟩ := ha
  rw [Option.bind_eq_some] at ha
  obtain ⟨chk, hchk, ha⟩ := ha
  cases chk with
  | none =>
    simp only [Option.some.injEq, Prod.mk.injEq, and_true] at ha
    subst ha
    exact ⟨resize_inv hinv hf, resize_pool m, resize_noop m hf⟩
  | some g0 =>
    exfalso
    simp only at ha
    -- the commit always returns the node
    unfold commit_alloc at ha
    simp only [Option.bind_eq_bind] at ha
    rw [Option.bind_eq_some] at ha
    obtain ⟨n, -, ha⟩ := ha
    rw [Option.bind_eq_some] at ha
    obtain ⟨m2, -, ha⟩ := ha
    rw [Option.bind_eq_some] at ha
    obtain ⟨n2, -, ha⟩ := ha
    split at ha
    · rw [Option.bind_eq_some] at ha
      obtain ⟨nw, -, ha⟩ := ha
      rw [Option.bind_eq_some] at ha
      obtain ⟨m3, -, ha⟩ := ha
      simp at ha
    · simp at ha

/-! ## Deallocation: the heap updates -/

theorem merge_next_heap (m : pool_mgr_t) (x t : Nat) (X T : node_t)
    (hX : rd m.node_heap x = some X) (hT : rd m.node_heap t = some T) (hxt : x ≠ t)
    (hTu : T.used ≠ 0)
    (hU : ∀ u, T.next = some u → u ≠ x ∧ u ≠ t ∧ ∃ U, rd m.node_heap u = some U) :
    ∃ H1, ∀ m2,
      _mem_remove_from_gap_ix
        { m with node_heap := H1, used_nodes := dec_unsigned m.used_nodes }
        T.alloc_record.size t = some m2 →
      m2.node_heap = H1 →
      ∃ H2, merge_next m x t = some { m2 with node_heap := H2 } ∧
        H2.length = m.node_heap.length ∧
        rd H2 x = some { X with next := T.next,
                                alloc_record := { X.alloc_record with
                                  size := X.alloc_record.size + T.alloc_record.size } } ∧
        rd H2 t = some { T with used := 0, next := none, prev := none } ∧
        (∀ u U, T.next = some u → rd m.node_heap u = some U →
          rd H2 u = some { U with prev := some x }) ∧
        (∀ j, j ≠ x → j ≠ t → T.next ≠ some j → rd H2 j = rd m.node_heap j) := by
  have hx := rd_lt hX
  have ht := rd_lt hT
  have htx : t ≠ x := fun h => hxt h.symm
  cases hnx : T.next with
  | none =>
    refine ⟨(((m.node_heap.set t (some { T with used := 0 })).set x
      (some { X with next := none })).set t
      (some { T with used := 0, next := none, prev := none })), ?_⟩
    intro m2 hrem hheap
    refine ⟨?H2, ?h2, ?_, ?_, ?_, ?_, ?_⟩
    case h2 =>
      unfold merge_next
      simp only [hX, hnx, hT, Option.bind_eq_bind, Option.some_bind, rd_set_self, rd_set_ne,
        List.length_set, hx, ht, hxt, htx, ne_eq, not_false_eq_true, hTu, if_true]
      rw [hnx] at hrem
      simp only [hrem, Option.some_bind, hheap, rd_set_self, rd_set_ne,
        List.length_set, hx, ht, hxt, htx, ne_eq, not_false_eq_true]
      exact rfl
    · simp
    · simp [rd_set_self, rd_set_ne, hx, ht, hxt, htx]
    · simp [rd_set_self, rd_set_ne, hx, ht, hxt, htx, hnx]
    · intro u U h; cases h
    · intro j h1 h2 _
      simp [rd_set_ne, h1, h2]
  | some u =>
    obtain ⟨hux, hut, U, hUr⟩ := hU u hnx
    have hu := rd_lt hUr
    have hxu : x ≠ u := fun h => hux h.symm
    have htu : t ≠ u := fun h => hut h.symm
    refine ⟨((((m.node_heap.set t (some { T with used := 0 })).set u
      (some { U with prev := some x })).set x
      (some { X with next := some u })).set t
      (some { T with used := 0, next := none, prev := none })), ?_⟩
    intro m2 hrem hheap
    refine ⟨?H3, ?h3, ?_, ?_, ?_, ?_, ?_⟩
    case h3 =>
      unfold merge_next
      simp only [hX, hnx, hT, hUr, Option.bind_eq_bind, Option.some_bind, rd_set_self,
        rd_set_ne, List.length_set, hx, ht, hu, hxt, htx, hux, hut, hxu, htu, ne_eq,
        not_false_eq_true, hTu, if_true]
      simp only [hnx] at hrem hheap
      simp only [hrem, Option.some_bind, hheap, rd_set_self, rd_set_ne,
        List.length_set, hx, ht, hu, hxt, htx, hux, hut, hxu, htu, ne_eq, not_false_eq_true]
      exact rfl
    · simp
    · simp [rd_set_self, rd_set_ne, hx, ht, hu, hxt, htx, hux, hut, hxu, htu]
    · simp [rd_set_self, rd_set_ne, hx, ht, hu, hxt, htx, hux, hut, hxu, htu, hnx]
    · intro u' U' h h'
      cases h
      rw [hUr] at h'; cases h'
      simp [rd_set_self, rd_set_ne, hx, ht, hu, hxt, htx, hux, hut, hxu, htu]
    · intro j h1 h2 h3
      have h3' : j ≠ u := fun h => h3 (by rw [h])
      simp [rd_set_ne, h1, h2, h3']


theorem merge_prev_heap (m : pool_mgr_t) (x p : Nat) (X P : node_t)
    (hX : rd m.node_heap x = some X) (hP : rd m.node_heap p = some P) (hxp : x ≠ p)
    (hU : ∀ u, X.next = some u → u ≠ x ∧ u ≠ p ∧ ∃ U, rd m.node_heap u = some U)
    (m2 : pool_mgr_t)
    (hrem : _mem_remove_from_gap_ix m P.alloc_record.size p = some m2)
    (hheap2 : m2.node_heap = m.node_heap)
    (m3 : pool_mgr_t)
    (hadd : _mem_add_to_gap_ix
      { m2 with node_heap := (m.node_heap.set p
          (some { P with alloc_record := { P.alloc_record with
                    size := P.alloc_record.size + X.alloc_record.size } })) }
      (P.alloc_record.size + X.alloc_record.size) p = some m3)
    (hheap3 : m3.node_heap = m.node_heap.set p
      (some { P with alloc_record := { P.alloc_record with
                size := P.alloc_record.size + X.alloc_record.size } })) :
    ∃ H, merge_prev m x p =
        some { m3 with node_heap := H, used_nodes := dec_unsigned m3.used_nodes } ∧
      H.length = m.node_heap.length ∧
      rd H p = some { P with next := X.next,
                             alloc_record := { P.alloc_record with
                               size := P.alloc_record.size + X.alloc_record.size } } ∧
      rd H x = some { X with next := none, prev := none, used := 0 } ∧
      (∀ u U, X.next = some u → rd m.node_heap u = some U →
        rd H u = some { U with prev := some p }) ∧
      (∀ j, j ≠ x → j ≠ p → X.next ≠ some j → rd H j = rd m.node_heap j) := by
  have hx := rd_lt hX
  have hp := rd_lt hP
  have hpx : p ≠ x := fun h => hxp h.symm
  cases hnx : X.next with
  | none =>
    refine ⟨?H2, ?h2, ?_, ?_, ?_, ?_, ?_⟩
    case h2 =>
      unfold merge_prev
      simp only [hP, Option.bind_eq_bind, Option.some_bind, hrem, hheap2, hX, hadd, hheap3,
        rd_set_self, rd_set_ne, List.length_set, hx, hp, hxp, hpx, ne_eq, not_false_eq_true,
        hnx]
      exact rfl
    · simp
    · simp [rd_set_self, rd_set_ne, hx, hp, hxp, hpx]
    · simp [rd_set_self, rd_set_ne, hx, hp, hxp, hpx, hnx]
    · intro u U h; cases h
    · intro j h1 h2 _
      simp [rd_set_ne, h1, h2]
  | some u =>
    obtain ⟨hux, hup, U, hUr⟩ := hU u hnx
    have hu := rd_lt hUr
    have hxu : x ≠ u := fun h => hux h.symm
    have hpu : p ≠ u := fun h => hup h.symm
    refine ⟨?H3, ?h3, ?_, ?_, ?_, ?_, ?_⟩
    case h3 =>
      unfold merge_prev
      simp only [hP, Option.bind_eq_bind, Option.some_bind, hrem, hheap2, hX, hadd, hheap3,
        hUr, rd_set_self, rd_set_ne, List.length_set, hx, hp, hu, hxp, hpx, hux, hup, hxu,
        hpu, ne_eq, not_false_eq_true, hnx]
      exact rfl
    · simp
    · simp [rd_set_self, rd_set_ne, hx, hp, hu, hxp, hpx, hux, hup, hxu, hpu]
    · simp [rd_set_self, rd_set_ne, hx, hp, hu, hxp, hpx, hux, hup, hxu, hpu, hnx]
    · intro u' U' h h'
      cases h
      rw [hUr] at h'; cases h'
      simp [rd_set_self, rd_set_ne, hx, hp, hu, hxp, hpx, hux, hup, hxu, hpu]
    · intro j h1 h2 h3
      have h3' : j ≠ u := fun h => h3 (by rw [h])
      simp [rd_set_ne, h1, h2, h3']

/-! ## Deallocation: the stages -/

theorem sum_allocs_le (v : List Seg) : ((allocs v).map Seg.size).sum ≤ (v.map Seg.size).sum := by
  induction v with
  | nil => simp
  | cons s r ih =>
    cases h : s.al
    · rw [allocs_cons_free _ _ h]; simp; omega
    · rw [allocs_cons_alloc _ _ h]; simp; omega

theorem mark_free_spec (m : pool_mgr_t) (live : List Nat) (pre post : List Seg)
    (gl : List gap_t) (h sz : Nat) (hinv : Inv m live (pre ++ ⟨h, sz, true⟩ :: post) gl) :
    ∃ mA, mark_free m h = some mA ∧ Mid mA (live.erase h) pre ⟨h, sz, false⟩ post gl ∧
      mA.pool.policy = m.pool.policy ∧ mA.pool.total_size = m.pool.total_size ∧
      mA.total_nodes = m.total_nodes := by
  obtain ⟨hcore, hperm, hadj, hna, has, hlive, hlnd, hpos⟩ := hinv
  have hnd := hcore.nodup
  obtain ⟨hpre_ne, hpost_ne, hpp, hndpre, hndpost⟩ := nodup_mid hnd
  have hlk := (Linked_append _ _ _ _ _ _).1 hcore.linked
  have hA := hlk.2.1
  have ha_lt := rd_lt hA
  have hhlive : h ∈ live := (hlive h).2 ⟨⟨h, sz, true⟩, by simp, rfl, rfl⟩
  have hpos1 : ∀ s ∈ pre ++ ⟨h, sz, true⟩ :: post, s.al = false → 0 < s.size := by
    rcases hpos with hpos | hpos
    · exact hpos
    · rw [hpos.2] at hhlive; cases hhlive
  have hrd : ∀ j, j ≠ h → ∀ n : node_t, rd (m.node_heap.set h (some n)) j = rd m.node_heap j :=
    fun j hj n => rd_set_ne _ hj
  have hmark : mark_free m h = some
      { m with
        node_heap := m.node_heap.set h (some
          (Seg.node ⟨h, sz, false⟩ (lastIdx pre none) (0 + (List.map Seg.size pre).sum)
            (hd post none)))
        pool := { m.pool with
          num_allocs := dec_unsigned m.pool.num_allocs
          alloc_size := sub_size_t m.pool.alloc_size sz } } := by
    unfold mark_free
    simp only [hA, Option.bind_eq_bind, Option.some_bind]
    rfl
  refine ⟨_, hmark, ⟨⟨?_, ?_, ?_, ?_, ?_, ?_, ?_, ?_, ?_, ?_, ?_, ?_⟩, rfl, ?_, ?_, ?_, ?_, ?_,
    ?_, ?_, ?_⟩, rfl, rfl, rfl⟩
  · -- linked
    show Linked (m.node_heap.set h _) none 0 _ none
    rw [Linked_append]
    refine ⟨?_, ?_, ?_⟩
    · exact (Linked_congr (fun s hs => hrd _ (hpre_ne s hs) _) _ _ _).2 hlk.1
    · exact rd_set_self _ ha_lt
    · exact (Linked_congr (fun s hs => hrd _ (hpost_ne s hs) _) _ _ _).2 hlk.2.2
  · rw [← hcore.head]; exact hd_mid _ _ _ _ _ _ rfl
  · simpa using hnd
  · intro i hi
    have hia : i ≠ h := by
      have := hcore.idx_lt (s := ⟨h, sz, true⟩) (by simp)
      intro h'; subst h'; simp only at this; omega
    show rd (m.node_heap.set h _) i = none
    rw [rd_set_ne _ hia]; exact hcore.beyond i hi
  · intro i hi hni
    have hia : i ≠ h := by
      intro h'; apply hni; subst h'; simp
    show ∃ u, rd (m.node_heap.set h _) i = some u ∧ _
    rw [rd_set_ne _ hia]
    exact hcore.unused i hi (by simpa using hni)
  · simpa using hcore.total
  · simpa using hcore.used_nodes
  · show (m.node_heap.set h _).length = m.total_nodes
    simpa using hcore.heap_len
  · exact hcore.gaps
  · exact hcore.gap_cap
  · exact hcore.num_gaps
  · exact hcore.sorted
  · rw [frees_append, frees_cons_alloc ⟨h, sz, true⟩ post rfl] at hperm
    exact hperm
  · exact (List.chain'_append.1 hadj).1
  · exact (List.chain'_cons'.1 (List.chain'_append.1 hadj).2.1).2
  · show dec_unsigned m.pool.num_allocs = _
    rw [hna]
    simp only [allocs_append, allocs_cons_alloc ⟨h, sz, true⟩ post rfl, List.length_append,
      List.length_cons]
    rw [show (allocs pre).length + ((allocs post).length + 1) =
      ((allocs pre).length + (allocs post).length) + 1 by omega, dec_unsigned_succ]
  · show sub_size_t m.pool.alloc_size sz = _
    rw [has]
    simp only [allocs_append, allocs_cons_alloc ⟨h, sz, true⟩ post rfl, List.map_append,
      List.map_cons, List.sum_append, List.sum_cons, Seg.node]
    rw [sub_size_t_of_le (by omega)]
    omega
  · intro i
    rw [List.Nodup.mem_erase_iff hlnd, hlive]
    simp only [List.mem_append, List.mem_cons]
    constructor
    · rintro ⟨hne, s, hs | hs | hs, hsi, hsa⟩
      · exact ⟨s, Or.inl hs, hsi, hsa⟩
      · subst hs; exact absurd hsi.symm hne
      · exact ⟨s, Or.inr hs, hsi, hsa⟩
    · rintro ⟨s, hs | hs, hsi, hsa⟩
      · exact ⟨fun hc => hpre_ne s hs (hsi.trans hc), s, Or.inl hs, hsi, hsa⟩
      · exact ⟨fun hc => hpost_ne s hs (hsi.trans hc), s, Or.inr (Or.inr hs), hsi, hsa⟩
  · exact hlnd.erase h
  · intro s hs hsa
    apply hpos1 s _ hsa
    simp only [List.mem_append, List.mem_cons] at hs ⊢
    rcases hs with hs | hs
    · exact Or.inl hs
    · exact Or.inr (Or.inr hs)


theorem Mid.gaps_lt {m : pool_mgr_t} {live : List Nat} {pre post : List Seg} {x : Seg}
    {gl : List gap_t} (h : Mid m live pre x post gl) :
    gl.length + 1 < MEM_GAP_IX_INIT_CAPACITY := by
  have h1 := h.core.length_le
  have h2 := h.perm.length_eq
  have h3 := frees_length_chain pre h.adj_pre
  have h4 := frees_length_chain post h.adj_post
  simp only [List.length_append, List.length_cons, MEM_NODE_HEAP_INIT_CAPACITY,
    MEM_GAP_IX_INIT_CAPACITY] at *
  omega

theorem merge_next_spec (m : pool_mgr_t) (live : List Nat) (pre post : List Seg) (x : Seg)
    (gl : List gap_t) (hmid : Mid m live pre x post gl) :
    ∃ mB glB, merge_next_if_gap m x.idx = some mB ∧
      Mid mB live pre ⟨x.idx, (absorb_next x.size post).1, false⟩
        (absorb_next x.size post).2 glB ∧
      (∀ w ∈ (absorb_next x.size post).2.head?, w.al = true) ∧
      mB.pool.policy = m.pool.policy ∧ mB.pool.total_size = m.pool.total_size ∧
      mB.total_nodes = m.total_nodes := by
  have hlen := hmid.gaps_lt
  obtain ⟨xi, xs, xa⟩ := x
  have hxa : xa = false := hmid.free
  subst hxa
  have hcore := hmid.core
  have hnd := hcore.nodup
  obtain ⟨hpre_ne, hpost_ne, hpp, hndpre, hndpost⟩ := nodup_mid hnd
  have hlk := (Linked_append _ _ _ _ _ _).1 hcore.linked
  have hX := hlk.2.1
  cases post with
  | nil =>
    refine ⟨m, gl, ?_, hmid, by simp [absorb_next], rfl, rfl, rfl⟩
    unfold merge_next_if_gap
    simp only [hX, Option.bind_eq_bind, Option.some_bind, Seg.node, hd]
  | cons t r =>
    have hT := hlk.2.2.1
    cases hta : t.al with
    | true =>
      refine ⟨m, gl, ?_, ?_, ?_, rfl, rfl, rfl⟩
      · unfold merge_next_if_gap
        simp only [hX, Option.bind_eq_bind, Option.some_bind, Seg.node, hd, hT, hta]
        simp
      · simp only [absorb_next, hta, if_true]; exact hmid
      · simp [absorb_next, hta]
    | false =>
      simp only [absorb_next, hta, Bool.false_eq_true, if_false]
      have hxt : xi ≠ t.idx := fun h => hpost_ne t (List.mem_cons_self _ _) h.symm
      have hndr := List.nodup_cons.1 hndpost
      have hU : ∀ u, (Seg.node t (some xi) (0 + (List.map Seg.size pre).sum + xs)
          (hd r none)).next = some u →
          u ≠ xi ∧ u ≠ t.idx ∧ ∃ U, rd m.node_heap u = some U := by
        intro u hu
        cases r with
        | nil => cases hu
        | cons u0 r1 =>
          simp only [Seg.node, hd, Option.some.injEq] at hu
          subst hu
          refine ⟨hpost_ne u0 (by simp), ?_, _, hlk.2.2.2.1⟩
          intro h
          exact hndr.1 (by rw [← h]; simp)
      obtain ⟨H1, hH1⟩ := merge_next_heap m xi t.idx _ _ hX hT hxt (by simp [Seg.node]) hU
      have hperm := hmid.perm
      rw [frees_cons_free t r hta] at hperm
      have hmem : t.gap ∈ gl := hperm.mem_iff.2 (by simp)
      obtain ⟨l1, l2, hgl⟩ := List.append_of_mem hmem
      subst hgl
      have hperm2 : (l1 ++ l2).Perm (frees pre ++ frees r) :=
        ((List.perm_middle.symm.trans hperm).trans List.perm_middle).cons_inv
      have hl1 : ∀ y ∈ l1, y.node ≠ some t.idx := by
        intro y hy
        have hy2 := hperm2.mem_iff.1 (List.mem_append_left _ hy)
        rcases List.mem_append.1 hy2 with h | h
        · exact frees_node_ne (fun s hs => hpp s hs t (List.mem_cons_self _ _)) y h
        · refine frees_node_ne (fun s hs heq => ?_) y h
          exact hndr.1 (by rw [← heq]; exact List.mem_map_of_mem _ hs)
      obtain ⟨k, hk⟩ := hcore.gaps
      have htpos : 0 < t.size := hmid.pos t (by simp) hta
      obtain ⟨m2, hrem, hgo, hgi2, hng2⟩ := remove_spec
        { m with node_heap := H1, used_nodes := dec_unsigned m.used_nodes }
        l1 l2 t.gap t.idx t.size k hk (Nat.lt_of_succ_lt hlen) hcore.num_gaps hcore.gap_cap rfl hl1 (by omega)
      obtain ⟨H2, hmerge, hH2len, hH2x, hH2t, hH2u, hH2o⟩ := hH1 m2 hrem hgo.node_heap
      have hH2o1 : ∀ j, j ≠ xi → j ≠ t.idx → hd r none ≠ some j → rd H2 j = rd m.node_heap j :=
        fun j h1 h2 h3 => hH2o j h1 h2 h3
      have hhd_pre : ∀ s ∈ pre, hd r none ≠ some s.idx := by
        intro s hs h
        cases r with
        | nil => cases h
        | cons u0 r1 =>
          simp only [hd, Option.some.injEq] at h
          exact hpp s hs u0 (by simp) h.symm
      refine ⟨{ m2 with node_heap := H2 }, l1 ++ l2, ?_,
        ⟨⟨?_, ?_, ?_, ?_, ?_, ?_, ?_, ?_, ?_, ?_, ?_, ?_⟩, rfl, hperm2, hmid.adj_pre, ?_, ?_,
          ?_, ?_, hmid.live_nodup, ?_⟩, ?_, hgo.policy, hgo.total_size, hgo.total_nodes⟩
      · unfold merge_next_if_gap
        simp only [hX, Option.bind_eq_bind, Option.some_bind, Seg.node, hd, hT, hta]
        simpa [Seg.node] using hmerge
      · -- linked
        show Linked H2 none 0 _ none
        rw [Linked_append]
        refine ⟨?_, ?_, ?_⟩
        · exact (Linked_congr (fun s hs => hH2o1 _ (hpre_ne s hs)
            (hpp s hs t (List.mem_cons_self _ _)) (hhd_pre s hs)) _ _ _).2 hlk.1
        · rw [hH2x]; simp [Seg.node]
        · cases r with
          | nil => trivial
          | cons u0 r1 =>
            have hoff : 0 + (List.map Seg.size pre).sum + (xs + t.size) =
                0 + (List.map Seg.size pre).sum + xs + t.size := by omega
            refine ⟨?_, ?_⟩
            · rw [hH2u u0.idx _ rfl hlk.2.2.2.1]
              simp only [Seg.node, hoff]
            · have hnd1 := List.nodup_cons.1 hndr.2
              refine (Linked_congr (fun s hs => hH2o1 _
                (hpost_ne s (by simp [hs])) ?_ ?_) _ _ _).2 ?_
              · intro h
                exact hndr.1 (by
                  rw [← h]
                  exact List.mem_map_of_mem _ (List.mem_cons_of_mem _ hs))
              · intro h
                simp only [hd, Option.some.injEq] at h
                exact hnd1.1 (by rw [h]; exact List.mem_map_of_mem _ hs)
              · simp only [hoff]
                exact hlk.2.2.2.2
      · rw [← hcore.head]; exact hd_mid _ _ _ _ _ _ rfl
      · simp only [List.map_append, List.map_cons, List.nodup_append, List.nodup_cons,
          List.mem_append, List.mem_cons, List.mem_map, not_or] at hnd ⊢
        refine ⟨hnd.1, ⟨hnd.2.1.1.2, hnd.2.1.2.2⟩, ?_⟩
        intro a ha hb
        apply hnd.2.2 ha
        simp only [List.mem_cons] at hb ⊢
        rcases hb with hb | hb
        · exact Or.inl hb
        · exact Or.inr (Or.inr hb)
      · intro i hi
        show rd H2 i = none
        have hia : i ≠ xi := by
          have := hcore.idx_lt (s := ⟨xi, xs, false⟩) (by simp)
          intro h; subst h; simp only at this; omega
        have hit : i ≠ t.idx := by
          have := hcore.idx_lt (s := t) (by simp)
          intro h; subst h; omega
        rw [hH2o1 i hia hit]
        · exact hcore.beyond i hi
        · intro h
          cases r with
          | nil => cases h
          | cons u0 r1 =>
            simp only [hd, Option.some.injEq] at h
            have := hcore.idx_lt (s := u0) (by simp)
            omega
      · intro i hi hni
        show ∃ u, rd H2 i = some u ∧ _
        simp only [List.map_append, List.map_cons, List.mem_append, List.mem_cons,
          List.mem_map, not_or] at hni
        by_cases hit : i = t.idx
        · subst hit
          exact ⟨_, hH2t, rfl, by simp [Seg.node, hta], rfl, rfl⟩
        · rw [hH2o1 i hni.2.1 hit]
          · apply hcore.unused i hi
            simp only [List.map_append, List.map_cons, List.mem_append, List.mem_cons,
              List.mem_map, not_or]
            exact ⟨hni.1, hni.2.1, fun h => hit h, hni.2.2⟩
          · intro h
            cases r with
            | nil => cases h
            | cons u0 r1 =>
              simp only [hd, Option.some.injEq] at h
              exact hni.2.2 ⟨u0, List.mem_cons_self _ _, h⟩
      · show (List.map Seg.size _).sum = m2.pool.total_size
        rw [hgo.total_size]
        have := hcore.total
        simp only [List.map_append, List.map_cons, List.sum_append, List.sum_cons] at this ⊢
        rw [← this]; omega
      · show m2.used_nodes = _
        rw [hgo.used_nodes]
        show dec_unsigned m.used_nodes = _
        rw [hcore.used_nodes]
        simp only [List.length_append, List.length_cons]
        rw [show pre.length + (r.length + 1 + 1) = (pre.length + (r.length + 1)) + 1 by omega,
          dec_unsigned_succ]
      · show H2.length = m2.total_nodes
        rw [hH2len, hgo.total_nodes]; exact hcore.heap_len
      · exact ⟨k, hgi2⟩
      · exact hgo.gap_cap
      · exact hng2
      · exact pairwise_remove hcore.sorted
      · exact (List.chain'_cons'.1 hmid.adj_post).2
      · show m2.pool.num_allocs = _
        rw [hgo.num_allocs]
        have := hmid.num_allocs
        simp only [allocs_append, allocs_cons_free t r hta] at this ⊢
        exact this
      · show m2.pool.alloc_size = _
        rw [hgo.alloc_size]
        have := hmid.alloc_size
        simp only [allocs_append, allocs_cons_free t r hta] at this ⊢
        exact this
      · intro i
        rw [hmid.live_iff]
        simp only [List.mem_append, List.mem_cons]
        constructor
        · rintro ⟨s, hs | hs | hs, hsi, hsa⟩
          · exact ⟨s, Or.inl hs, hsi, hsa⟩
          · subst hs; rw [hta] at hsa; cases hsa
          · exact ⟨s, Or.inr hs, hsi, hsa⟩
        · rintro ⟨s, hs | hs, hsi, hsa⟩
          · exact ⟨s, Or.inl hs, hsi, hsa⟩
          · exact ⟨s, Or.inr (Or.inr hs), hsi, hsa⟩
      · intro s hs hsa
        apply hmid.pos s _ hsa
        simp only [List.mem_append, List.mem_cons] at hs ⊢
        rcases hs with hs | hs
        · exact Or.inl hs
        · exact Or.inr (Or.inr hs)
      · intro w hw
        have := (List.chain'_cons'.1 hmid.adj_post).1 w hw
        simpa [hta] using this

theorem absorb_prev_concat (pre : List Seg) (p x : Seg) :
    absorb_prev (pre ++ [p]) x =
      if p.al then pre ++ [p, x] else pre ++ [⟨p.idx, p.size + x.size, false⟩] := by
  induction pre with
  | nil => simp [absorb_prev]
  | cons q r ih =>
    cases r with
    | nil =>
      simp only [List.nil_append] at ih
      simp only [List.cons_append, List.nil_append, absorb_prev, ih]
      split <;> simp
    | cons q2 r2 =>
      simp only [List.cons_append] at ih ⊢
      simp only [absorb_prev, ih]
      split <;> simp

theorem sum_lastIdx_concat (pre : List Seg) (p : Seg) :
    lastIdx (pre ++ [p]) none = some p.idx := lastIdx_append_singleton _ _ _

/-- The freed segment, nothing absorbing it, goes into the gap index. -/
theorem index_freed_spec (m : pool_mgr_t) (live : List Nat) (pre post : List Seg) (x : Seg)
    (gl : List gap_t) (hmid : Mid m live pre x post gl)
    (hpost : ∀ w ∈ post.head?, w.al = true) (hpre : ∀ z ∈ pre.getLast?, z.al = true) :
    (x.size = 0 → index_freed m x.idx = none) ∧
    (0 < x.size → ∃ m1 gl1, index_freed m x.idx = some (m1, alloc_status.ALLOC_OK) ∧
      Inv m1 live (pre ++ x :: post) gl1 ∧ GapOnly m m1) := by
  have hlen := hmid.gaps_lt
  obtain ⟨xi, xs, xa⟩ := x
  have hxa : xa = false := hmid.free
  subst hxa
  have hcore := hmid.core
  have hlk := (Linked_append _ _ _ _ _ _).1 hcore.linked
  have hX := hlk.2.1
  obtain ⟨k, hk⟩ := hcore.gaps
  constructor
  · intro h0
    simp only at h0
    subst h0
    unfold index_freed _mem_add_to_gap_ix
    obtain ⟨k1, hgi1, hcap1, hheap, hpool, htot, hused⟩ :=
      resize_gap_spec m gl k hk hcore.gap_cap
    simp only [hX, Option.bind_eq_bind, Option.some_bind, Seg.node, hheap]
    simp
  · intro hpos
    simp only at hpos
    obtain ⟨m1, B1, B2, k1, hadd, hgo, hB, hgi1, hng1, hsorted1⟩ := add_spec m gl xs xi k _
      hk hlen hcore.num_gaps hcore.gap_cap hcore.sorted hX (by simp [Seg.node]) (by omega)
    refine ⟨m1, B1 ++ ⟨xs, some xi⟩ :: B2, ?_, ⟨⟨?_, hcore.head, hcore.nodup, ?_, ?_, ?_, ?_,
      ?_, ⟨k1, hgi1⟩, hgo.gap_cap, ?_, hsorted1⟩, ?_, ?_, ?_, ?_, ?_, hmid.live_nodup, ?_⟩,
      hgo⟩
    · unfold index_freed
      simp only [hX, Option.bind_eq_bind, Option.some_bind, Seg.node]
      simp [hadd]
    · rw [hgo.node_heap]; exact hcore.linked
    · rw [hgo.node_heap]; exact hcore.beyond
    · rw [hgo.node_heap]; exact hcore.unused
    · rw [hgo.total_size]; exact hcore.total
    · rw [hgo.used_nodes]; exact hcore.used_nodes
    · rw [hgo.node_heap, hgo.total_nodes]; exact hcore.heap_len
    · rw [hng1, hB]; simp only [List.length_append, List.length_cons]; omega
    · rw [frees_append, frees_cons_free ⟨xi, xs, false⟩ post rfl]
      refine List.perm_middle.trans ?_
      refine List.Perm.trans ?_ List.perm_middle.symm
      rw [← hB]
      exact List.Perm.cons _ hmid.perm
    · exact no_adj_join hmid.adj_pre hmid.adj_post (Or.inr hpre) (Or.inr hpost)
    · rw [hgo.num_allocs]
      have := hmid.num_allocs
      simp only [allocs_append, allocs_cons_free ⟨xi, xs, false⟩ post rfl] at this ⊢
      exact this
    · rw [hgo.alloc_size]
      have := hmid.alloc_size
      simp only [allocs_append, allocs_cons_free ⟨xi, xs, false⟩ post rfl] at this ⊢
      exact this
    · intro i
      rw [hmid.live_iff]
      simp only [List.mem_append, List.mem_cons]
      constructor
      · rintro ⟨s, hs | hs, hsi, hsa⟩
        · exact ⟨s, Or.inl hs, hsi, hsa⟩
        · exact ⟨s, Or.inr (Or.inr hs), hsi, hsa⟩
      · rintro ⟨s, hs | hs | hs, hsi, hsa⟩
        · exact ⟨s, Or.inl hs, hsi, hsa⟩
        · subst hs; cases hsa
        · exact ⟨s, Or.inr hs, hsi, hsa⟩
    · left
      intro s hs hsa
      simp only [List.mem_append, List.mem_cons] at hs
      rcases hs with hs | hs | hs
      · exact hmid.pos s (by simp [hs]) hsa
      · subst hs; exact hpos
      · exact hmid.pos s (by simp [hs]) hsa


theorem merge_prev_none (m : pool_mgr_t) (live : List Nat) (pre post : List Seg) (x : Seg)
    (gl : List gap_t) (hmid : Mid m live pre x post gl)
    (hpre : ∀ z ∈ pre.getLast?, z.al = true) : merge_prev_if_gap m x.idx = some m := by
  rcases List.eq_nil_or_concat pre with rfl | ⟨pre1, p, rfl⟩
  · have hlk := (Linked_append _ _ _ _ _ _).1 hmid.core.linked
    have hX := hlk.2.1
    unfold merge_prev_if_gap
    simp only [hX, Option.bind_eq_bind, Option.some_bind, Seg.node, lastIdx]
  · rw [List.concat_eq_append] at hmid hpre
    have hlk := (Linked_append _ _ _ _ _ _).1 hmid.core.linked
    have hX := hlk.2.1
    have hpa : p.al = true := hpre p (by simp)
    have hP := ((Linked_append _ _ _ _ _ _).1 hlk.1).2.1
    unfold merge_prev_if_gap
    simp only [hX, Option.bind_eq_bind, Option.some_bind, Seg.node, lastIdx_append_singleton,
      hP, hpa]
    simp

theorem merge_prev_spec (m : pool_mgr_t) (live : List Nat) (pre post : List Seg) (p x : Seg)
    (gl : List gap_t) (hmid : Mid m live (pre ++ [p]) x post gl) (hp : p.al = false)
    (hpost : ∀ w ∈ post.head?, w.al = true) :
    ∃ mC glC, merge_prev_if_gap m x.idx = some mC ∧
      index_freed mC x.idx = some (mC, alloc_status.ALLOC_OK) ∧
      Inv mC live (pre ++ ⟨p.idx, p.size + x.size, false⟩ :: post) glC ∧
      mC.pool.policy = m.pool.policy ∧ mC.pool.total_size = m.pool.total_size ∧
      mC.total_nodes = m.total_nodes := by
  have hlen := hmid.gaps_lt
  obtain ⟨xi, xs, xa⟩ := x
  have hxa : xa = false := hmid.free
  subst hxa
  have hcore := hmid.core
  have hnd := hcore.nodup
  obtain ⟨hpre_ne, hpost_ne, hpp, hndpre, hndpost⟩ := nodup_mid hnd
  have hlk := (Linked_append _ _ _ _ _ _).1 hcore.linked
  have hX := hlk.2.1
  have hlkp := (Linked_append _ _ _ _ _ _).1 hlk.1
  have hP := hlkp.2.1
  simp only [lastIdx_append_singleton, List.map_append, List.map_cons, List.map_nil,
    List.sum_append, List.sum_cons, List.sum_nil, Nat.add_zero] at hX
  simp only [hd] at hP
  have hxp : xi ≠ p.idx := fun h => hpre_ne p (by simp) h.symm
  have hndp : ∀ s ∈ pre, s.idx ≠ p.idx := by
    rw [List.map_append, List.nodup_append] at hndpre
    intro s hs h
    exact hndpre.2.2 (List.mem_map_of_mem _ hs) (by rw [h]; simp)
  -- the gap entry of `p`
  have hperm := hmid.perm
  rw [frees_append, frees_cons_free p [] hp, frees_nil, List.append_assoc,
    List.singleton_append] at hperm
  have hmem : p.gap ∈ gl := hperm.mem_iff.2 (by simp)
  obtain ⟨l1, l2, hgl⟩ := List.append_of_mem hmem
  subst hgl
  have hperm2 : (l1 ++ l2).Perm (frees pre ++ frees post) :=
    ((List.perm_middle.symm.trans hperm).trans List.perm_middle).cons_inv
  have hl1 : ∀ y ∈ l1, y.node ≠ some p.idx := by
    intro y hy
    have hy2 := hperm2.mem_iff.1 (List.mem_append_left _ hy)
    rcases List.mem_append.1 hy2 with h | h
    · exact frees_node_ne hndp y h
    · exact frees_node_ne (fun s hs heq => hpp p (by simp) s hs heq.symm) y h
  obtain ⟨k, hk⟩ := hcore.gaps
  have hppos : 0 < p.size := hmid.pos p (by simp) hp
  obtain ⟨m2, hrem, hgo2, hgi2, hng2⟩ := remove_spec m l1 l2 p.gap p.idx p.size k hk
    (Nat.lt_of_succ_lt hlen)
    hcore.num_gaps hcore.gap_cap rfl hl1 (by omega)
  have hp_lt := rd_lt hP
  obtain ⟨m3, B1, B2, k1, hadd, hgo3, hB, hgi3, hng3, hsorted3⟩ := add_spec
    { m2 with node_heap := (m.node_heap.set p.idx
        (some { (Seg.node p (lastIdx pre none) (0 + (List.map Seg.size pre).sum) (some xi)) with
          alloc_record := { mem := some (0 + (List.map Seg.size pre).sum),
                            size := p.size + xs } })) }
    (l1 ++ l2) (p.size + xs) p.idx k _ hgi2
    (by simp only [List.length_append, List.length_cons] at hlen ⊢; omega)
    hng2 hgo2.gap_cap (pairwise_remove hcore.sorted) (rd_set_self _ hp_lt)
    (by simp [Seg.node, hp]) (by omega)
  have hU : ∀ u, (Seg.node ⟨xi, xs, false⟩ (some p.idx)
      (0 + ((List.map Seg.size pre).sum + p.size)) (hd post none)).next = some u →
      u ≠ xi ∧ u ≠ p.idx ∧ ∃ U, rd m.node_heap u = some U := by
    intro u hu
    cases post with
    | nil => cases hu
    | cons u0 r1 =>
      simp only [Seg.node, hd, Option.some.injEq] at hu
      subst hu
      exact ⟨hpost_ne u0 (by simp), fun h => hpp p (by simp) u0 (by simp) h.symm, _,
        hlk.2.2.1⟩
  obtain ⟨H, hmerge, hHlen, hHp, hHx, hHu, hHo⟩ := merge_prev_heap m xi p.idx _ _ hX hP hxp hU
    m2 hrem hgo2.node_heap m3 hadd hgo3.node_heap
  have hHo1 : ∀ j, j ≠ xi → j ≠ p.idx → hd post none ≠ some j → rd H j = rd m.node_heap j :=
    fun j h1 h2 h3 => hHo j h1 h2 h3
  have hhd_pre : ∀ s ∈ pre, hd post none ≠ some s.idx := by
    intro s hs h
    cases post with
    | nil => cases h
    | cons u0 r1 =>
      simp only [hd, Option.some.injEq] at h
      exact hpp s (by simp [hs]) u0 (by simp) h.symm
  obtain ⟨hadj1, -, hadj3, -⟩ := @no_adj_split pre [] p hmid.adj_pre hp
  refine ⟨{ m3 with node_heap := H, used_nodes := dec_unsigned m3.used_nodes },
    B1 ++ ⟨p.size + xs, some p.idx⟩ :: B2, ?_, ?_,
    ⟨⟨?_, ?_, ?_, ?_, ?_, ?_, ?_, ?_, ⟨k1, hgi3⟩, hgo3.gap_cap, ?_, hsorted3⟩, ?_, ?_, ?_, ?_,
      ?_, hmid.live_nodup, ?_⟩, ?_, ?_, ?_⟩
  · unfold merge_prev_if_gap
    simp only [hX, Option.bind_eq_bind, Option.some_bind, Seg.node, hP, hp]
    simpa [Seg.node] using hmerge
  · unfold index_freed
    simp only [hHx, Option.bind_eq_bind, Option.some_bind]
    simp
  · -- linked
    show Linked H none 0 _ none
    rw [Linked_append]
    refine ⟨?_, ?_, ?_⟩
    · exact (Linked_congr (fun s hs => hHo1 _ (hpre_ne s (by simp [hs])) (hndp s hs)
        (hhd_pre s hs)) _ _ _).2 hlkp.1
    · rw [hHp]; simp [Seg.node, hp]
    · cases post with
      | nil => trivial
      | cons u0 r1 =>
        have hoff : 0 + (List.map Seg.size pre).sum + (p.size + xs) =
            0 + (List.map Seg.size (pre ++ [p])).sum + xs := by simp; omega
        have hndr := List.nodup_cons.1 hndpost
        refine ⟨?_, ?_⟩
        · rw [hHu u0.idx _ rfl hlk.2.2.1]
          simp only [Seg.node, hoff]
        · refine (Linked_congr (fun s hs => hHo1 _
            (hpost_ne s (by simp [hs])) ?_ ?_) _ _ _).2 ?_
          · intro h
            exact hpp p (by simp) s (by simp [hs]) h.symm
          · intro h
            simp only [hd, Option.some.injEq] at h
            exact hndr.1 (by rw [h]; exact List.mem_map_of_mem _ hs)
          · simp only [hoff]
            exact hlk.2.2.2
  · rw [← hcore.head]
    cases pre <;> simp [hd]
  · simp only [List.map_append, List.map_cons, List.map_nil, List.nodup_append,
      List.nodup_cons, List.mem_append, List.mem_cons, List.mem_map, not_or] at hnd ⊢
    refine ⟨hnd.1.1, ⟨?_, hnd.2.1.2⟩, ?_⟩
    · intro h
      obtain ⟨a, ha, hae⟩ := h
      exact hpp p (by simp) a ha hae.symm
    · intro a ha hb
      simp only [List.mem_cons] at hb
      rcases hb with hb | hb
      · subst hb
        obtain ⟨s, hs, hse⟩ := List.mem_map.1 ha
        exact hndp s hs hse
      · exact hnd.2.2 (List.mem_append_left _ ha) (List.mem_cons_of_mem _ hb)
  · intro i hi
    show rd H i = none
    have hia : i ≠ xi := by
      have := hcore.idx_lt (s := ⟨xi, xs, false⟩) (by simp)
      intro h; subst h; simp only at this; omega
    have hip : i ≠ p.idx := by
      have := hcore.idx_lt (s := p) (by simp)
      intro h; subst h; omega
    rw [hHo1 i hia hip]
    · exact hcore.beyond i hi
    · intro h
      cases post with
      | nil => cases h
      | cons u0 r1 =>
        simp only [hd, Option.some.injEq] at h
        have := hcore.idx_lt (s := u0) (by simp)
        omega
  · intro i hi hni
    show ∃ u, rd H i = some u ∧ _
    simp only [List.map_append, List.map_cons, List.mem_append, List.mem_cons,
      List.mem_map, not_or] at hni
    by_cases hix : i = xi
    · subst hix
      exact ⟨_, hHx, rfl, by simp [Seg.node], rfl, rfl⟩
    · rw [hHo1 i hix hni.2.1]
      · apply hcore.unused i hi
        simp only [List.map_append, List.map_cons, List.map_nil, List.mem_append,
          List.mem_cons, List.mem_map, not_or, List.mem_singleton, List.not_mem_nil,
          or_false]
        exact ⟨⟨hni.1, hni.2.1⟩, hix, hni.2.2⟩
      · intro h
        cases post with
        | nil => cases h
        | cons u0 r1 =>
          simp only [hd, Option.some.injEq] at h
          exact hni.2.2 ⟨u0, List.mem_cons_self _ _, h⟩
  · show (List.map Seg.size _).sum = m3.pool.total_size
    rw [hgo3.total_size]
    show _ = m2.pool.total_size
    rw [hgo2.total_size]
    have := hcore.total
    simp only [List.map_append, List.map_cons, List.sum_append, List.sum_cons, List.map_nil,
      List.sum_nil] at this ⊢
    rw [← this]; omega
  · show dec_unsigned m3.used_nodes = _
    rw [hgo3.used_nodes]
    show dec_unsigned m2.used_nodes = _
    rw [hgo2.used_nodes, hcore.used_nodes]
    simp only [List.length_append, List.length_cons, List.length_nil]
    rw [show pre.length + (0 + 1) + (post.length + 1) = (pre.length + (post.length + 1)) + 1
      by omega, dec_unsigned_succ]
  · show H.length = m3.total_nodes
    rw [hHlen, hgo3.total_nodes]
    show _ = m2.total_nodes
    rw [hgo2.total_nodes]; exact hcore.heap_len
  · show m3.pool.num_gaps = _
    rw [hng3, hB]; simp only [List.length_append, List.length_cons]; omega
  · rw [frees_append, frees_cons_free ⟨p.idx, p.size + xs, false⟩ post rfl]
    refine List.perm_middle.trans ?_
    refine List.Perm.trans ?_ List.perm_middle.symm
    rw [← hB]
    exact List.Perm.cons _ hperm2
  · exact no_adj_join hadj1 hmid.adj_post (Or.inr hadj3) (Or.inr hpost)
  · show m3.pool.num_allocs = _
    rw [hgo3.num_allocs]
    show m2.pool.num_allocs = _
    rw [hgo2.num_allocs]
    have := hmid.num_allocs
    simp only [allocs_append, allocs_cons_free p [] hp, allocs_nil,
      allocs_cons_free ⟨p.idx, p.size + xs, false⟩ post rfl, List.append_nil] at this ⊢
    exact this
  · show m3.pool.alloc_size = _
    rw [hgo3.alloc_size]
    show m2.pool.alloc_size = _
    rw [hgo2.alloc_size]
    have := hmid.alloc_size
    simp only [allocs_append, allocs_cons_free p [] hp, allocs_nil,
      allocs_cons_free ⟨p.idx, p.size + xs, false⟩ post rfl, List.append_nil] at this ⊢
    exact this
  · intro i
    rw [hmid.live_iff]
    simp only [List.mem_append, List.mem_cons, List.mem_singleton, List.not_mem_nil, or_false]
    constructor
    · rintro ⟨s, (hs | hs) | hs, hsi, hsa⟩
      · exact ⟨s, Or.inl hs, hsi, hsa⟩
      · subst hs; rw [hp] at hsa; cases hsa
      · exact ⟨s, Or.inr (Or.inr hs), hsi, hsa⟩
    · rintro ⟨s, hs | hs | hs, hsi, hsa⟩
      · exact ⟨s, Or.inl (Or.inl hs), hsi, hsa⟩
      · subst hs; cases hsa
      · exact ⟨s, Or.inr hs, hsi, hsa⟩
  · left
    intro s hs hsa
    simp only [List.mem_append, List.mem_cons] at hs
    rcases hs with hs | hs | hs
    · exact hmid.pos s (by simp [hs]) hsa
    · subst hs; show 0 < p.size + xs; omega
    · exact hmid.pos s (by simp [hs]) hsa
  · show m3.pool.policy = _
    rw [hgo3.policy]; exact hgo2.policy
  · show m3.pool.total_size = _
    rw [hgo3.total_size]; exact hgo2.total_size
  · show m3.total_nodes = _
    rw [hgo3.total_nodes]; exact hgo2.total_nodes

theorem absorb_prev_of_alloc (pre : List Seg) (x : Seg)
    (h : ∀ z ∈ pre.getLast?, z.al = true) : absorb_prev pre x = pre ++ [x] := by
  rcases List.eq_nil_or_concat pre with rfl | ⟨pre1, p, rfl⟩
  · rfl
  · rw [List.concat_eq_append] at h ⊢
    have hpa : p.al = true := h p (by simp)
    rw [absorb_prev_concat, if_pos hpa]
    simp

theorem Core.length_le_heap {m : pool_mgr_t} {v : List Seg} {gl : List gap_t}
    (h : Core m v gl) : v.length ≤ m.node_heap.length := by
  have := nodup_length_le (v.map Seg.idx) m.node_heap.length h.nodup (by
    intro x hx
    obtain ⟨s, hs, rfl⟩ := List.mem_map.1 hx
    obtain ⟨n, hn, -⟩ := Linked_mem h.linked hs
    exact rd_lt hn)
  simpa using this

/-- What `mem_del_alloc` does to a pool that satisfies the invariant. -/
theorem del_spec (m : pool_mgr_t) (live : List Nat) (pre post : List Seg) (gl : List gap_t)
    (h sz : Nat) (hinv : Inv m live (pre ++ ⟨h, sz, true⟩ :: post) gl) :
    (((absorb_next sz post).1 = 0 ∧ ∀ z ∈ pre.getLast?, z.al = true) →
      mem_del_alloc m h = none) ∧
    (¬ ((absorb_next sz post).1 = 0 ∧ ∀ z ∈ pre.getLast?, z.al = true) →
      ∃ m1 gl1, mem_del_alloc m h = some (m1, alloc_status.ALLOC_OK) ∧
        Inv m1 (live.erase h) (freed_view pre h sz post) gl1 ∧
        m1.pool.policy = m.pool.policy ∧ m1.pool.total_size = m.pool.total_size) := by
  have hcore := hinv.core
  have hlk := (Linked_append _ _ _ _ _ _).1 hcore.linked
  have hX := hlk.2.1
  obtain ⟨c, hc, hfind⟩ := find_node_spec m.node_heap pre ⟨h, sz, true⟩ post none 0
    m.node_heap.length hcore.linked (nodup_mid hcore.nodup).1 (by
      have := hcore.length_le_heap
      simp only [List.length_append, List.length_cons] at this
      omega)
  rw [hcore.head] at hc
  simp only [Option.some.injEq] at hc
  subst hc
  obtain ⟨mA, hmark, hmidA, hpolA, htotA, -⟩ := mark_free_spec m live pre post gl h sz hinv
  obtain ⟨mB, glB, hnext, hmidB, hheadB, hpolB, htotB, -⟩ :=
    merge_next_spec mA (live.erase h) pre post ⟨h, sz, false⟩ gl hmidA
  simp only at hnext hmidB hheadB hfind
  have hdel : mem_del_alloc m h =
      (merge_prev_if_gap mB h).bind fun mgr => index_freed mgr h := by
    unfold mem_del_alloc
    simp only [hX, Option.bind_eq_bind, Option.some_bind, Seg.node, hcore.heap_ptr, hfind, hmark,
      hnext]
    simp
  rw [hdel]
  by_cases hpre : ∀ z ∈ pre.getLast?, z.al = true
  · have hprev := merge_prev_none mB (live.erase h) pre _ _ glB hmidB hpre
    simp only at hprev
    obtain ⟨hzero, hposi⟩ := index_freed_spec mB (live.erase h) pre _ _ glB hmidB hheadB hpre
    simp only at hzero hposi
    rw [hprev]
    simp only [Option.some_bind]
    constructor
    · intro hz
      exact hzero hz.1
    · intro hnz
      have hp : 0 < (absorb_next sz post).1 := by
        by_contra h0
        exact hnz ⟨by omega, hpre⟩
      obtain ⟨m1, gl1, hidx, hinv1, hgo⟩ := hposi hp
      refine ⟨m1, gl1, hidx, ?_, ?_, ?_⟩
      · unfold freed_view
        rw [absorb_prev_of_alloc _ _ hpre]
        simpa using hinv1
      · rw [hgo.policy, hpolB, hpolA]
      · rw [hgo.total_size, htotB, htotA]
  · have hex : ∃ pre1 p, pre = pre1 ++ [p] ∧ p.al = false := by
      rcases List.eq_nil_or_concat pre with rfl | ⟨pre1, p, rfl⟩
      · exact absurd (by simp) hpre
      · rw [List.concat_eq_append] at hpre ⊢
        refine ⟨pre1, p, rfl, ?_⟩
        by_contra hpa
        apply hpre
        intro z hz
        have hzp : z = p := by simpa using hz.symm
        subst hzp
        simpa using hpa
    obtain ⟨pre1, p, rfl, hpa⟩ := hex
    obtain ⟨mC, glC, hprev, hidx, hinvC, hpolC, htotC, -⟩ :=
      merge_prev_spec mB (live.erase h) pre1 _ p _ glB hmidB hpa hheadB
    simp only at hprev hidx hinvC
    rw [hprev]
    simp only [Option.some_bind]
    constructor
    · intro hz
      exact absurd hz.2 hpre
    · intro _
      refine ⟨mC, glC, hidx, ?_, ?_, ?_⟩
      · unfold freed_view
        rw [absorb_prev_concat, if_neg (by simp [hpa])]
        simpa using hinvC
      · rw [hpolC, hpolB, hpolA]
      · rw [htotC, htotB, htotA]

/-! ## The invariant of the reachable states -/

theorem rd_replicate {α : Type} (n : Nat) (u : α) (i : Nat) :
    rd (List.replicate n (some u)) i = if i < n then some u else none := by
  unfold rd
  by_cases h : i < n
  · simp [List.getElem?_replicate, h]
  · simp [List.getElem?_replicate, h]

theorem new_pool_inv (size : Nat) (policy : alloc_policy) :
    Inv (new_pool_mgr size policy) [] [⟨0, size, false⟩] [⟨size, some 0⟩] := by
  refine ⟨⟨?_, rfl, by simp, ?_, ?_, by simp [new_pool_mgr], rfl, rfl, ⟨0, ?_⟩, rfl, rfl,
    by simp⟩, ?_, by simp, rfl, rfl, ?_, by simp, ?_⟩
  · exact ⟨by simp [new_pool_mgr, rd_cons_zero, Seg.node, hd], trivial⟩
  · intro i hi
    simp only [MEM_NODE_HEAP_INIT_CAPACITY] at hi
    obtain ⟨j, rfl⟩ : ∃ j, i = j + 1 := ⟨i - 1, by omega⟩
    simp only [new_pool_mgr, rd_cons_succ, rd_replicate, MEM_NODE_HEAP_INIT_CAPACITY]
    rw [if_neg (by omega)]
  · intro i hi hni
    simp only [MEM_NODE_HEAP_INIT_CAPACITY] at hi
    simp only [List.map_cons, List.map_nil, List.mem_singleton] at hni
    obtain ⟨j, rfl⟩ : ∃ j, i = j + 1 := ⟨i - 1, by omega⟩
    refine ⟨unused_node, ?_, rfl, rfl, rfl, rfl⟩
    simp only [new_pool_mgr, rd_cons_succ, rd_replicate, MEM_NODE_HEAP_INIT_CAPACITY]
    rw [if_pos (by omega)]
  · simp [new_pool_mgr, gap_cells, MEM_GAP_IX_INIT_CAPACITY]
  · simp [frees, Seg.gap]
  · intro h; simp
  · by_cases h : 0 < size
    · left
      intro s hs _
      simp only [List.mem_singleton] at hs
      subst hs; exact h
    · right
      exact ⟨by simp [new_pool_mgr]; omega, rfl⟩

theorem mem_pool_open_mgr {g g1 : globals} {addr size : Nat} {policy : alloc_policy}
    {mgr : pool_mgr_t} (h : mem_pool_open g addr size policy = some (g1, some mgr)) :
    mgr = new_pool_mgr size policy := by
  unfold mem_pool_open at h
  cases hs : g.pool_store with
  | none => simp [hs] at h
  | some st =>
    simp only [hs] at h
    cases hs1 : (_mem_resize_pool_store g).pool_store with
    | none => simp [hs1] at h
    | some st1 =>
      simp only [hs1, Option.bind_eq_bind] at h
      rw [Option.bind_eq_some] at h
      obtain ⟨st2, -, h⟩ := h
      simp only [Option.some.injEq, Prod.mk.injEq] at h
      exact h.2.symm

theorem reachable_inv {size : Nat} {policy : alloc_policy} {m : pool_mgr_t} {live : List Nat}
    (h : Reachable size policy m live) :
    ∃ v gl, Inv m live v gl ∧ m.pool.total_size = size ∧ m.pool.policy = policy := by
  induction h with
  | opened g g1 addr mgr hopen =>
    rw [mem_pool_open_mgr hopen]
    exact ⟨_, _, new_pool_inv size policy, rfl, rfl⟩
  | alloc mgr mgr1 live sz h _ ha ih =>
    obtain ⟨v, gl, hinv, ht, hp⟩ := ih
    obtain ⟨pre, g, post, tl, gl1, _, _, _, _, _, _, hinv1, hp1, ht1⟩ :=
      alloc_spec mgr mgr1 live v gl sz h hinv ha
    exact ⟨_, gl1, hinv1, by rw [ht1, ht], by rw [hp1, hp]⟩
  | alloc_null mgr mgr1 live sz _ ha ih =>
    obtain ⟨v, gl, hinv, ht, hp⟩ := ih
    obtain ⟨hinv1, hpool, -⟩ := alloc_null_spec mgr mgr1 live v gl sz hinv ha
    exact ⟨v, gl, hinv1, by rw [hpool, ht], by rw [hpool, hp]⟩
  | del mgr mgr1 live h _ hlive hd ih =>
    obtain ⟨v, gl, hinv, ht, hp⟩ := ih
    obtain ⟨s, hs, hsi, hsa⟩ := (hinv.live_iff h).1 hlive
    obtain ⟨pre, post, hv⟩ := List.append_of_mem hs
    obtain ⟨si, ss, sa⟩ := s
    simp only at hsi hsa
    subst hsi hsa hv
    obtain ⟨hnone, hsome⟩ := del_spec mgr live pre post gl si ss hinv
    by_cases hz : (absorb_next ss post).1 = 0 ∧ ∀ z ∈ pre.getLast?, z.al = true
    · rw [hnone hz] at hd; cases hd
    · obtain ⟨m1, gl1, hdel, hinv1, hp1, ht1⟩ := hsome hz
      rw [hdel] at hd
      simp only [Option.some.injEq, Prod.mk.injEq, and_true] at hd
      subst hd
      exact ⟨_, gl1, hinv1, by rw [ht1, ht], by rw [hp1, hp]⟩

/-! ## From the invariant to the observations -/

theorem nodes_fst (p : Option Nat) (off : Nat) (v : List Seg) (q : Option Nat) :
    (nodes p off v q).map Prod.fst = v.map Seg.idx := by
  induction v generalizing p off with
  | nil => rfl
  | cons s r ih => simp [nodes, ih]

theorem nodes_size (p : Option Nat) (off : Nat) (v : List Seg) (q : Option Nat) :
    (nodes p off v q).map (fun x => x.2.alloc_record.size) = v.map Seg.size := by
  induction v generalizing p off with
  | nil => rfl
  | cons s r ih => simp [nodes, ih, Seg.node]

theorem nodes_mem (p : Option Nat) (off : Nat) (v : List Seg) (q : Option Nat) :
    (nodes p off v q).map (fun x => x.2.alloc_record.mem) = offsets off (v.map Seg.size) := by
  induction v generalizing p off with
  | nil => rfl
  | cons s r ih => simp [nodes, ih, Seg.node, offsets]

theorem nodes_layout (p : Option Nat) (off : Nat) (v : List Seg) (q : Option Nat) :
    (nodes p off v q).map layout =
      (List.zip v (offsets off (v.map Seg.size))).map fun x =>
        (x.1.idx, { mem := x.2, size := x.1.size }, 1, if x.1.al then 1 else 0) := by
  induction v generalizing p off with
  | nil => rfl
  | cons s r ih => simp [nodes, ih, Seg.node, offsets, layout]

theorem mem_nodes {p : Option Nat} {off : Nat} {v : List Seg} {q : Option Nat}
    {x : Nat × node_t} (h : x ∈ nodes p off v q) :
    ∃ s ∈ v, x.1 = s.idx ∧ x.2.alloc_record.size = s.size ∧ x.2.used = 1 ∧
      x.2.allocated = (if s.al then 1 else 0) := by
  induction v generalizing p off with
  | nil => cases h
  | cons s r ih =>
    simp only [nodes, List.mem_cons] at h
    rcases h with h | h
    · subst h
      exact ⟨s, List.mem_cons_self _ _, rfl, rfl, rfl, rfl⟩
    · obtain ⟨t, ht, h1⟩ := ih h
      exact ⟨t, List.mem_cons_of_mem _ ht, h1⟩

theorem nodes_of_mem (p : Option Nat) (off : Nat) {v : List Seg} (q : Option Nat)
    {s : Seg} (h : s ∈ v) :
    ∃ x ∈ nodes p off v q, x.1 = s.idx ∧ x.2.alloc_record.size = s.size ∧ x.2.used = 1 ∧
      x.2.allocated = (if s.al then 1 else 0) := by
  induction v generalizing p off with
  | nil => cases h
  | cons t r ih =>
    rcases List.mem_cons.1 h with h | h
    · subst h
      exact ⟨_, List.mem_cons_self _ _, rfl, rfl, rfl, rfl⟩
    · obtain ⟨x, hx, h1⟩ := ih (some t.idx) (off + t.size) h
      exact ⟨x, List.mem_cons_of_mem _ hx, h1⟩

theorem nodes_append (p : Option Nat) (off : Nat) (l1 l2 : List Seg) (q : Option Nat) :
    nodes p off (l1 ++ l2) q =
      nodes p off l1 (hd l2 q) ++ nodes (lastIdx l1 p) (off + (l1.map Seg.size).sum) l2 q := by
  induction l1 generalizing p off with
  | nil => simp [nodes, lastIdx]
  | cons s r ih =>
    simp only [List.cons_append, nodes, List.append_eq, ih, hd_append, lastIdx_cons,
      List.map_cons, List.sum_cons, Nat.add_assoc]

theorem nodes_filter_alloc (p : Option Nat) (off : Nat) (v : List Seg) (q : Option Nat) :
    ((nodes p off v q).filter fun x => decide (x.2.allocated = 1)).map
        (fun x => x.2.alloc_record.size) = (allocs v).map Seg.size := by
  induction v generalizing p off with
  | nil => rfl
  | cons s r ih =>
    cases hs : s.al
    · rw [allocs_cons_free _ _ hs]
      simp [nodes, Seg.node, hs, ih]
    · rw [allocs_cons_alloc _ _ hs]
      simp [nodes, Seg.node, hs, ih]

theorem nodes_filter_free (p : Option Nat) (off : Nat) (v : List Seg) (q : Option Nat) :
    ((nodes p off v q).filter fun x => decide (x.2.allocated = 0)).map
        (fun x => (⟨x.2.alloc_record.size, some x.1⟩ : gap_t)) = frees v := by
  induction v generalizing p off with
  | nil => rfl
  | cons s r ih =>
    cases hs : s.al
    · rw [frees_cons_free _ _ hs]
      simp [nodes, Seg.node, hs, ih, Seg.gap]
    · rw [frees_cons_alloc _ _ hs]
      simp [nodes, Seg.node, hs, ih]

theorem nodes_chain (p : Option Nat) (off : Nat) (v : List Seg) (q : Option Nat)
    (h : v.Chain' fun a b => a.al = true ∨ b.al = true) :
    (nodes p off v q).Chain' fun a b => ¬ (a.2.allocated = 0 ∧ b.2.allocated = 0) := by
  induction v generalizing p off with
  | nil => exact List.chain'_nil
  | cons s r ih =>
    cases r with
    | nil => simp [nodes]
    | cons t r2 =>
      have h1 := List.chain'_cons.1 h
      have h2 := ih (some s.idx) (off + s.size) h1.2
      simp only [nodes] at h2 ⊢
      refine List.chain'_cons.2 ⟨?_, h2⟩
      simp only [Seg.node]
      rcases h1.1 with ha | ha <;> simp [ha]

theorem segment_list_of_inv {m : pool_mgr_t} {live : List Nat} {v : List Seg}
    {gl : List gap_t} (h : Inv m live v gl) : segment_list m = some (nodes none 0 v none) := by
  obtain ⟨s, r, hv, hs⟩ := h.head_cons
  have hl := h.core.linked
  have hlen := h.core.length_le_heap
  subst hv
  unfold segment_list
  have := walk_spec _ s r none 0 _ hl hlen
  rw [hs] at this
  rw [h.core.heap_ptr]
  exact this

theorem read_cells_spec {α : Type} (L : List α) (P rest : List (Option α)) :
    read_cells (P ++ (L.map some ++ rest)) L.length P.length = some L := by
  induction L generalizing P with
  | nil => rfl
  | cons x L ih =>
    have h := ih (P ++ [some x])
    simp only [List.append_assoc, List.singleton_append, List.length_append,
      List.length_singleton] at h
    simp only [List.length_cons, read_cells, List.map_cons, List.cons_append, rd_at,
      Option.bind_eq_bind, Option.some_bind, h]

theorem gap_entries_of_inv {m : pool_mgr_t} {live : List Nat} {v : List Seg}
    {gl : List gap_t} (h : Inv m live v gl) : gap_entries m = some gl := by
  obtain ⟨k, hk⟩ := h.core.gaps
  unfold gap_entries
  rw [h.core.num_gaps, hk]
  have := read_cells_spec gl []
    (List.replicate (MEM_GAP_IX_INIT_CAPACITY - gl.length) (some ⟨0, none⟩) ++
      List.replicate k none)
  simpa [gap_cells] using this

theorem inspect_of_inv {m : pool_mgr_t} {live : List Nat} {v : List Seg}
    {gl : List gap_t} (h : Inv m live v gl) :
    mem_inspect_pool m =
      some (v.map (fun t => some ⟨t.size, if t.al then 1 else 0⟩), v.length) := by
  obtain ⟨s, r, hv, hs⟩ := h.head_cons
  have hl := h.core.linked
  have hlen := h.core.length_le_heap
  have hu := h.core.used_nodes
  subst hv
  unfold mem_inspect_pool
  rw [hu, h.core.heap_ptr]
  have := inspect_loop_spec m.node_heap s r none 0 m.node_heap.length [] hl hlen
  simp only [List.nil_append, List.length_nil, hs] at this
  simp only [this, Option.bind_eq_bind, Option.some_bind]

/-! ## Reachable example states -/

theorem open_example (size : Nat) (policy : alloc_policy) :
    Reachable size policy (new_pool_mgr size policy) [] :=
  Reachable.opened init_globals _ 1 _ (by rfl : mem_pool_open init_globals 1 size policy = _)

theorem reachable_first_fit_three :
    Reachable 1024 alloc_policy.FIRST_FIT first_fit_three [2, 1, 0] := by
  have h0 := open_example 1024 alloc_policy.FIRST_FIT
  have h1 := Reachable.alloc _ (after_alloc (new_pool_mgr 1024 alloc_policy.FIRST_FIT) 100)
    _ 100 0 h0 (by rfl)
  have h2 := Reachable.alloc _
    (after_alloc (after_alloc (new_pool_mgr 1024 alloc_policy.FIRST_FIT) 100) 200)
    _ 200 1 h1 (by rfl)
  exact Reachable.alloc _ first_fit_three _ 300 2 h2 (by rfl)

theorem reachable_first_fit_run :
    Reachable 1024 alloc_policy.FIRST_FIT first_fit_run [2, 0] :=
  Reachable.del first_fit_three first_fit_run _ 1 reachable_first_fit_three (by decide) (by rfl)

theorem reachable_best_fit_run :
    Reachable 500 alloc_policy.BEST_FIT best_fit_run [1] := by
  have h0 := open_example 500 alloc_policy.BEST_FIT
  have h1 := Reachable.alloc _ (after_alloc (new_pool_mgr 500 alloc_policy.BEST_FIT) 100)
    _ 100 0 h0 (by rfl)
  have h2 := Reachable.alloc _
    (after_alloc (after_alloc (new_pool_mgr 500 alloc_policy.BEST_FIT) 100) 100)
    _ 100 1 h1 (by rfl)
  exact Reachable.del _ best_fit_run _ 0 h2 (by decide) (by rfl)

theorem reachable_zero_size_run :
    Reachable 1024 alloc_policy.FIRST_FIT zero_size_run [1, 0] := by
  have h0 := open_example 1024 alloc_policy.FIRST_FIT
  have h1 := Reachable.alloc _ (after_alloc (new_pool_mgr 1024 alloc_policy.FIRST_FIT) 0)
    _ 0 0 h0 (by rfl)
  exact Reachable.alloc _ zero_size_run _ 10 1 h1 (by rfl)

/-! ## The invariants -/

/-- The partition invariant before the node heap grows: in every pool state reached from
`mem_pool_open (size, policy)` by calls of `mem_new_alloc` and `mem_del_alloc`
(each free on a handle returned by an earlier allocation and not freed since),
the walk from `node_heap[0]` through the `next` links ends, the first segment
is at offset 0, each segment starts where the previous one ends, and the sizes
sum to `total_size`, the size the pool was opened with. -/
theorem partition_invariant (size : Nat) (policy : alloc_policy) (m : pool_mgr_t)
    (live : List Nat) (h : Reachable size policy m live) :
    ∃ l, segment_list m = some l ∧
      l.map (fun x => x.2.alloc_record.mem) = offsets 0 (l.map fun x => x.2.alloc_record.size) ∧
      (l.map fun x => x.2.alloc_record.size).sum = m.pool.total_size ∧
      m.pool.total_size = size := by
  obtain ⟨v, gl, hinv, ht, -⟩ := reachable_inv h
  refine ⟨_, segment_list_of_inv hinv, ?_, ?_, ht⟩
  · rw [nodes_mem, nodes_size]
  · rw [nodes_size]; exact hinv.core.total

theorem partition_invariant_witness :
    ∃ l, segment_list first_fit_run = some l ∧
      l.map (fun x => x.2.alloc_record.mem) = offsets 0 (l.map fun x => x.2.alloc_record.size) ∧
      (l.map fun x => x.2.alloc_record.size).sum = first_fit_run.pool.total_size ∧
      first_fit_run.pool.total_size = 1024 :=
  partition_invariant 1024 alloc_policy.FIRST_FIT first_fit_run [2, 0] reachable_first_fit_run

/-- No adjacent free segments before the node heap grows: in every state of `Reachable` no two
neighbours of the segment list (a node and its `next`) both have
`allocated == 0`. -/
theorem no_adjacent_free (size : Nat) (policy : alloc_policy) (m : pool_mgr_t)
    (live : List Nat) (h : Reachable size policy m live) :
    ∃ l, segment_list m = some l ∧
      l.Chain' fun a b => ¬ (a.2.allocated = 0 ∧ b.2.allocated = 0) := by
  obtain ⟨v, gl, hinv, -, -⟩ := reachable_inv h
  exact ⟨_, segment_list_of_inv hinv, nodes_chain _ _ _ _ hinv.no_adj⟩

theorem no_adjacent_free_witness :
    ∃ l, segment_list first_fit_run = some l ∧
      l.Chain' fun a b => ¬ (a.2.allocated = 0 ∧ b.2.allocated = 0) :=
  no_adjacent_free 1024 alloc_policy.FIRST_FIT first_fit_run [2, 0] reachable_first_fit_run

/-- The gap index before the node heap grows: in every state of `Reachable` the first
`num_gaps` entries of `gap_ix` reference exactly the free segments of the list,
each once (the slots of the list are distinct and its nodes are used); every
entry references a free used node of the list and carries its size; and the
entries are in non-decreasing order of size. -/
theorem gap_index_correct (size : Nat) (policy : alloc_policy) (m : pool_mgr_t)
    (live : List Nat) (h : Reachable size policy m live) :
    ∃ l ents, segment_list m = some l ∧ gap_entries m = some ents ∧
      (ents.map gap_t.node).Perm
        ((l.filter fun x => decide (x.2.allocated = 0)).map fun x => some x.1) ∧
      (l.map Prod.fst).Nodup ∧ (∀ x ∈ l, x.2.used = 1) ∧
      (∀ e ∈ ents, ∃ x ∈ l, e.node = some x.1 ∧ e.size = x.2.alloc_record.size ∧
        x.2.allocated = 0 ∧ x.2.used = 1) ∧
      ents.Pairwise (fun a b => a.size ≤ b.size) := by
  obtain ⟨v, gl, hinv, -, -⟩ := reachable_inv h
  refine ⟨_, gl, segment_list_of_inv hinv, gap_entries_of_inv hinv, ?_, ?_, ?_, ?_, ?_⟩
  · have h1 := hinv.perm.map gap_t.node
    rw [← nodes_filter_free none 0 v none, List.map_map] at h1
    exact h1
  · rw [nodes_fst]; exact hinv.core.nodup
  · intro x hx
    obtain ⟨s, -, -, -, hu, -⟩ := mem_nodes hx
    exact hu
  · intro e he
    obtain ⟨s, hs, hsa, rfl⟩ := mem_frees.1 (hinv.perm.mem_iff.1 he)
    obtain ⟨x, hx, h1, h2, h3, h4⟩ := nodes_of_mem none 0 none hs
    refine ⟨x, hx, by simp [Seg.gap, h1], by simp [Seg.gap, h2], ?_, h3⟩
    rw [h4, hsa]; rfl
  · refine hinv.core.sorted.imp ?_
    intro a b hab
    unfold gap_le at hab
    omega

theorem gap_index_correct_witness :
    ∃ l ents, segment_list first_fit_run = some l ∧ gap_entries first_fit_run = some ents ∧
      (ents.map gap_t.node).Perm
        ((l.filter fun x => decide (x.2.allocated = 0)).map fun x => some x.1) ∧
      (l.map Prod.fst).Nodup ∧ (∀ x ∈ l, x.2.used = 1) ∧
      (∀ e ∈ ents, ∃ x ∈ l, e.node = some x.1 ∧ e.size = x.2.alloc_record.size ∧
        x.2.allocated = 0 ∧ x.2.used = 1) ∧
      ents.Pairwise (fun a b => a.size ≤ b.size) :=
  gap_index_correct 1024 alloc_policy.FIRST_FIT first_fit_run [2, 0] reachable_first_fit_run

/-- Conservation before the node heap grows: in every state of `Reachable` `alloc_size` is the sum
of the sizes of the allocated segments of the list, `num_allocs` is their
number, `num_gaps` is the number of free segments (every flag being 0 or 1),
and `alloc_size <= total_size`. -/
theorem conservation (size : Nat) (policy : alloc_policy) (m : pool_mgr_t)
    (live : List Nat) (h : Reachable size policy m live) :
    ∃ l, segment_list m = some l ∧
      m.pool.alloc_size =
        ((l.filter fun x => decide (x.2.allocated = 1)).map fun x => x.2.alloc_record.size).sum ∧
      m.pool.num_allocs = (l.filter fun x => decide (x.2.allocated = 1)).length ∧
      m.pool.num_gaps = (l.filter fun x => decide (x.2.allocated = 0)).length ∧
      (∀ x ∈ l, x.2.allocated = 0 ∨ x.2.allocated = 1) ∧
      m.pool.alloc_size ≤ m.pool.total_size := by
  obtain ⟨v, gl, hinv, -, -⟩ := reachable_inv h
  refine ⟨_, segment_list_of_inv hinv, ?_, ?_, ?_, ?_, ?_⟩
  · rw [nodes_filter_alloc]; exact hinv.alloc_size
  · have := congrArg List.length (nodes_filter_alloc none 0 v none)
    simp only [List.length_map] at this
    rw [this]; exact hinv.num_allocs
  · have := congrArg List.length (nodes_filter_free none 0 v none)
    simp only [List.length_map] at this
    rw [this, hinv.core.num_gaps]; exact hinv.gl_length
  · intro x hx
    obtain ⟨s, -, -, -, -, ha⟩ := mem_nodes hx
    cases hs : s.al <;> simp [ha, hs]
  · rw [hinv.alloc_size, ← hinv.core.total]
    exact sum_allocs_le v

theorem conservation_witness :
    ∃ l, segment_list first_fit_run = some l ∧
      first_fit_run.pool.alloc_size =
        ((l.filter fun x => decide (x.2.allocated = 1)).map fun x => x.2.alloc_record.size).sum ∧
      first_fit_run.pool.num_allocs = (l.filter fun x => decide (x.2.allocated = 1)).length ∧
      first_fit_run.pool.num_gaps = (l.filter fun x => decide (x.2.allocated = 0)).length ∧
      (∀ x ∈ l, x.2.allocated = 0 ∨ x.2.allocated = 1) ∧
      first_fit_run.pool.alloc_size ≤ first_fit_run.pool.total_size :=
  conservation 1024 alloc_policy.FIRST_FIT first_fit_run [2, 0] reachable_first_fit_run

/-! ## Allocation and release -/

theorem nodes_layout_indep (p p1 : Option Nat) (off : Nat) (v : List Seg) (q q1 : Option Nat) :
    (nodes p off v q).map layout = (nodes p1 off v q1).map layout := by
  rw [nodes_layout, nodes_layout]

theorem Inv.free_pos {m : pool_mgr_t} {live : List Nat} {v : List Seg} {gl : List gap_t}
    (h : Inv m live v gl) (ht : 0 < m.pool.total_size) {s : Seg} (hs : s ∈ v)
    (hf : s.al = false) : 0 < s.size := by
  rcases h.pos with hp | hp
  · exact hp s hs hf
  · omega

/-- The view after the segment allocated from a gap is freed again. -/
theorem freed_view_round_trip (pre post tl : List Seg) (h g s : Nat)
    (hpre : ∀ z ∈ pre.getLast?, z.al = true) (hpost : ∀ w ∈ post.head?, w.al = true)
    (htl : (tl = [] ∧ g = s) ∨ ∃ nw, tl = [⟨nw, g - s, false⟩] ∧ s < g) :
    (absorb_next s (tl ++ post)).1 = g ∧
      freed_view pre h s (tl ++ post) = pre ++ ⟨h, g, false⟩ :: post := by
  have key : absorb_next s (tl ++ post) = (g, post) := by
    rcases htl with ⟨rfl, rfl⟩ | ⟨nw, rfl, hlt⟩
    · cases post with
      | nil => rfl
      | cons t r =>
        have : t.al = true := hpost t (by simp)
        simp [absorb_next, this]
    · simp only [List.singleton_append, absorb_next, Bool.false_eq_true, if_false]
      rw [show s + (g - s) = g by omega]
  refine ⟨by rw [key], ?_⟩
  unfold freed_view
  rw [key, absorb_prev_of_alloc _ _ hpre]
  simp

/-- The round trip before the node heap grows: for every state `m` of `Reachable` and every size `s` for
which `mem_new_alloc` returns a handle `h`, the call of `mem_del_alloc` on `h`
right afterwards returns `ALLOC_OK`, `mem_inspect_pool` reports the same
sequence of (size, allocated) pairs as before the allocation, and
`num_allocs`, `num_gaps` and `alloc_size` have their old values. -/
theorem round_trip (size : Nat) (policy : alloc_policy) (m m1 : pool_mgr_t) (live : List Nat)
    (s h : Nat) (hr : Reachable size policy m live)
    (ha : mem_new_alloc m s = some (m1, some h)) :
    ∃ m2 segs n, mem_del_alloc m1 h = some (m2, alloc_status.ALLOC_OK) ∧
      mem_inspect_pool m = some (segs, n) ∧ mem_inspect_pool m2 = some (segs, n) ∧
      m2.pool.num_allocs = m.pool.num_allocs ∧ m2.pool.num_gaps = m.pool.num_gaps ∧
      m2.pool.alloc_size = m.pool.alloc_size := by
  obtain ⟨v, gl, hinv, -, -⟩ := reachable_inv hr
  obtain ⟨pre, g, post, tl, gl1, hv, hsz, htot, -, -, htl, hinv1, -, -⟩ :=
    alloc_spec m m1 live v gl s h hinv ha
  subst hv
  obtain ⟨-, -, hadj3, hadj4⟩ := no_adj_split hinv.no_adj rfl
  have hg : 0 < g := hinv.free_pos (by omega) (s := ⟨h, g, false⟩) (by simp) rfl
  obtain ⟨hsize, hview⟩ := freed_view_round_trip pre post tl h g s hadj3 hadj4 htl
  obtain ⟨-, hsome⟩ := del_spec m1 (h :: live) pre (tl ++ post) gl1 h s hinv1
  obtain ⟨m2, gl2, hdel, hinv2, -, -⟩ := hsome (by rw [hsize]; intro hc; omega)
  rw [hview] at hinv2
  refine ⟨m2, _, _, hdel, inspect_of_inv hinv, inspect_of_inv hinv2, ?_, ?_, ?_⟩
  · rw [hinv2.num_allocs, hinv.num_allocs]
  · rw [hinv2.core.num_gaps, hinv.core.num_gaps, hinv2.gl_length, hinv.gl_length]
  · rw [hinv2.alloc_size, hinv.alloc_size]

theorem round_trip_witness :
    ∃ m2 segs n, mem_del_alloc (after_alloc first_fit_run 150) 1 =
        some (m2, alloc_status.ALLOC_OK) ∧
      mem_inspect_pool first_fit_run = some (segs, n) ∧ mem_inspect_pool m2 = some (segs, n) ∧
      m2.pool.num_allocs = first_fit_run.pool.num_allocs ∧
      m2.pool.num_gaps = first_fit_run.pool.num_gaps ∧
      m2.pool.alloc_size = first_fit_run.pool.alloc_size :=
  round_trip 1024 alloc_policy.FIRST_FIT first_fit_run (after_alloc first_fit_run 150) [2, 0]
    150 1 reachable_first_fit_run (by rfl)

/-- Best fit before the node heap grows: for every `BEST_FIT` state of `Reachable` and
every size `s` for which `mem_new_alloc` returns a segment, the node chosen was
a free used segment of the list of size at least `s`, and no free segment of
size at least `s` was smaller. -/
theorem best_fit_optimal (size : Nat) (m m1 : pool_mgr_t) (live : List Nat) (s h : Nat)
    (hr : Reachable size alloc_policy.BEST_FIT m live)
    (ha : mem_new_alloc m s = some (m1, some h)) :
    ∃ l n, segment_list m = some l ∧ (h, n) ∈ l ∧ n.allocated = 0 ∧ n.used = 1 ∧
      s ≤ n.alloc_record.size ∧
      ∀ x ∈ l, x.2.allocated = 0 → s ≤ x.2.alloc_record.size →
        n.alloc_record.size ≤ x.2.alloc_record.size := by
  obtain ⟨v, gl, hinv, -, hpol⟩ := reachable_inv hr
  obtain ⟨pre, g, post, tl, gl1, hv, hsz, -, -, hbf, -, -, -, -⟩ :=
    alloc_spec m m1 live v gl s h hinv ha
  refine ⟨_,
    Seg.node ⟨h, g, false⟩ (lastIdx pre none) (0 + (pre.map Seg.size).sum) (hd post none),
    segment_list_of_inv hinv, ?_, ?_, ?_, ?_, ?_⟩
  · rw [hv, nodes_append]
    exact List.mem_append_right _ (List.mem_cons_self _ _)
  · rfl
  · rfl
  · exact hsz
  · intro x hx hxa hxs
    obtain ⟨t, ht, -, h2, -, h4⟩ := mem_nodes hx
    have hta : t.al = false := by
      cases hc : t.al
      · rfl
      · rw [hc] at h4; simp only [if_true] at h4; omega
    have := hbf hpol t ht hta (by omega)
    simp only [Seg.node]
    omega

/-- The 500-byte `BEST_FIT` scenario: after allocations of 100 and 100 bytes
and the release of the first, 50 bytes are placed at offset 0 in the 100-byte
gap, not in the 300-byte tail gap, and a 50-byte free segment at offset 50 is
left. -/
theorem best_fit_optimal_witness :
    (∃ l n, segment_list best_fit_run = some l ∧ (0, n) ∈ l ∧ n.allocated = 0 ∧ n.used = 1 ∧
      50 ≤ n.alloc_record.size ∧
      ∀ x ∈ l, x.2.allocated = 0 → 50 ≤ x.2.alloc_record.size →
        n.alloc_record.size ≤ x.2.alloc_record.size) ∧
    (segment_list best_fit_run).map (List.map layout) =
      some [(0, ⟨some 0, 100⟩, 1, 0), (1, ⟨some 100, 100⟩, 1, 1), (2, ⟨some 200, 300⟩, 1, 0)] ∧
    (mem_new_alloc best_fit_run 50).map Prod.snd = some (some 0) ∧
    (segment_list (after_alloc best_fit_run 50)).map (List.map layout) =
      some [(0, ⟨some 0, 50⟩, 1, 1), (3, ⟨some 50, 50⟩, 1, 0), (1, ⟨some 100, 100⟩, 1, 1),
        (2, ⟨some 200, 300⟩, 1, 0)] :=
  ⟨best_fit_optimal 500 best_fit_run (after_alloc best_fit_run 50) [1] 50 0
    reachable_best_fit_run (by rfl), by rfl, by rfl, by rfl⟩

/-- First fit before the node heap grows: for every `FIRST_FIT` state of `Reachable` and
every size `s` for which `mem_new_alloc` returns a segment, the segment chosen
is free, used and of size at least `s`, and no segment before it in the list
is; this holds also when it is the last node of the list. -/
theorem first_fit_selects_first (size : Nat) (m m1 : pool_mgr_t) (live : List Nat) (s h : Nat)
    (hr : Reachable size alloc_policy.FIRST_FIT m live)
    (ha : mem_new_alloc m s = some (m1, some h)) :
    ∃ pre n post, segment_list m = some (pre ++ (h, n) :: post) ∧ fits s n ∧
      ∀ x ∈ pre, ¬ fits s x.2 := by
  obtain ⟨v, gl, hinv, -, hpol⟩ := reachable_inv hr
  obtain ⟨pre, g, post, tl, gl1, hv, hsz, -, hff, -, -, -, -, -⟩ :=
    alloc_spec m m1 live v gl s h hinv ha
  refine ⟨nodes none 0 pre (some h),
    Seg.node ⟨h, g, false⟩ (lastIdx pre none) (0 + (pre.map Seg.size).sum) (hd post none),
    nodes (some h) (0 + (pre.map Seg.size).sum + g) post none, ?_, ?_, ?_⟩
  · rw [segment_list_of_inv hinv, hv, nodes_append]
    rfl
  · exact ⟨rfl, hsz, rfl⟩
  · intro x hx hfit
    obtain ⟨t, ht, -, h2, -, h4⟩ := mem_nodes hx
    have hta : t.al = false := by
      cases hc : t.al
      · rfl
      · rw [hc] at h4; simp only [if_true] at h4
        have := hfit.1; omega
    exact hff hpol t ht ⟨hta, by have := hfit.2.1; omega⟩

/-- In the pool with one allocation the node chosen next is the last node of
the list. -/
theorem first_fit_selects_first_witness :
    (∃ pre n post, segment_list (after_alloc (new_pool_mgr 1024 alloc_policy.FIRST_FIT) 100) =
        some (pre ++ (1, n) :: post) ∧ fits 200 n ∧ ∀ x ∈ pre, ¬ fits 200 x.2) ∧
    (segment_list (after_alloc (new_pool_mgr 1024 alloc_policy.FIRST_FIT) 100)).map
        (List.map layout) = some [(0, ⟨some 0, 100⟩, 1, 1), (1, ⟨some 100, 924⟩, 1, 0)] :=
  ⟨first_fit_selects_first 1024 (after_alloc (new_pool_mgr 1024 alloc_policy.FIRST_FIT) 100)
    (after_alloc (after_alloc (new_pool_mgr 1024 alloc_policy.FIRST_FIT) 100) 200) [0] 200 1
    (Reachable.alloc _ _ _ 100 0 (open_example 1024 alloc_policy.FIRST_FIT) (by rfl)) (by rfl),
   by rfl⟩

/-- The commit of an allocation that does not grow the node heap: when `mem_new_alloc (m, s)` returns
the node `h`, that node was a free used segment `n` of the list, of size
`g >= s` at offset `o`; afterwards it is allocated with size `s` at offset `o`,
`num_allocs` has grown by 1 and `alloc_size` by `s`.  If `g - s > 0`, a free
used segment of size `g - s` at offset `o + s`, in a slot that was not in the
list, follows it in the list and has an entry in the gap index, and `num_gaps`
is unchanged; if `g = s`, no segment is added and `num_gaps` has dropped by 1.
The segments before and after keep their slot, offset, size, flags and order. -/
theorem alloc_commit_post (size : Nat) (policy : alloc_policy) (m m1 : pool_mgr_t)
    (live : List Nat) (s h : Nat) (hr : Reachable size policy m live)
    (ha : mem_new_alloc m s = some (m1, some h)) :
    ∃ pre n post l1, segment_list m = some (pre ++ (h, n) :: post) ∧
      n.allocated = 0 ∧ n.used = 1 ∧ s ≤ n.alloc_record.size ∧
      segment_list m1 = some l1 ∧
      m1.pool.num_allocs = m.pool.num_allocs + 1 ∧
      m1.pool.alloc_size = m.pool.alloc_size + s ∧
      ((s < n.alloc_record.size ∧ ∃ nw ents,
          l1.map layout = pre.map layout ++ (h, ⟨n.alloc_record.mem, s⟩, 1, 1) ::
            (nw, ⟨n.alloc_record.mem.map (· + s), n.alloc_record.size - s⟩, 1, 0) ::
            post.map layout ∧
          (∀ x ∈ pre ++ (h, n) :: post, x.1 ≠ nw) ∧
          gap_entries m1 = some ents ∧ ⟨n.alloc_record.size - s, some nw⟩ ∈ ents ∧
          m1.pool.num_gaps = m.pool.num_gaps) ∨
       (s = n.alloc_record.size ∧
          l1.map layout = pre.map layout ++ (h, ⟨n.alloc_record.mem, s⟩, 1, 1) ::
            post.map layout ∧
          m1.pool.num_gaps + 1 = m.pool.num_gaps)) := by
  obtain ⟨v, gl, hinv, -, -⟩ := reachable_inv hr
  obtain ⟨pre, g, post, tl, gl1, hv, hsz, -, -, -, htl, hinv1, -, -⟩ :=
    alloc_spec m m1 live v gl s h hinv ha
  subst hv
  have hna : m1.pool.num_allocs = m.pool.num_allocs + 1 := by
    rw [hinv1.num_allocs, hinv.num_allocs]
    rcases htl with ⟨rfl, -⟩ | ⟨nw, rfl, -⟩
    · simp only [allocs_append, allocs_cons_free ⟨h, g, false⟩ post rfl,
        allocs_cons_alloc ⟨h, s, true⟩ _ rfl, List.nil_append, List.length_append,
        List.length_cons]
      omega
    · simp only [allocs_append, allocs_cons_free ⟨h, g, false⟩ post rfl,
        allocs_cons_alloc ⟨h, s, true⟩ _ rfl, allocs_cons_free ⟨nw, g - s, false⟩ [] rfl,
        allocs_nil, List.nil_append, List.length_append, List.length_cons]
      omega
  have has : m1.pool.alloc_size = m.pool.alloc_size + s := by
    rw [hinv1.alloc_size, hinv.alloc_size]
    rcases htl with ⟨rfl, -⟩ | ⟨nw, rfl, -⟩
    · simp only [allocs_append, allocs_cons_free ⟨h, g, false⟩ post rfl,
        allocs_cons_alloc ⟨h, s, true⟩ _ rfl, List.nil_append, List.map_append,
        List.map_cons, List.sum_append, List.sum_cons]
      omega
    · simp only [allocs_append, allocs_cons_free ⟨h, g, false⟩ post rfl,
        allocs_cons_alloc ⟨h, s, true⟩ _ rfl, allocs_cons_free ⟨nw, g - s, false⟩ [] rfl,
        allocs_nil, List.nil_append, List.map_append, List.map_cons, List.sum_append,
        List.sum_cons]
      omega
  have hng := hinv.core.num_gaps
  have hng1 := hinv1.core.num_gaps
  rw [hinv.gl_length] at hng
  rw [hinv1.gl_length] at hng1
  simp only [frees_append, frees_cons_free ⟨h, g, false⟩ post rfl,
    frees_cons_alloc ⟨h, s, true⟩ _ rfl, List.length_append, List.length_cons] at hng hng1
  refine ⟨nodes none 0 pre (some h),
    Seg.node ⟨h, g, false⟩ (lastIdx pre none) (0 + (pre.map Seg.size).sum) (hd post none),
    nodes (some h) (0 + (pre.map Seg.size).sum + g) post none, _, ?_, rfl, rfl, hsz,
    segment_list_of_inv hinv1, hna, has, ?_⟩
  · rw [segment_list_of_inv hinv, nodes_append]
    rfl
  · rw [nodes_append]
    simp only [nodes, List.map_append, List.map_cons]
    rcases htl with ⟨rfl, rfl⟩ | ⟨nw, rfl, hlt⟩
    · right
      refine ⟨rfl, ?_, ?_⟩
      · rw [nodes_layout_indep none none 0 pre _ (some h)]
        simp only [List.nil_append, layout, Seg.node]
        rfl
      · simp only [frees_nil, List.length_nil, Nat.zero_add] at hng1
        omega
    · left
      refine ⟨hlt, nw, gl1, ?_, ?_, gap_entries_of_inv hinv1, ?_, ?_⟩
      · rw [nodes_layout_indep none none 0 pre _ (some h)]
        simp only [List.singleton_append, nodes, List.map_cons, layout, Seg.node,
          Option.map_some', List.append_eq, List.nil_append]
        rw [nodes_layout_indep (some nw) (some h) _ post none none,
          show 0 + (List.map Seg.size pre).sum + s + (g - s) =
            0 + (List.map Seg.size pre).sum + g by omega]
        rfl
      · intro x hx hxn
        have hx1 : x.1 ∈ (pre ++ ⟨h, g, false⟩ :: post).map Seg.idx := by
          rw [← nodes_fst none 0 _ none, nodes_append]
          exact List.mem_map_of_mem _ hx
        have hnd := hinv1.core.nodup
        simp only [List.map_append, List.map_cons, List.singleton_append, List.nodup_append,
          List.nodup_cons, List.mem_append, List.mem_cons, not_or] at hnd hx1
        rw [hxn] at hx1
        rcases hx1 with hx1 | hx1 | hx1
        · exact hnd.2.2 hx1 (by simp)
        · exact hnd.2.1.1.1 hx1.symm
        · exact hnd.2.1.2.1 hx1
      · apply hinv1.perm.mem_iff.2
        rw [mem_frees]
        exact ⟨⟨nw, g - s, false⟩, by simp, rfl, rfl⟩
      · simp only [frees_cons_free ⟨nw, g - s, false⟩ [] rfl, frees_nil, List.length_cons,
          List.length_nil] at hng1
        omega

theorem alloc_commit_post_witness :
    ∃ pre n post l1, segment_list first_fit_run = some (pre ++ (1, n) :: post) ∧
      n.allocated = 0 ∧ n.used = 1 ∧ 150 ≤ n.alloc_record.size ∧
      segment_list (after_alloc first_fit_run 150) = some l1 ∧
      (after_alloc first_fit_run 150).pool.num_allocs = first_fit_run.pool.num_allocs + 1 ∧
      (after_alloc first_fit_run 150).pool.alloc_size = first_fit_run.pool.alloc_size + 150 ∧
      ((150 < n.alloc_record.size ∧ ∃ nw ents,
          l1.map layout = pre.map layout ++ (1, ⟨n.alloc_record.mem, 150⟩, 1, 1) ::
            (nw, ⟨n.alloc_record.mem.map (· + 150), n.alloc_record.size - 150⟩, 1, 0) ::
            post.map layout ∧
          (∀ x ∈ pre ++ (1, n) :: post, x.1 ≠ nw) ∧
          gap_entries (after_alloc first_fit_run 150) = some ents ∧
          ⟨n.alloc_record.size - 150, some nw⟩ ∈ ents ∧
          (after_alloc first_fit_run 150).pool.num_gaps = first_fit_run.pool.num_gaps) ∨
       (150 = n.alloc_record.size ∧
          l1.map layout = pre.map layout ++ (1, ⟨n.alloc_record.mem, 150⟩, 1, 1) ::
            post.map layout ∧
          (after_alloc first_fit_run 150).pool.num_gaps + 1 = first_fit_run.pool.num_gaps)) :=
  alloc_commit_post 1024 alloc_policy.FIRST_FIT first_fit_run (after_alloc first_fit_run 150)
    [2, 0] 150 1 reachable_first_fit_run (by rfl)

/-- C9 at the failing input: in the 1024-byte `FIRST_FIT` pool with
allocations of 0 and 10 bytes, a reachable state, node 0 is an allocated
segment of size 0 between the start of the pool and an allocated segment, its
handle is live, and `mem_del_alloc` on it does not return: the assertion
`size > 0` of `_mem_add_to_gap_ix` fails. -/
theorem free_zero_size_faults :
    Reachable 1024 alloc_policy.FIRST_FIT zero_size_run [1, 0] ∧
    (segment_list zero_size_run).map (List.map layout) =
      some [(0, ⟨some 0, 0⟩, 1, 1), (1, ⟨some 0, 10⟩, 1, 1), (2, ⟨some 10, 1014⟩, 1, 0)] ∧
    mem_del_alloc zero_size_run 0 = none ∧
    _mem_add_to_gap_ix (after_alloc (new_pool_mgr 1024 alloc_policy.FIRST_FIT) 0) 0 0 = none :=
  ⟨reachable_zero_size_run, by rfl, by rfl, by rfl⟩

/-- C10, admission check: `mem_new_alloc` returns `NULL` and leaves the pool
as it is whenever `num_gaps == 0`, or `size >= total_size`, or
`size >= total_size - alloc_size` (the `size_t` difference the code computes,
which is the plain difference when `alloc_size <= total_size`); a freshly
opened pool rejects a request for its whole size. -/
theorem admission_check (m : pool_mgr_t) (size : Nat)
    (h : m.pool.num_gaps = 0 ∨ m.pool.total_size ≤ size ∨
      sub_size_t m.pool.total_size m.pool.alloc_size ≤ size ∨
      (m.pool.alloc_size ≤ m.pool.total_size ∧
        m.pool.total_size - m.pool.alloc_size ≤ size)) :
    mem_new_alloc m size = some (m, none) ∧
    ∀ (g g1 : globals) (addr : Nat) (policy : alloc_policy) (mgr : pool_mgr_t),
      mem_pool_open g addr size policy = some (g1, some mgr) →
      mem_new_alloc mgr size = some (mgr, none) := by
  constructor
  · unfold mem_new_alloc
    by_cases h1 : m.pool.num_gaps = 0
    · simp [h1]
    · rw [if_neg h1]
      have h2 : m.pool.total_size ≤ size ∨
          sub_size_t m.pool.total_size m.pool.alloc_size ≤ size := by
        rcases h with h | h | h | ⟨h, h'⟩
        · exact absurd h h1
        · exact Or.inl h
        · exact Or.inr h
        · right; rw [sub_size_t_of_le h]; exact h'
      rw [if_pos h2]
  · intro g g1 addr policy mgr hopen
    rw [mem_pool_open_mgr hopen]
    unfold mem_new_alloc
    simp [new_pool_mgr]

theorem admission_check_witness :
    mem_new_alloc (new_pool_mgr 1024 alloc_policy.BEST_FIT) 1024 =
      some (new_pool_mgr 1024 alloc_policy.BEST_FIT, none) ∧
    ∀ (g g1 : globals) (addr : Nat) (policy : alloc_policy) (mgr : pool_mgr_t),
      mem_pool_open g addr 1024 policy = some (g1, some mgr) →
      mem_new_alloc mgr 1024 = some (mgr, none) :=
  admission_check (new_pool_mgr 1024 alloc_policy.BEST_FIT) 1024 (Or.inr (Or.inl (by decide)))

/-! ## When `mem_del_alloc` returns -/

theorem nodes_getLast (p : Option Nat) (off : Nat) (v : List Seg) (q : Option Nat) :
    (nodes p off v q).getLast?.map (fun x => x.2.allocated) =
      v.getLast?.map fun s => if s.al then 1 else 0 := by
  rcases List.eq_nil_or_concat v with rfl | ⟨r, z, rfl⟩
  · rfl
  · rw [List.concat_eq_append, nodes_append]
    simp [nodes, Seg.node]

theorem nodes_head (p : Option Nat) (off : Nat) (v : List Seg) (q : Option Nat) :
    (nodes p off v q).head?.map (fun x => x.2.allocated) =
      v.head?.map fun s => if s.al then 1 else 0 := by
  cases v with
  | nil => rfl
  | cons s r => simp [nodes, Seg.node]

theorem allocs_absorb_prev (pre : List Seg) (x : Seg) (hx : x.al = false) :
    allocs (absorb_prev pre x) = allocs pre := by
  rcases List.eq_nil_or_concat pre with rfl | ⟨r, p, rfl⟩
  · simp [absorb_prev, allocs, hx]
  · rw [List.concat_eq_append, absorb_prev_concat]
    cases hp : p.al
    · simp [allocs, hp]
    · simp [allocs, hp, hx]

theorem allocs_absorb_next (sz : Nat) (post : List Seg) :
    allocs (absorb_next sz post).2 = allocs post := by
  cases post with
  | nil => rfl
  | cons t r =>
    cases ht : t.al
    · simp [absorb_next, allocs, ht]
    · simp [absorb_next, ht]

/-- The outcome of `mem_del_alloc` on a live handle `h` of a reachable pool:
the node `h` is an allocated segment of the list; the call does not return
exactly when that segment has size 0 and neither list neighbour is free;
otherwise it returns `ALLOC_OK`, the state is reachable again, `num_allocs`
has dropped by 1 and `alloc_size` by the size of the segment. -/
theorem free_returns_iff (size : Nat) (policy : alloc_policy) (m : pool_mgr_t)
    (live : List Nat) (h : Nat) (hr : Reachable size policy m live) (hh : h ∈ live) :
    ∃ pre n post, segment_list m = some (pre ++ (h, n) :: post) ∧ n.allocated = 1 ∧
      (mem_del_alloc m h = none ↔ n.alloc_record.size = 0 ∧
        (∀ x ∈ pre.getLast?, x.2.allocated = 1) ∧ ∀ x ∈ post.head?, x.2.allocated = 1) ∧
      (mem_del_alloc m h ≠ none →
        ∃ m1, mem_del_alloc m h = some (m1, alloc_status.ALLOC_OK) ∧
          Reachable size policy m1 (live.erase h) ∧
          m1.pool.num_allocs + 1 = m.pool.num_allocs ∧
          m1.pool.alloc_size + n.alloc_record.size = m.pool.alloc_size) := by
  obtain ⟨v, gl, hinv, -, -⟩ := reachable_inv hr
  obtain ⟨x, hx, hxi, hxa⟩ := (hinv.live_iff h).1 hh
  obtain ⟨pre, post, rfl⟩ := List.append_of_mem hx
  obtain ⟨xi, sz, xa⟩ := x
  simp only at hxi hxa
  subst hxi hxa
  have hpos : ∀ s ∈ pre ++ ⟨xi, sz, true⟩ :: post, s.al = false → 0 < s.size := by
    rcases hinv.pos with hp | ⟨-, hl⟩
    · exact hp
    · rw [hl] at hh; cases hh
  obtain ⟨hnone, hsome⟩ := del_spec m live pre post gl xi sz hinv
  have hcond : ((absorb_next sz post).1 = 0 ∧ ∀ z ∈ pre.getLast?, z.al = true) ↔
      (sz = 0 ∧ (∀ z ∈ pre.getLast?, z.al = true) ∧ ∀ w ∈ post.head?, w.al = true) := by
    cases post with
    | nil => simp [absorb_next]
    | cons t r =>
      cases ht : t.al
      · have := hpos t (by simp) ht
        simp only [absorb_next, ht, Bool.false_eq_true, if_false, List.head?_cons,
          Option.mem_def, Option.some.injEq, forall_eq']
        constructor
        · rintro ⟨h1, -⟩; omega
        · rintro ⟨-, -, h3⟩; cases h3
      · simp [absorb_next, ht]
  have hlast : (∀ x ∈ (nodes none 0 pre (some xi)).getLast?, x.2.allocated = 1) ↔
      ∀ z ∈ pre.getLast?, z.al = true := by
    have := nodes_getLast none 0 pre (some xi)
    cases h1 : (nodes none 0 pre (some xi)).getLast? <;> cases h2 : pre.getLast? <;>
      rw [h1, h2] at this <;> simp at this ⊢
    rename_i a b
    rw [this]
    cases b.al <;> simp
  have hhead : (∀ x ∈ (nodes (some xi) (0 + (pre.map Seg.size).sum + sz) post none).head?,
      x.2.allocated = 1) ↔ ∀ w ∈ post.head?, w.al = true := by
    have := nodes_head (some xi) (0 + (pre.map Seg.size).sum + sz) post none
    cases h1 : (nodes (some xi) (0 + (pre.map Seg.size).sum + sz) post none).head? <;>
      cases h2 : post.head? <;> rw [h1, h2] at this <;> simp at this ⊢
    rename_i a b
    rw [this]
    cases b.al <;> simp
  refine ⟨nodes none 0 pre (some xi),
    Seg.node ⟨xi, sz, true⟩ (lastIdx pre none) (0 + (pre.map Seg.size).sum) (hd post none),
    nodes (some xi) (0 + (pre.map Seg.size).sum + sz) post none, ?_, rfl, ?_, ?_⟩
  · rw [segment_list_of_inv hinv, nodes_append]
    rfl
  · rw [hlast, hhead]
    constructor
    · intro hn
      by_contra hc
      obtain ⟨m1, gl1, hdel, -⟩ := hsome (fun h1 => hc (hcond.1 h1))
      rw [hdel] at hn
      cases hn
    · intro hc
      exact hnone (hcond.2 hc)
  · intro hne
    have hc : ¬ ((absorb_next sz post).1 = 0 ∧ ∀ z ∈ pre.getLast?, z.al = true) :=
      fun h1 => hne (hnone h1)
    obtain ⟨m1, gl1, hdel, hinv1, -, -⟩ := hsome hc
    refine ⟨m1, hdel, Reachable.del m m1 live xi hr hh hdel, ?_, ?_⟩
    · rw [hinv1.num_allocs, hinv.num_allocs]
      simp only [freed_view, allocs_append, allocs_absorb_prev pre ⟨xi, (absorb_next sz post).1, false⟩ rfl, allocs_absorb_next,
        allocs_cons_alloc ⟨xi, sz, true⟩ post rfl, List.length_append, List.length_cons]
      omega
    · rw [hinv1.alloc_size, hinv.alloc_size]
      simp only [freed_view, allocs_append, allocs_absorb_prev pre ⟨xi, (absorb_next sz post).1, false⟩ rfl, allocs_absorb_next,
        allocs_cons_alloc ⟨xi, sz, true⟩ post rfl, List.map_append, List.map_cons,
        List.sum_append, List.sum_cons, Seg.node]
      omega

theorem free_returns_iff_witness :
    ∃ pre n post, segment_list first_fit_run = some (pre ++ (2, n) :: post) ∧
      n.allocated = 1 ∧
      (mem_del_alloc first_fit_run 2 = none ↔ n.alloc_record.size = 0 ∧
        (∀ x ∈ pre.getLast?, x.2.allocated = 1) ∧ ∀ x ∈ post.head?, x.2.allocated = 1) ∧
      (mem_del_alloc first_fit_run 2 ≠ none →
        ∃ m1, mem_del_alloc first_fit_run 2 = some (m1, alloc_status.ALLOC_OK) ∧
          Reachable 1024 alloc_policy.FIRST_FIT m1 ([2, 0].erase 2) ∧
          m1.pool.num_allocs + 1 = first_fit_run.pool.num_allocs ∧
          m1.pool.alloc_size + n.alloc_record.size = first_fit_run.pool.alloc_size) :=
  free_returns_iff 1024 alloc_policy.FIRST_FIT first_fit_run [2, 0] 2 reachable_first_fit_run
    (by decide)

/-! ## Sequences of calls and the registry -/

theorem run_calls_reachable (size : Nat) (policy : alloc_policy) (cs : List call)
    (m m1 : pool_mgr_t) (live live1 : List Nat) (hr : Reachable size policy m live)
    (h : run_calls cs m live = some (m1, live1)) : Reachable size policy m1 live1 := by
  induction cs generalizing m live with
  | nil =>
    simp only [run_calls, Option.some.injEq, Prod.mk.injEq] at h
    obtain ⟨rfl, rfl⟩ := h
    exact hr
  | cons c r ih =>
    cases c with
    | new_alloc sz =>
      simp only [run_calls] at h
      cases ha : mem_new_alloc m sz with
      | none => rw [ha] at h; cases h
      | some x =>
        obtain ⟨m2, res⟩ := x
        rw [ha] at h
        cases res with
        | none => exact ih m2 live (Reachable.alloc_null m m2 live sz hr ha) h
        | some hdl => exact ih m2 (hdl :: live) (Reachable.alloc m m2 live sz hdl hr ha) h
    | del_alloc hdl =>
      simp only [run_calls] at h
      by_cases hmem : hdl ∈ live
      · rw [if_pos hmem] at h
        cases hd : mem_del_alloc m hdl with
        | none => rw [hd] at h; cases h
        | some x =>
          obtain ⟨m2, st⟩ := x
          rw [hd] at h
          cases st with
          | ALLOC_OK => exact ih m2 (live.erase hdl) (Reachable.del m m2 live hdl hr hmem hd) h
          | ALLOC_FAIL => cases h
          | ALLOC_CALLED_AGAIN => cases h
          | ALLOC_NOT_FREED => cases h
      · rw [if_neg hmem] at h; cases h

theorem sum_frees_allocs (v : List Seg) :
    (v.map Seg.size).sum =
      ((allocs v).map Seg.size).sum + ((frees v).map gap_t.size).sum := by
  induction v with
  | nil => rfl
  | cons s r ih =>
    cases hs : s.al
    · rw [allocs_cons_free s r hs, frees_cons_free s r hs]
      simp only [List.map_cons, List.sum_cons, ih, Seg.gap]
      omega
    · rw [allocs_cons_alloc s r hs, frees_cons_alloc s r hs]
      simp only [List.map_cons, List.sum_cons, ih]
      omega

theorem find_node_ptr_slot (heap : List (Option node_t)) (i fuel cur : Nat) :
    find_node_ptr heap (node_ptr.slot i) fuel cur = find_node heap i fuel cur := by
  induction fuel generalizing cur with
  | zero => rfl
  | succ k ih =>
    simp only [find_node_ptr, find_node]
    congr 1
    funext n
    cases n.next with
    | none => rfl
    | some nx =>
      simp only [ne_eq, node_ptr.slot.injEq, ih]

theorem mem_del_alloc_ptr_slot (pool : pool_mgr_t) (i : Nat) :
    mem_del_alloc_ptr pool (node_ptr.slot i) = mem_del_alloc pool i := by
  unfold mem_del_alloc_ptr mem_del_alloc
  simp only [find_node_ptr_slot]

/-! ## Rejected and failed allocations -/

/-- A request of at least the free bytes of a reachable pool is rejected by
the admission check. -/
theorem free_bytes_rejected {m : pool_mgr_t} {live : List Nat} {v : List Seg}
    {gl : List gap_t} (hinv : Inv m live v gl) (s : Nat)
    (hs : ((frees v).map gap_t.size).sum ≤ s) : mem_new_alloc m s = some (m, none) := by
  have h1 := sum_frees_allocs v
  rw [hinv.core.total, ← hinv.alloc_size] at h1
  unfold mem_new_alloc
  by_cases h0 : m.pool.num_gaps = 0
  · rw [if_pos h0]
  · rw [if_neg h0, if_pos]
    right
    rw [sub_size_t_of_le (by omega)]
    omega

/-- C11 as the code has it: in every pool state reached by calls none of which
grows the node heap (the states of `Reachable`, in which `node_heap` still
points at the first block) whose list has exactly one free segment, a request
of exactly the size of that segment, the largest and only gap, is rejected:
`mem_new_alloc` returns `NULL` and leaves the pool as it is. -/
theorem tight_gap_rejected (size : Nat) (policy : alloc_policy) (m : pool_mgr_t)
    (live : List Nat) (l : List (Nat × node_t)) (x : Nat × node_t)
    (hr : Reachable size policy m live) (hl : segment_list m = some l)
    (hx : (l.filter fun y => decide (y.2.allocated = 0)) = [x]) :
    node_heap_ptr m = 0 ∧ mem_new_alloc m x.2.alloc_record.size = some (m, none) := by
  obtain ⟨v, gl, hinv, -, -⟩ := reachable_inv hr
  rw [segment_list_of_inv hinv, Option.some.injEq] at hl
  subst hl
  refine ⟨hinv.core.heap_ptr, ?_⟩
  apply free_bytes_rejected hinv
  rw [← nodes_filter_free none 0 v none, hx]
  simp

theorem tight_gap_rejected_witness :
    node_heap_ptr (after_alloc (new_pool_mgr 1024 alloc_policy.FIRST_FIT) 100) = 0 ∧
    mem_new_alloc (after_alloc (new_pool_mgr 1024 alloc_policy.FIRST_FIT) 100) 924 =
      some (after_alloc (new_pool_mgr 1024 alloc_policy.FIRST_FIT) 100, none) :=
  tight_gap_rejected 1024 alloc_policy.FIRST_FIT
    (after_alloc (new_pool_mgr 1024 alloc_policy.FIRST_FIT) 100) [0]
    [(0, ⟨⟨some 0, 100⟩, 1, 1, some 1, none⟩), (1, ⟨⟨some 100, 924⟩, 1, 0, none, some 0⟩)]
    (1, ⟨⟨some 100, 924⟩, 1, 0, none, some 0⟩)
    (Reachable.alloc _ _ _ 100 0 (open_example 1024 alloc_policy.FIRST_FIT) (by rfl))
    (by rfl) (by rfl)

/-- C11 fails as stated: the reachable 1024-byte `FIRST_FIT` pool with
segments of 100 (allocated), 200 (free), 300 (allocated) and 424 bytes (free)
has the gaps 200 and 424, and a request of 424 bytes, the size of its largest
gap, returns node 3, which becomes an allocation of 424 bytes. -/
theorem tight_gap_accepted :
    Reachable 1024 alloc_policy.FIRST_FIT first_fit_run [2, 0] ∧
    (segment_list first_fit_run).map (List.map layout) =
      some [(0, ⟨some 0, 100⟩, 1, 1), (1, ⟨some 100, 200⟩, 1, 0),
        (2, ⟨some 300, 300⟩, 1, 1), (3, ⟨some 600, 424⟩, 1, 0)] ∧
    gap_entries first_fit_run = some [⟨200, some 1⟩, ⟨424, some 3⟩] ∧
    (mem_new_alloc first_fit_run 424).map Prod.snd = some (some 3) ∧
    (segment_list (after_alloc first_fit_run 424)).map (List.map layout) =
      some [(0, ⟨some 0, 100⟩, 1, 1), (1, ⟨some 100, 200⟩, 1, 0),
        (2, ⟨some 300, 300⟩, 1, 1), (3, ⟨some 600, 424⟩, 1, 1)] :=
  ⟨reachable_first_fit_run, by rfl, by rfl, by rfl, by rfl⟩

theorem reachable_after_calls (size : Nat) (policy : alloc_policy) (cs : List call)
    (h : (run_calls cs (new_pool_mgr size policy) []).isSome = true) :
    Reachable size policy (after_calls size policy cs).1 (after_calls size policy cs).2 := by
  unfold after_calls
  cases hrun : run_calls cs (new_pool_mgr size policy) [] with
  | none => rw [hrun] at h; cases h
  | some r =>
    exact run_calls_reachable size policy cs _ r.1 [] r.2 (open_example size policy) hrun

theorem reachable_fragmented :
    Reachable 1024 alloc_policy.FIRST_FIT fragmented
      (after_calls 1024 alloc_policy.FIRST_FIT fragmented_calls).2 :=
  reachable_after_calls 1024 alloc_policy.FIRST_FIT fragmented_calls (by rfl)

theorem resize_store_zero (g : globals) (h : g.pool_store_size = 0) :
    _mem_resize_pool_store g = g := by
  unfold _mem_resize_pool_store fill_exceeded
  simp [h]

theorem open_of_store (g : globals) (addr size : Nat) (policy : alloc_policy)
    (store : List (Option (Option Nat))) (hs : g.pool_store = some store)
    (h0 : g.pool_store_size = 0) (hl : 0 < store.length) :
    mem_pool_open g addr size policy =
      some ({ g with pool_store := some (store.set 0 (some (some addr))) },
        some (new_pool_mgr size policy)) := by
  unfold mem_pool_open
  simp only [hs, resize_store_zero g h0, h0, wr, hl, if_true, Option.bind_eq_bind,
    Option.some_bind]

theorem open_of_none (g : globals) (addr size : Nat) (policy : alloc_policy)
    (hs : g.pool_store = none) : mem_pool_open g addr size policy = some (g, none) := by
  unfold mem_pool_open
  simp only [hs]

theorem free_loop_ok (store : List (Option (Option Nat))) (k i : Nat)
    (h : ∀ j, i ≤ j → j < i + k → ∃ c, rd store j = some c) : free_loop store k i = some () := by
  induction k generalizing i with
  | zero => rfl
  | succ k ih =>
    obtain ⟨c, hc⟩ := h i (Nat.le_refl _) (by omega)
    simp only [free_loop, hc, Option.bind_eq_bind, Option.some_bind]
    exact ih (i + 1) (fun j h1 h2 => h j (by omega) (by omega))

/-- In every registry state `pool_store_size` is 0, no function adding to it,
and the store, when there is one, has its 20 initial cells, all of them
written. -/
theorem registry_inv (g : globals) (h : Registry g) :
    g.pool_store_size = 0 ∧ ∀ store, g.pool_store = some store →
      store.length = MEM_POOL_STORE_INIT_CAPACITY ∧
      ∀ i, i < MEM_POOL_STORE_INIT_CAPACITY → ∃ c, rd store i = some c := by
  induction h with
  | start => exact ⟨rfl, fun store hs => by cases hs⟩
  | init g _ ih =>
    unfold mem_init
    cases hs : g.pool_store with
    | none =>
      refine ⟨rfl, ?_⟩
      intro store hst
      simp only [Option.some.injEq] at hst
      subst hst
      refine ⟨List.length_replicate _ _, fun i hi => ⟨none, ?_⟩⟩
      rw [rd_replicate, if_pos hi]
    | some st => simpa [hs] using ih
  | free g g1 st _ hf ih =>
    unfold mem_free at hf
    cases hs : g.pool_store with
    | none =>
      simp only [hs, Option.some.injEq, Prod.mk.injEq] at hf
      rw [← hf.1]; exact ih
    | some store =>
      simp only [hs, Option.bind_eq_bind] at hf
      rw [Option.bind_eq_some] at hf
      obtain ⟨_, -, hf⟩ := hf
      simp only [Option.some.injEq, Prod.mk.injEq] at hf
      rw [← hf.1]
      exact ⟨rfl, fun store hst => by cases hst⟩
  | opened g g1 addr size policy r _ ho ih =>
    cases hs : g.pool_store with
    | none =>
      rw [open_of_none g addr size policy hs] at ho
      simp only [Option.some.injEq, Prod.mk.injEq] at ho
      rw [← ho.1]; exact ih
    | some store =>
      obtain ⟨hlen, hcells⟩ := ih.2 store hs
      rw [open_of_store g addr size policy store hs ih.1
        (by rw [hlen]; simp [MEM_POOL_STORE_INIT_CAPACITY])] at ho
      simp only [Option.some.injEq, Prod.mk.injEq] at ho
      rw [← ho.1]
      refine ⟨ih.1, ?_⟩
      intro store1 hst
      simp only [Option.some.injEq] at hst
      subst hst
      refine ⟨by rw [List.length_set, hlen], fun i hi => ?_⟩
      obtain ⟨c0, hc0⟩ := hcells 0 (by simp [MEM_POOL_STORE_INIT_CAPACITY])
      rw [rd_set _ i hc0]
      by_cases hi0 : i = 0
      · exact ⟨_, by rw [if_pos hi0]⟩
      · rw [if_neg hi0]; exact hcells i hi
  | closed g g1 pool r st _ hc ih =>
    unfold mem_pool_close at hc
    cases pool with
    | none =>
      simp only [Option.some.injEq, Prod.mk.injEq] at hc
      rw [← hc.1]; exact ih
    | some p =>
      obtain ⟨addr, mgr⟩ := p
      simp only at hc
      by_cases h1 : mgr.pool.num_gaps ≠ 1
      · rw [if_pos h1] at hc
        simp only [Option.some.injEq, Prod.mk.injEq] at hc
        rw [← hc.1]; exact ih
      · rw [if_neg h1] at hc
        by_cases h2 : mgr.pool.num_allocs ≠ 0
        · rw [if_pos h2] at hc
          simp only [Option.some.injEq, Prod.mk.injEq] at hc
          rw [← hc.1]; exact ih
        · rw [if_neg h2, ih.1] at hc
          simp only [close_loop, Option.bind_eq_bind, Option.some_bind, Option.some.injEq,
            Prod.mk.injEq] at hc
          rw [← hc.1]; exact ⟨rfl, ih.2⟩

theorem registry_init_globals : Registry init_globals :=
  Registry.init _ Registry.start

/-- C15, open contract: in every registry state, `mem_pool_open` returns
`NULL` when the registry is not initialised; when it is, the call returns a
pool with the given policy, `total_size == size`, `alloc_size == 0`,
`num_allocs == 0`, `num_gaps == 1` and `used_nodes == 1`, whose `node_heap[0]`
is a used free segment of `size` bytes at offset 0 without neighbours, whose
`gap_ix[0]` is `(size, node_heap)` and whose other gap-index cells are
`(0, NULL)`, and the address of the manager is in a slot of the store. -/
theorem open_contract (g : globals) (addr size : Nat) (policy : alloc_policy)
    (hg : Registry g) :
    (g.pool_store = none → mem_pool_open g addr size policy = some (g, none)) ∧
    (g.pool_store ≠ none → ∃ g1 mgr store,
      mem_pool_open g addr size policy = some (g1, some mgr) ∧
      mgr.pool.policy = policy ∧ mgr.pool.total_size = size ∧ mgr.pool.alloc_size = 0 ∧
      mgr.pool.num_allocs = 0 ∧ mgr.pool.num_gaps = 1 ∧ mgr.used_nodes = 1 ∧
      mgr.pool.mem = some 0 ∧
      rd mgr.node_heap 0 = some { alloc_record := { mem := some 0, size := size }, used := 1,
                                  allocated := 0, next := none, prev := none } ∧
      rd mgr.gap_ix 0 = some ⟨size, some 0⟩ ∧
      mgr.gap_ix.length = mgr.gap_ix_capacity ∧
      (∀ i, 0 < i → i < mgr.gap_ix_capacity → rd mgr.gap_ix i = some ⟨0, none⟩) ∧
      g1.pool_store = some store ∧ some (some addr) ∈ store) := by
  obtain ⟨h0, hstore⟩ := registry_inv g hg
  refine ⟨open_of_none g addr size policy, ?_⟩
  intro hne
  cases hs : g.pool_store with
  | none => exact absurd hs hne
  | some store =>
    obtain ⟨hlen, -⟩ := hstore store hs
    have hpos : 0 < store.length := by rw [hlen]; simp [MEM_POOL_STORE_INIT_CAPACITY]
    refine ⟨_, _, _, open_of_store g addr size policy store hs h0 hpos, rfl, rfl, rfl, rfl, rfl,
      rfl, rfl, rfl, rfl, rfl, ?_, rfl, ?_⟩
    · intro i hi hcap
      obtain ⟨j, rfl⟩ : ∃ j, i = j + 1 := ⟨i - 1, by omega⟩
      simp only [new_pool_mgr] at hcap ⊢
      rw [rd_cons_succ, rd_replicate, if_pos (by omega)]
    · exact List.mem_iff_get.2 ⟨⟨0, by rw [List.length_set]; exact hpos⟩, by simp⟩

theorem open_contract_witness :
    (init_globals.pool_store = none →
      mem_pool_open init_globals 1 1024 alloc_policy.BEST_FIT = some (init_globals, none)) ∧
    (init_globals.pool_store ≠ none → ∃ g1 mgr store,
      mem_pool_open init_globals 1 1024 alloc_policy.BEST_FIT = some (g1, some mgr) ∧
      mgr.pool.policy = alloc_policy.BEST_FIT ∧ mgr.pool.total_size = 1024 ∧
      mgr.pool.alloc_size = 0 ∧
      mgr.pool.num_allocs = 0 ∧ mgr.pool.num_gaps = 1 ∧ mgr.used_nodes = 1 ∧
      mgr.pool.mem = some 0 ∧
      rd mgr.node_heap 0 = some { alloc_record := { mem := some 0, size := 1024 }, used := 1,
                                  allocated := 0, next := none, prev := none } ∧
      rd mgr.gap_ix 0 = some ⟨1024, some 0⟩ ∧
      mgr.gap_ix.length = mgr.gap_ix_capacity ∧
      (∀ i, 0 < i → i < mgr.gap_ix_capacity → rd mgr.gap_ix i = some ⟨0, none⟩) ∧
      g1.pool_store = some store ∧ some (some 1) ∈ store) :=
  open_contract init_globals 1 1024 alloc_policy.BEST_FIT registry_init_globals

/-- C16, registry lifecycle: in every registry state, `mem_init` returns
`ALLOC_OK` and leaves a store of 20 empty slots, with capacity 20 and size 0,
when the registry is not initialised, and returns `ALLOC_CALLED_AGAIN` without
a change when it is; `mem_free` returns `ALLOC_OK` and leaves the registry
uninitialised when it is initialised, and returns its error status, which is
`ALLOC_CALLED_AGAIN` too, without a change when it is not.  So from an
uninitialised registry a second `mem_init` fails, `mem_free` fails, and
`mem_init`, `mem_free`, `mem_init` succeed. -/
theorem registry_lifecycle (g : globals) (hg : Registry g) :
    (g.pool_store = none →
      mem_init g =
        ({ pool_store := some (List.replicate MEM_POOL_STORE_INIT_CAPACITY (some none))
           pool_store_size := 0
           pool_store_capacity := MEM_POOL_STORE_INIT_CAPACITY }, alloc_status.ALLOC_OK)) ∧
    (g.pool_store ≠ none → mem_init g = (g, alloc_status.ALLOC_CALLED_AGAIN)) ∧
    (g.pool_store ≠ none →
      ∃ g1, mem_free g = some (g1, alloc_status.ALLOC_OK) ∧ g1.pool_store = none) ∧
    (g.pool_store = none → mem_free g = some (g, alloc_status.ALLOC_CALLED_AGAIN)) ∧
    (g.pool_store = none →
      (mem_init (mem_init g).1).2 = alloc_status.ALLOC_CALLED_AGAIN ∧
      ∃ g1, mem_free (mem_init g).1 = some (g1, alloc_status.ALLOC_OK) ∧
        (mem_init g1).2 = alloc_status.ALLOC_OK) := by
  have hinit_none : g.pool_store = none →
      mem_init g =
        ({ pool_store := some (List.replicate MEM_POOL_STORE_INIT_CAPACITY (some none))
           pool_store_size := 0
           pool_store_capacity := MEM_POOL_STORE_INIT_CAPACITY }, alloc_status.ALLOC_OK) := by
    intro h; unfold mem_init; simp only [h]
  have hfree_some : ∀ g2 : globals, Registry g2 → g2.pool_store ≠ none →
      ∃ g1, mem_free g2 = some (g1, alloc_status.ALLOC_OK) ∧ g1.pool_store = none := by
    intro g2 hg2 hne
    cases hs : g2.pool_store with
    | none => exact absurd hs hne
    | some store =>
      obtain ⟨-, hcells⟩ := (registry_inv g2 hg2).2 store hs
      have := free_loop_ok store MEM_POOL_STORE_INIT_CAPACITY 0
        (fun j _ hj => hcells j (by omega))
      refine ⟨{ g2 with pool_store := none, pool_store_size := 0 }, ?_, rfl⟩
      unfold mem_free
      simp only [hs, this, Option.bind_eq_bind, Option.some_bind]
  refine ⟨hinit_none, ?_, hfree_some g hg, ?_, ?_⟩
  · intro hne
    unfold mem_init
    cases hs : g.pool_store with
    | none => exact absurd hs hne
    | some store => rfl
  · intro h; unfold mem_free; simp only [h]
  · intro h
    rw [hinit_none h]
    refine ⟨rfl, ?_⟩
    have hreg : Registry (mem_init g).1 := Registry.init g hg
    rw [hinit_none h] at hreg
    obtain ⟨g1, hf, hn⟩ := hfree_some _ hreg (by simp)
    refine ⟨g1, hf, ?_⟩
    unfold mem_init
    simp only [hn]

theorem registry_lifecycle_witness :
    (start_globals.pool_store = none →
      mem_init start_globals =
        ({ pool_store := some (List.replicate MEM_POOL_STORE_INIT_CAPACITY (some none))
           pool_store_size := 0
           pool_store_capacity := MEM_POOL_STORE_INIT_CAPACITY }, alloc_status.ALLOC_OK)) ∧
    (start_globals.pool_store ≠ none →
      mem_init start_globals = (start_globals, alloc_status.ALLOC_CALLED_AGAIN)) ∧
    (start_globals.pool_store ≠ none →
      ∃ g1, mem_free start_globals = some (g1, alloc_status.ALLOC_OK) ∧ g1.pool_store = none) ∧
    (start_globals.pool_store = none →
      mem_free start_globals = some (start_globals, alloc_status.ALLOC_CALLED_AGAIN)) ∧
    (start_globals.pool_store = none →
      (mem_init (mem_init start_globals).1).2 = alloc_status.ALLOC_CALLED_AGAIN ∧
      ∃ g1, mem_free (mem_init start_globals).1 = some (g1, alloc_status.ALLOC_OK) ∧
        (mem_init g1).2 = alloc_status.ALLOC_OK) :=
  registry_lifecycle start_globals Registry.start

/-! ## Foreign handles, the scenario, ties in the gap index, the registry slots
and the inspection -/

/-- Whenever `mem_del_alloc` returns, on any node pointer, it returns
`ALLOC_OK`: the `return ALLOC_FAIL` after the search is never reached. -/
theorem del_alloc_ptr_status (pool m1 : pool_mgr_t) (p : node_ptr) (st : alloc_status)
    (h : mem_del_alloc_ptr pool p = some (m1, st)) : st = alloc_status.ALLOC_OK := by
  unfold mem_del_alloc_ptr at h
  simp only [Option.bind_eq_bind] at h
  rw [Option.bind_eq_some] at h
  obtain ⟨f, -, h⟩ := h
  split at h
  · cases h
  · rw [Option.bind_eq_some] at h
    obtain ⟨r, -, h⟩ := h
    rw [Option.bind_eq_some] at h
    obtain ⟨mA, -, h⟩ := h
    rw [Option.bind_eq_some] at h
    obtain ⟨mB, -, h⟩ := h
    rw [Option.bind_eq_some] at h
    obtain ⟨mC, -, h⟩ := h
    unfold index_freed at h
    simp only [Option.bind_eq_bind] at h
    rw [Option.bind_eq_some] at h
    obtain ⟨n, -, h⟩ := h
    split at h
    · rw [Option.bind_eq_some] at h
      obtain ⟨mD, -, h⟩ := h
      simp only [Option.some.injEq, Prod.mk.injEq] at h
      exact h.2.symm
    · simp only [Option.some.injEq, Prod.mk.injEq] at h
      exact h.2.symm

/-- C14 at the failing input: `pool_p` is a reachable pool with an allocation
of 100 bytes in node 0 and the tail gap of 924 bytes in node 1; `node_q` is the
allocated node of the reachable pool `pool_q`.  `mem_del_alloc` on `pool_p` with
the pointer to `node_q` returns `ALLOC_OK`: the search ends at the last node of
`pool_p`, the tail gap, which is freed once more.  `num_allocs` drops from 1 to
0, `alloc_size` wraps around to `2 ^ 64 - 824`, `num_gaps` grows from 1 to 2 and
the gap index holds the tail gap twice. -/
theorem foreign_handle_frees_last :
    Reachable 1024 alloc_policy.FIRST_FIT pool_p [0] ∧
    Reachable 1024 alloc_policy.FIRST_FIT pool_q [0] ∧
    rd pool_q.node_heap 0 = some node_q ∧ node_q.allocated = 1 ∧
    (segment_list pool_p).map (List.map layout) =
      some [(0, ⟨some 0, 100⟩, 1, 1), (1, ⟨some 100, 924⟩, 1, 0)] ∧
    (pool_p.pool.num_allocs, pool_p.pool.num_gaps, pool_p.pool.alloc_size) = (1, 1, 100) ∧
    gap_entries pool_p = some [⟨924, some 1⟩] ∧
    (mem_del_alloc_ptr pool_p (node_ptr.outside node_q)).map
        (fun x => (x.2, x.1.pool.num_allocs, x.1.pool.num_gaps, x.1.pool.alloc_size,
          gap_entries x.1)) =
      some (alloc_status.ALLOC_OK, 0, 2, 2 ^ 64 - 824,
        some [⟨924, some 1⟩, ⟨924, some 1⟩]) :=
  ⟨Reachable.alloc _ _ _ 100 0 (open_example 1024 alloc_policy.FIRST_FIT) (by rfl),
   Reachable.alloc _ _ _ 50 0 (open_example 1024 alloc_policy.FIRST_FIT) (by rfl),
   by rfl, by rfl, by rfl, by rfl, by rfl, by rfl⟩

/-- C17 as the code has it: after `mem_init`, `mem_pool_open (1024,
FIRST_FIT)` and allocations of 100, 200 and 300 bytes, which return the nodes
0, 1 and 2, the three segments are at the offsets 0, 100 and 300 and the tail
gap of 424 bytes is at offset 600; `mem_del_alloc` on the 200-byte segment
returns `ALLOC_OK` and leaves a gap of 200 bytes at offset 100, `num_allocs ==
2` and `num_gaps == 2`, the gaps being that one and the tail gap of 424
bytes. -/
theorem scenario_first_fit :
    mem_init start_globals = (init_globals, alloc_status.ALLOC_OK) ∧
    mem_pool_open init_globals 1 1024 alloc_policy.FIRST_FIT =
      some (opened_globals, some (new_pool_mgr 1024 alloc_policy.FIRST_FIT)) ∧
    (mem_new_alloc (new_pool_mgr 1024 alloc_policy.FIRST_FIT) 100).map Prod.snd =
      some (some 0) ∧
    (mem_new_alloc (after_alloc (new_pool_mgr 1024 alloc_policy.FIRST_FIT) 100) 200).map
      Prod.snd = some (some 1) ∧
    (mem_new_alloc
      (after_alloc (after_alloc (new_pool_mgr 1024 alloc_policy.FIRST_FIT) 100) 200) 300).map
      Prod.snd = some (some 2) ∧
    (segment_list first_fit_three).map (List.map layout) =
      some [(0, ⟨some 0, 100⟩, 1, 1), (1, ⟨some 100, 200⟩, 1, 1),
        (2, ⟨some 300, 300⟩, 1, 1), (3, ⟨some 600, 424⟩, 1, 0)] ∧
    mem_del_alloc first_fit_three 1 = some (first_fit_run, alloc_status.ALLOC_OK) ∧
    (segment_list first_fit_run).map (List.map layout) =
      some [(0, ⟨some 0, 100⟩, 1, 1), (1, ⟨some 100, 200⟩, 1, 0),
        (2, ⟨some 300, 300⟩, 1, 1), (3, ⟨some 600, 424⟩, 1, 0)] ∧
    gap_entries first_fit_run = some [⟨200, some 1⟩, ⟨424, some 3⟩] ∧
    first_fit_run.pool.num_allocs = 2 ∧ first_fit_run.pool.num_gaps = 2 :=
  ⟨by rfl, by rfl, by rfl, by rfl, by rfl, by rfl, by rfl, by rfl, by rfl, by rfl, by rfl⟩

/-- C17 fails as stated: after the scenario the pool has no segment of 624
bytes; its segments are of 100, 200, 300 and 424 bytes, and the sizes in the
gap index are 200 and 424. -/
theorem scenario_tail_gap_is_424 :
    (segment_list first_fit_run).map (List.map fun x => x.2.alloc_record.size) =
      some [100, 200, 300, 424] ∧
    (gap_entries first_fit_run).map (List.map gap_t.size) = some [200, 424] ∧
    (gap_entries first_fit_run).map (List.filter fun e => decide (e.size = 624)) = some [] :=
  ⟨by rfl, by rfl, by rfl⟩

theorem reachable_tie_pool :
    Reachable 1024 alloc_policy.FIRST_FIT tie_pool
      (after_calls 1024 alloc_policy.FIRST_FIT tie_calls).2 :=
  reachable_after_calls 1024 alloc_policy.FIRST_FIT tie_calls (by rfl)

/-- C18 at the failing input: in the reachable pool `tie_pool` the gap index
holds the gap of 100 bytes in node 1, at offset 924, and the gap of 200 bytes in
node 0, in this order, which is sorted by size.  `mem_del_alloc` on node 3, an
allocation of 100 bytes at offset 300 between two allocations, calls
`_mem_add_to_gap_ix (mgr, 100, node 3)`, no growth being needed.  Afterwards
`num_gaps` is 3 and the two entries of 100 bytes are in the order node 1, node
3: ascending by the address of the node in the node heap, descending by the
address in the pool (924 before 300). -/
theorem gap_ix_ties_by_slot :
    Reachable 1024 alloc_policy.FIRST_FIT tie_pool
      (after_calls 1024 alloc_policy.FIRST_FIT tie_calls).2 ∧
    (segment_list tie_pool).map (List.map layout) =
      some [(0, ⟨some 0, 200⟩, 1, 0), (2, ⟨some 200, 100⟩, 1, 1), (3, ⟨some 300, 100⟩, 1, 1),
        (4, ⟨some 400, 524⟩, 1, 1), (1, ⟨some 924, 100⟩, 1, 0)] ∧
    gap_entries tie_pool = some [⟨100, some 1⟩, ⟨200, some 0⟩] ∧
    fill_exceeded tie_pool.pool.num_gaps tie_pool.gap_ix_capacity = false ∧
    mem_del_alloc tie_pool 3 =
      (mark_free tie_pool 3).bind (fun m =>
        (_mem_add_to_gap_ix m 100 3).map fun m1 => (m1, alloc_status.ALLOC_OK)) ∧
    ((mark_free tie_pool 3).bind fun m => (_mem_add_to_gap_ix m 100 3).bind fun m1 =>
        (gap_entries m1).map fun ents => (m1.pool.num_gaps, ents)) =
      some (3, [⟨100, some 1⟩, ⟨100, some 3⟩, ⟨200, some 0⟩]) ∧
    (rd tie_pool.node_heap 1).map (fun n => n.alloc_record.mem) = some (some 924) ∧
    (rd tie_pool.node_heap 3).map (fun n => n.alloc_record.mem) = some (some 300) :=
  ⟨reachable_tie_pool, by rfl, by rfl, by rfl, by rfl, by rfl, by rfl, by rfl⟩

/-- C19 at the failing inputs: `pool_store_size` stays 0.  After `mem_init`
and `mem_pool_open` twice, of the managers at the addresses 1 and 2, slot 0 of
the store holds the second manager and no slot holds the first, which has not
been closed.  After `mem_init`, `mem_pool_open` and `mem_pool_close` of that
pool, which returns `ALLOC_OK`, slot 0 still holds the manager that was
closed. -/
theorem registry_keeps_one_slot :
    mem_pool_open init_globals 1 1024 alloc_policy.FIRST_FIT =
      some (opened_globals, some (new_pool_mgr 1024 alloc_policy.FIRST_FIT)) ∧
    opened_globals.pool_store =
      some (some (some 1) :: List.replicate 19 (some none)) ∧
    opened_globals.pool_store_size = 0 ∧
    mem_pool_open opened_globals 2 512 alloc_policy.BEST_FIT =
      some (opened_twice_globals, some (new_pool_mgr 512 alloc_policy.BEST_FIT)) ∧
    opened_twice_globals.pool_store =
      some (some (some 2) :: List.replicate 19 (some none)) ∧
    opened_twice_globals.pool_store_size = 0 ∧
    mem_pool_close opened_globals (some (1, new_pool_mgr 1024 alloc_policy.FIRST_FIT)) =
      some (opened_globals, none, alloc_status.ALLOC_OK) :=
  ⟨by rfl, by rfl, by rfl, by rfl, by rfl, by rfl, by rfl⟩

theorem nodes_segments (p : Option Nat) (off : Nat) (v : List Seg) (q : Option Nat) :
    (nodes p off v q).map (fun x =>
        some (⟨x.2.alloc_record.size, x.2.allocated⟩ : pool_segment_t)) =
      v.map fun t => some ⟨t.size, if t.al then 1 else 0⟩ := by
  induction v generalizing p off with
  | nil => rfl
  | cons s r ih => simp [nodes, ih, Seg.node]

/-- The inspection before the node heap grows: in every state of `Reachable` `mem_inspect_pool`
returns; `*num_segments` is `used_nodes`, the array has that many entries, all
of them written, and entry `k` is the `(size, allocated)` pair of the `k`-th
node of the list walked from `node_heap[0]`, whose nodes are in distinct slots.
The function writes to the new array only, so the pool is as before. -/
theorem inspect_correct (size : Nat) (policy : alloc_policy) (m : pool_mgr_t)
    (live : List Nat) (h : Reachable size policy m live) :
    ∃ l, segment_list m = some l ∧
      mem_inspect_pool m =
        some (l.map (fun x => some ⟨x.2.alloc_record.size, x.2.allocated⟩), m.used_nodes) ∧
      l.length = m.used_nodes ∧ (l.map Prod.fst).Nodup := by
  obtain ⟨v, gl, hinv, -, -⟩ := reachable_inv h
  refine ⟨_, segment_list_of_inv hinv, ?_, ?_, ?_⟩
  · rw [inspect_of_inv hinv, nodes_segments, hinv.core.used_nodes]
  · have := congrArg List.length (nodes_fst none 0 v none)
    simp only [List.length_map] at this
    rw [this, hinv.core.used_nodes]
  · rw [nodes_fst]; exact hinv.core.nodup

theorem inspect_correct_witness :
    ∃ l, segment_list first_fit_run = some l ∧
      mem_inspect_pool first_fit_run =
        some (l.map (fun x => some ⟨x.2.alloc_record.size, x.2.allocated⟩),
          first_fit_run.used_nodes) ∧
      l.length = first_fit_run.used_nodes ∧ (l.map Prod.fst).Nodup :=
  inspect_correct 1024 alloc_policy.FIRST_FIT first_fit_run [2, 0] reachable_first_fit_run

/-! ## Freeing a live handle, and the pool that is never full -/

theorem reachable_zero_mid :
    Reachable 500 alloc_policy.BEST_FIT zero_mid
      (after_calls 500 alloc_policy.BEST_FIT zero_mid_calls).2 :=
  reachable_after_calls 500 alloc_policy.BEST_FIT zero_mid_calls (by rfl)

/-- C21 at the failing input: in the reachable 500-byte `BEST_FIT` pool
`zero_mid` the live handles are the nodes 2, 1 and 0, and node 1, returned by
`mem_new_alloc (pool, 0)`, is an allocation of 0 bytes between two allocations.
`mem_del_alloc` on node 1 does not return: nothing is merged, and the call
`_mem_add_to_gap_ix (mgr, 0, node 1)` that ends it fails the assertion
`size > 0`; with a size of 1 the same call would return, the node being free. -/
theorem free_live_handle_faults :
    Reachable 500 alloc_policy.BEST_FIT zero_mid
      (after_calls 500 alloc_policy.BEST_FIT zero_mid_calls).2 ∧
    (after_calls 500 alloc_policy.BEST_FIT zero_mid_calls).2 = [2, 1, 0] ∧
    (mem_new_alloc (after_alloc (new_pool_mgr 500 alloc_policy.BEST_FIT) 10) 0).map Prod.snd =
      some (some 1) ∧
    (segment_list zero_mid).map (List.map layout) =
      some [(0, ⟨some 0, 10⟩, 1, 1), (1, ⟨some 10, 0⟩, 1, 1), (2, ⟨some 10, 10⟩, 1, 1),
        (3, ⟨some 20, 480⟩, 1, 0)] ∧
    mem_del_alloc zero_mid 1 = none ∧
    mem_del_alloc zero_mid 1 =
      (mark_free zero_mid 1).bind (fun m =>
        (_mem_add_to_gap_ix m 0 1).map fun m1 => (m1, alloc_status.ALLOC_OK)) ∧
    ((mark_free zero_mid 1).bind fun m => _mem_add_to_gap_ix m 0 1) = none ∧
    ((mark_free zero_mid 1).bind fun m => _mem_add_to_gap_ix m 1 1).isSome = true :=
  ⟨reachable_zero_mid, by rfl, by rfl, by rfl, by rfl, by rfl, by rfl, by rfl⟩

/-- An allocation that returns a node adds `s` to `alloc_size`, and the sum
stays below `total_size`: the admission check has let it pass. -/
theorem alloc_below_total {m m1 : pool_mgr_t} {live : List Nat} {v : List Seg}
    {gl : List gap_t} {s h : Nat} (hinv : Inv m live v gl)
    (ha : mem_new_alloc m s = some (m1, some h)) :
    m1.pool.alloc_size = m.pool.alloc_size + s ∧
      m.pool.alloc_size + s < m.pool.total_size ∧
      m1.pool.total_size = m.pool.total_size := by
  obtain ⟨pre, g, post, tl, gl1, hv, hsz, -, -, -, htl, hinv1, -, htot⟩ :=
    alloc_spec m m1 live v gl s h hinv ha
  subst hv
  have hle : m.pool.alloc_size ≤ m.pool.total_size := by
    rw [hinv.alloc_size, ← hinv.core.total]
    exact sum_allocs_le _
  refine ⟨?_, ?_, htot⟩
  · rw [hinv1.alloc_size, hinv.alloc_size]
    rcases htl with ⟨rfl, -⟩ | ⟨nw, rfl, -⟩
    · simp only [allocs_append, allocs_cons_free ⟨h, g, false⟩ post rfl,
        allocs_cons_alloc ⟨h, s, true⟩ _ rfl, List.nil_append, List.map_append,
        List.map_cons, List.sum_append, List.sum_cons]
      omega
    · simp only [allocs_append, allocs_cons_free ⟨h, g, false⟩ post rfl,
        allocs_cons_alloc ⟨h, s, true⟩ _ rfl, allocs_cons_free ⟨nw, g - s, false⟩ [] rfl,
        allocs_nil, List.nil_append, List.map_append, List.map_cons, List.sum_append,
        List.sum_cons]
      omega
  · unfold mem_new_alloc at ha
    by_cases h1 : m.pool.num_gaps = 0
    · simp [h1] at ha
    rw [if_neg h1] at ha
    by_cases h2 : m.pool.total_size ≤ s ∨
        sub_size_t m.pool.total_size m.pool.alloc_size ≤ s
    · simp [h2] at ha
    rw [sub_size_t_of_le hle] at h2
    omega

/-- In a pool opened with a positive size `alloc_size` stays below
`total_size`. -/
theorem reachable_below_total {size : Nat} {policy : alloc_policy} {m : pool_mgr_t}
    {live : List Nat} (hr : Reachable size policy m live) (hpos : 0 < size) :
    m.pool.alloc_size < m.pool.total_size := by
  induction hr with
  | opened g g1 addr mgr hopen =>
    rw [mem_pool_open_mgr hopen]
    exact hpos
  | alloc mgr mgr1 live sz h hr0 ha ih =>
    obtain ⟨v, gl, hinv, -, -⟩ := reachable_inv hr0
    obtain ⟨h1, h2, h3⟩ := alloc_below_total hinv ha
    omega
  | alloc_null mgr mgr1 live sz hr0 ha ih =>
    obtain ⟨v, gl, hinv, -, -⟩ := reachable_inv hr0
    obtain ⟨-, hpool, -⟩ := alloc_null_spec mgr mgr1 live v gl sz hinv ha
    rw [hpool]
    exact ih
  | del mgr mgr1 live h hr0 hh hd ih =>
    obtain ⟨-, -, -, ht0, -⟩ := reachable_inv hr0
    obtain ⟨-, -, -, ht1, -⟩ := reachable_inv (Reachable.del mgr mgr1 live h hr0 hh hd)
    obtain ⟨pre, n, post, -, -, -, hsome⟩ := free_returns_iff size policy mgr live h hr0 hh
    obtain ⟨m2, hm2, -, -, hsz⟩ := hsome (by rw [hd]; exact fun hc => by cases hc)
    rw [hd] at hm2
    simp only [Option.some.injEq, Prod.mk.injEq, and_true] at hm2
    subst hm2
    omega

/-- A pool is not full before the node heap grows: in every state of `Reachable` of a pool opened
with `total_size > 0`, `alloc_size < total_size` and `num_gaps >= 1`; the list
has a free segment of positive size, and the test `num_gaps == 0` of
`mem_new_alloc` is false. -/
theorem never_full (size : Nat) (policy : alloc_policy) (m : pool_mgr_t) (live : List Nat)
    (hr : Reachable size policy m live) (hpos : 0 < size) :
    m.pool.total_size = size ∧ m.pool.alloc_size < m.pool.total_size ∧
    1 ≤ m.pool.num_gaps ∧ m.pool.num_gaps ≠ 0 ∧
    ∃ l x, segment_list m = some l ∧ x ∈ l ∧ x.2.allocated = 0 ∧
      0 < x.2.alloc_record.size := by
  obtain ⟨v, gl, hinv, ht, -⟩ := reachable_inv hr
  have hlt := reachable_below_total hr hpos
  have hsum := sum_frees_allocs v
  rw [hinv.core.total, ← hinv.alloc_size] at hsum
  have hne : frees v ≠ [] := by
    intro hc
    rw [hc] at hsum
    simp only [List.map_nil, List.sum_nil] at hsum
    omega
  have hlen : 1 ≤ (frees v).length := List.length_pos.2 hne
  have hng : 1 ≤ m.pool.num_gaps := by
    rw [hinv.core.num_gaps, hinv.gl_length]; exact hlen
  refine ⟨ht, hlt, hng, by omega, ?_⟩
  obtain ⟨e, he⟩ := List.exists_mem_of_ne_nil _ hne
  obtain ⟨s, hs, hsa, rfl⟩ := mem_frees.1 he
  obtain ⟨x, hx, -, h2, -, h4⟩ := nodes_of_mem none 0 none hs
  refine ⟨_, x, segment_list_of_inv hinv, hx, by rw [h4, hsa]; rfl, ?_⟩
  rw [h2]
  exact hinv.free_pos (by omega) hs hsa

theorem never_full_witness :
    first_fit_run.pool.total_size = 1024 ∧
    first_fit_run.pool.alloc_size < first_fit_run.pool.total_size ∧
    1 ≤ first_fit_run.pool.num_gaps ∧ first_fit_run.pool.num_gaps ≠ 0 ∧
    ∃ l x, segment_list first_fit_run = some l ∧ x ∈ l ∧ x.2.allocated = 0 ∧
      0 < x.2.alloc_record.size :=
  never_full 1024 alloc_policy.FIRST_FIT first_fit_run [2, 0] reachable_first_fit_run
    (by decide)

/-! ## The growth of the node heap

`_mem_resize_node_heap` lets `realloc` move the nodes to a new block and
re-bases no pointer.  The theorems of this section evaluate the code at the
first call that grows the heap. -/

theorem reachable_thirty :
    Reachable 1024 alloc_policy.FIRST_FIT thirty
      (after_calls 1024 alloc_policy.FIRST_FIT thirty_calls).2 :=
  reachable_after_calls 1024 alloc_policy.FIRST_FIT thirty_calls (by rfl)

/-- C1 at the failing input: the 1024-byte `FIRST_FIT` pool `thirty`, reached
by thirty allocations of one byte, has a list of 31 segments whose sizes sum to
1024.  The next `mem_new_alloc (pool, 1)` passes the admission check, 994 bytes
being free, and grows the node heap, 31 / 40 being above 0.75: `total_nodes`
becomes 80 and `node_heap` points at a new block, the cells from 40 on.  The
links are not re-based: `node_heap[0]`, the segment at offset 0, still has the
released cell 1 as its `next`, so the walk from `node_heap[0]` through the
`next` links leaves the node heap after the first node. -/
theorem growth_breaks_list :
    Reachable 1024 alloc_policy.FIRST_FIT thirty
      (after_calls 1024 alloc_policy.FIRST_FIT thirty_calls).2 ∧
    (segment_list thirty).map
        (fun l => (l.length, (l.map fun x => x.2.alloc_record.size).sum)) = some (31, 1024) ∧
    (thirty.used_nodes, thirty.total_nodes, node_heap_ptr thirty) = (31, 40, 0) ∧
    (thirty.pool.num_gaps, thirty.pool.total_size,
      sub_size_t thirty.pool.total_size thirty.pool.alloc_size) = (1, 1024, 994) ∧
    fill_exceeded thirty.used_nodes thirty.total_nodes = true ∧
    (thirty_grown.total_nodes, node_heap_ptr thirty_grown) = (80, 40) ∧
    (rd thirty_grown.node_heap 40).map (fun n => (n.alloc_record, n.next)) =
      some (⟨some 0, 1⟩, some 1) ∧
    rd thirty_grown.node_heap 1 = none ∧
    segment_list thirty_grown = none :=
  ⟨reachable_thirty, by rfl, by rfl, by rfl, by rfl, by rfl, by rfl, by rfl, by rfl⟩

/-- C2 at the failing input: in the reachable pool `fragmented` the flags
along the list are free, allocated, free, 27 times allocated, free.  The next
`mem_new_alloc (pool, 1)` passes the admission check and grows the node heap.
Afterwards `node_heap[0]`, a free segment, has the released cell 1 as its
`next`, and the copy of its neighbour, cell 41, has the released cell 0 as its
`prev`: the flags of a node and of its `next` are no longer those of two
neighbours of the list. -/
theorem growth_breaks_neighbours :
    Reachable 1024 alloc_policy.FIRST_FIT fragmented
      (after_calls 1024 alloc_policy.FIRST_FIT fragmented_calls).2 ∧
    (segment_list fragmented).map (List.map fun x => x.2.allocated) =
      some (0 :: 1 :: 0 :: (List.replicate 27 1 ++ [0])) ∧
    (fragmented.pool.num_gaps, fragmented.pool.total_size,
      sub_size_t fragmented.pool.total_size fragmented.pool.alloc_size) = (3, 1024, 996) ∧
    fill_exceeded fragmented.used_nodes fragmented.total_nodes = true ∧
    node_heap_ptr fragmented_grown = 40 ∧
    (rd fragmented_grown.node_heap 40).map (fun n => (n.allocated, n.next)) =
      some (0, some 1) ∧
    rd fragmented_grown.node_heap 1 = none ∧
    (rd fragmented_grown.node_heap 41).map (fun n => (n.allocated, n.prev)) =
      some (1, some 0) ∧
    rd fragmented_grown.node_heap 0 = none :=
  ⟨reachable_fragmented, by rfl, by rfl, by rfl, by rfl, by rfl, by rfl, by rfl, by rfl⟩

/-- C3 at the failing input: the gap index of the reachable pool `fragmented`
holds the gaps of 1, 1 and 994 bytes, in the nodes 0, 2 and 30.  After the
growth of the node heap in the next `mem_new_alloc (pool, 1)` the three entries
are as before, and each of them references a cell of the released block; the
free used nodes are the cells 40, 42 and 70 of the new block, and no entry
references one of them. -/
theorem growth_breaks_gap_index :
    Reachable 1024 alloc_policy.FIRST_FIT fragmented
      (after_calls 1024 alloc_policy.FIRST_FIT fragmented_calls).2 ∧
    gap_entries fragmented = some [⟨1, some 0⟩, ⟨1, some 2⟩, ⟨994, some 30⟩] ∧
    (gap_entries fragmented).map (List.map fun e => (e.node.bind (rd fragmented.node_heap)).map
        fun n => (n.alloc_record.size, n.used, n.allocated)) =
      some [some (1, 1, 0), some (1, 1, 0), some (994, 1, 0)] ∧
    fill_exceeded fragmented.used_nodes fragmented.total_nodes = true ∧
    node_heap_ptr fragmented_grown = 40 ∧
    gap_entries fragmented_grown = some [⟨1, some 0⟩, ⟨1, some 2⟩, ⟨994, some 30⟩] ∧
    (gap_entries fragmented_grown).map
        (List.map fun e => e.node.bind (rd fragmented_grown.node_heap)) =
      some [none, none, none] ∧
    ((List.range 80).filter fun i =>
        (rd fragmented_grown.node_heap (40 + i)).map (fun n => (n.used, n.allocated)) ==
          some (1, 0)) = [0, 2, 30] :=
  ⟨reachable_fragmented, by rfl, by rfl, by rfl, by rfl, by rfl, by rfl, by rfl⟩

/-- C4 at the failing input: in the reachable pool `fragmented` the counters
are `num_allocs == 28`, `num_gaps == 3` and `alloc_size == 28`, and the list has
28 allocated segments, of 28 bytes, and 3 free ones.  The growth of the node
heap in the next `mem_new_alloc (pool, 1)` leaves the counters as they are, and
the list they count is gone: the walk from `node_heap[0]` ends in the released
block, in which the handles of the allocated segments lie too, such as the
handle 1, whose node is now cell 41. -/
theorem growth_breaks_counters :
    Reachable 1024 alloc_policy.FIRST_FIT fragmented
      (after_calls 1024 alloc_policy.FIRST_FIT fragmented_calls).2 ∧
    (fragmented.pool.num_allocs, fragmented.pool.num_gaps, fragmented.pool.alloc_size) =
      (28, 3, 28) ∧
    (segment_list fragmented).map (fun l =>
        ((l.filter fun x => decide (x.2.allocated = 1)).length,
         (l.filter fun x => decide (x.2.allocated = 0)).length,
         ((l.filter fun x => decide (x.2.allocated = 1)).map
           fun x => x.2.alloc_record.size).sum)) = some (28, 3, 28) ∧
    fill_exceeded fragmented.used_nodes fragmented.total_nodes = true ∧
    (fragmented_grown.pool.num_allocs, fragmented_grown.pool.num_gaps,
      fragmented_grown.pool.alloc_size) = (28, 3, 28) ∧
    segment_list fragmented_grown = none ∧
    (rd fragmented.node_heap 1).map (fun n => n.allocated) = some 1 ∧
    rd fragmented_grown.node_heap 1 = none ∧
    (rd fragmented_grown.node_heap 41).map (fun n => n.allocated) = some 1 :=
  ⟨reachable_fragmented, by rfl, by rfl, by rfl, by rfl, by rfl, by rfl, by rfl, by rfl⟩

/-- C5 at the failing input: `mem_new_alloc (pool, 1)` on the reachable pool
`fragmented` grows the node heap; its `FIRST_FIT` loop stops at `node_heap[0]`,
now cell 40, a gap of one byte, the assertion of the size check reads the node
of `gap_ix[0]`, the released cell 0, and the commit returns cell 40.  The
`next` of the returned node is the released cell 1, which `mem_del_alloc` on
the handle reads for the merge, and which the walk of `mem_inspect_pool`
follows. -/
theorem growth_breaks_round_trip :
    Reachable 1024 alloc_policy.FIRST_FIT fragmented
      (after_calls 1024 alloc_policy.FIRST_FIT fragmented_calls).2 ∧
    (mem_inspect_pool fragmented).map (fun x => (x.1.length, x.2)) = some (31, 31) ∧
    fill_exceeded fragmented.used_nodes fragmented.total_nodes = true ∧
    first_fit fragmented_grown.node_heap 1 fragmented_grown.node_heap.length
      (node_heap_ptr fragmented_grown) = some 40 ∧
    (commit_alloc fragmented_grown 40 1).map Prod.snd = some (some 40) ∧
    ((commit_alloc fragmented_grown 40 1).bind fun x => rd x.1.node_heap 40).map
        (fun n => (n.allocated, n.next)) = some (1, some 1) ∧
    ((commit_alloc fragmented_grown 40 1).bind fun x => rd x.1.node_heap 1) = none ∧
    ((commit_alloc fragmented_grown 40 1).bind fun x => mem_inspect_pool x.1) = none :=
  ⟨reachable_fragmented, by rfl, by rfl, by rfl, by rfl, by rfl, by rfl, by rfl⟩

/-- C20 at the failing input: on the reachable pool `thirty`
`mem_inspect_pool` reports 31 segments.  The next `mem_new_alloc (pool, 1)`
grows the node heap, and from then on the walk of `mem_inspect_pool`, which
starts at `node_heap[0]`, now cell 40, follows the `next` of that node into the
released block: the entries after the first are read from released memory. -/
theorem growth_breaks_inspect :
    Reachable 1024 alloc_policy.FIRST_FIT thirty
      (after_calls 1024 alloc_policy.FIRST_FIT thirty_calls).2 ∧
    (mem_inspect_pool thirty).map (fun x => (x.1.length, x.2, x.1.head?, x.1.getLast?)) =
      some (31, 31, some (some ⟨1, 1⟩), some (some ⟨994, 0⟩)) ∧
    fill_exceeded thirty.used_nodes thirty.total_nodes = true ∧
    (thirty_grown.used_nodes, node_heap_ptr thirty_grown) = (31, 40) ∧
    (rd thirty_grown.node_heap 40).map (fun n => (n.alloc_record.size, n.allocated, n.next)) =
      some (1, 1, some 1) ∧
    rd thirty_grown.node_heap 1 = none ∧
    mem_inspect_pool thirty_grown = none :=
  ⟨reachable_thirty, by rfl, by rfl, by rfl, by rfl, by rfl, by rfl⟩

/-- C22 at the failing input: the reachable pool `thirty` has the live
handles 29 down to 0, each to an allocated node.  The next
`mem_new_alloc (pool, 1)` grows the node heap.  Afterwards every one of these
handles is the address of a released cell, and the nodes are the cells 40 to 69
of the new block: the search loop of `mem_del_alloc`, which compares the
addresses of the nodes from `node_heap[0]` on with the handle, does not meet the
handle 0 at `node_heap[0]` and goes on into the released block. -/
theorem growth_breaks_handles :
    Reachable 1024 alloc_policy.FIRST_FIT thirty
      (after_calls 1024 alloc_policy.FIRST_FIT thirty_calls).2 ∧
    (after_calls 1024 alloc_policy.FIRST_FIT thirty_calls).2 = (List.range 30).reverse ∧
    ((List.range 30).map fun h => (rd thirty.node_heap h).map fun n => n.allocated) =
      List.replicate 30 (some 1) ∧
    (thirty.pool.alloc_size, thirty.pool.total_size) = (30, 1024) ∧
    fill_exceeded thirty.used_nodes thirty.total_nodes = true ∧
    node_heap_ptr thirty_grown = 40 ∧
    ((List.range 30).map fun h => rd thirty_grown.node_heap h) = List.replicate 30 none ∧
    ((List.range 30).map fun h => (rd thirty_grown.node_heap (40 + h)).map fun n => n.allocated) =
      List.replicate 30 (some 1) ∧
    find_node thirty_grown.node_heap 0 thirty_grown.node_heap.length
      (node_heap_ptr thirty_grown) = none :=
  ⟨reachable_thirty, by rfl, by rfl, by rfl, by rfl, by rfl, by rfl, by rfl, by rfl⟩

end MemPool
